import Mathlib

/-! # go-moon: the type-keyed injector (`inject/inject.go`) and the request pipeline (`moon.go`)

A shallow embedding of the injector (`Map`, `MapTo`, `Set`, `Get`, `SetParent`, `Invoke`,
`Apply`) and of the request context (`handler`, `Next`, `run`), followed by theorems
about them.

Modelling conventions.

* A `reflect.Type` is a `Ty`: the nil Type (an interface value that holds no type), a named
  type with its kind and method set, or a pointer.
* A `reflect.Value` is an `RValue := Option Val`; `none` is the zero `reflect.Value`,
  the one for which `IsValid()` is false.  An `interface{}` argument is an `Option Val` as
  well; `none` is the nil interface.
* Injectors are heap objects reached through pointers (`*injector`); the heap is a
  `Store`, a map from addresses to `injector` records, and every mutating method returns
  the new store.
* Go leaves the iteration order of `range` over a map unspecified.  Every function that
  contains such a loop takes an `Order`, the order in which the loop visits the entries.
* What `reflect.Value.Call` and `reflect.Value.Set` accept is a parameter `accepts` of the
  functions that call them: `accepts v t` says that `reflect` takes the value `v` for a
  parameter or a field of type `t` (the value is assignable to the type and was not read
  from an unexported field).  The theorems hold for every such relation.
* Recursion through the parent link (and, in the pipeline, through `Next`) is bounded by a
  fuel argument; a timeout result means that the fuel ran out.
* The cursor of the pipeline is a Go `int`, here of 64 bits: an `Int` that wraps around
  from the largest to the smallest value.
-/

namespace Inject

/-! ## Types and values -/

/-- The kinds of `reflect.Kind` the code distinguishes, for types that are not pointers
(`reflect.Ptr` is the constructor `Ty.ptr`). -/
inductive Kind
  | Interface
  | Func
  | Struct
  | Other
  deriving DecidableEq, Repr

/-- A `reflect.Type`: the nil Type (what `reflect.TypeOf(nil)` returns, an interface value
without a type in it), a type with its name, kind and method set, or a pointer to a type
(with the method set of the pointer type). -/
inductive Ty
  | nil
  | named (name : String) (kind : Kind) (methods : List String)
  | ptr (elem : Ty) (methods : List String)
  deriving DecidableEq, Repr

/-- The method set of a type. -/
def Ty.methods : Ty → List String
  | .nil => []
  | .named _ _ ms => ms
  | .ptr _ ms => ms

/-- `t.Kind() == reflect.Interface`, for a type other than the nil Type (on which the
method call panics; the callers test for it first). -/
def Ty.isInterface : Ty → Bool
  | .nil => false
  | .named _ k _ => decide (k = Kind.Interface)
  | .ptr _ _ => false

/-- `t.Kind() == reflect.Func`, for a type other than the nil Type. -/
def Ty.isFunc : Ty → Bool
  | .nil => false
  | .named _ k _ => decide (k = Kind.Func)
  | .ptr _ _ => false

/-- `k.Implements(t)` for a type `k` other than the nil Type and an interface type `t`:
every method of `t` is in the method set of `k`.  (The code calls it only under
`t.Kind() == reflect.Interface`; on a nil `k` the method call panics, which `scan` tests
first.) -/
def Ty.Implements (k t : Ty) : Bool :=
  t.methods.all (fun m => k.methods.contains m)

/-- The text `%v` prints for a type. -/
def Ty.String : Ty → String
  | .nil => "<nil>"
  | .named n _ _ => n
  | .ptr e _ => "*" ++ e.String

/-- A non-nil `interface{}` value: its dynamic type and its contents. -/
structure Val where
  typ : Ty
  data : Nat
  deriving DecidableEq, Repr

/-- A `reflect.Value`; `none` is the zero Value (`IsValid()` is false). -/
abbrev RValue := Option Val

/-- `v.IsValid()`. -/
def IsValid (v : RValue) : Bool := v.isSome

/-- `reflect.TypeOf(val)` for an `interface{}` argument: the nil Type for the nil
interface, the dynamic type otherwise. -/
def TypeOf : Option Val → Ty
  | none => .nil
  | some v => v.typ

/-- `reflect.ValueOf(val)` for an `interface{}` argument: the zero Value for the nil
interface. -/
def ValueOf (val : Option Val) : RValue := val

/-! ## The injector and the store -/

/-- An address of an `injector`. -/
abbrev Ptr := Nat

/-- An entry of `map[reflect.Type]reflect.Value`. -/
abbrev Entry := Ty × RValue

/-- The struct `injector`: the `values` map (as the list of its entries) and the parent
link (`none` is the nil interface). -/
structure injector where
  values : List Entry
  parent : Option Ptr
  deriving DecidableEq, Repr

/-- The heap of injectors. -/
abbrev Store := Ptr → injector

/-- `New()`: the record of a fresh injector, an empty map and no parent. -/
def New : injector := { values := [], parent := none }

/-- The map read `m[k]`: the value stored under `k`, or the zero Value. -/
def mapIndex (m : List Entry) (k : Ty) : RValue :=
  match m.find? (fun e => decide (e.1 = k)) with
  | some e => e.2
  | none => none

/-- The map write `m[k] = v`: any entry under `k` is replaced. -/
def mapAssign (m : List Entry) (k : Ty) (v : RValue) : List Entry :=
  (k, v) :: m.filter (fun e => !decide (e.1 = k))

/-- The order in which a `range` loop over the `values` map of the injector at an address
visits the entries. -/
abbrev Order := Ptr → List Entry → List Entry

/-- An order is one Go can produce: the loop visits every entry exactly once. -/
def Order.Valid (ord : Order) : Prop := ∀ p m, (ord p m).Perm m

/-- `InterfaceOf(value)`, on the type of its argument: strips the pointers and returns the
interface type underneath; `none` is a panic: the one of `InterfaceOf` for a type that is
not an interface, or the one of `t.Kind()` on the nil Type of a nil argument. -/
def InterfaceOf : Ty → Option Ty
  | .nil => none
  | .ptr e _ => InterfaceOf e
  | .named n k ms => if k = Kind.Interface then some (.named n k ms) else none

/-- `i.Map(val)`: `i.values[reflect.TypeOf(val)] = reflect.ValueOf(val)`. -/
def Map (s : Store) (i : Ptr) (val : Option Val) : Store :=
  Function.update s i { s i with values := mapAssign (s i).values (TypeOf val) (ValueOf val) }

/-- `i.Set(typ, val)`: `i.values[typ] = val`. -/
def Set (s : Store) (i : Ptr) (typ : Ty) (val : RValue) : Store :=
  Function.update s i { s i with values := mapAssign (s i).values typ val }

/-- `i.MapTo(val, ifacePtr)`: `i.values[InterfaceOf(ifacePtr)] = reflect.ValueOf(val)`;
`ifacePtr` is given by its type, and `none` is the panic of `InterfaceOf`. -/
def MapTo (s : Store) (i : Ptr) (val : Option Val) (ifacePtr : Ty) : Option Store :=
  match InterfaceOf ifacePtr with
  | some t =>
    some (Function.update s i { s i with values := mapAssign (s i).values t (ValueOf val) })
  | none => none

/-- `i.SetParent(parent)`. -/
def SetParent (s : Store) (i : Ptr) (parent : Option Ptr) : Store :=
  Function.update s i { s i with parent := parent }

/-- The implementor loop of `Get`:
`for k, v := range i.values { if k.Implements(t) { val = v; break } }`,
over the entries in the order the loop visits them.  `none` is the panic of the method
call `k.Implements` on a key that is the nil Type. -/
def scan (t : Ty) : List Entry → RValue → Option RValue
  | [], val => some val
  | (k, v) :: rest, val =>
    if k = Ty.nil then none
    else if k.Implements t then some v
    else scan t rest val

/-- How a call of `Get` ends: it returns a Value, it panics, or the fuel of the model ran
out. -/
inductive Got
  | value (v : RValue)
  | panic
  | timeout
  deriving DecidableEq, Repr

/-- `i.Get(t)`.  After a lookup without a valid Value, `t.Kind()` panics when `t` is the
nil Type, and the scan panics at a key that is the nil Type. -/
def Get (ord : Order) : Nat → Store → Ptr → Ty → Got
  | 0, _, _, _ => .timeout
  | fuel + 1, s, i, t =>
    let val := mapIndex (s i).values t
    if IsValid val then .value val
    else if t = Ty.nil then .panic
    else
      match (if t.isInterface then scan t (ord i (s i).values) val else some val) with
      | none => .panic
      | some val =>
        match (s i).parent with
        | some p => if !IsValid val then Get ord fuel s p t else .value val
        | none => .value val

/-- A map holds an exact or satisfying registration for `t`: an entry whose key is `t`, or,
for an interface `t`, an entry whose key implements `t`. -/
def holds (m : List Entry) (t : Ty) : Bool :=
  m.any (fun e => decide (e.1 = t) || (t.isInterface && e.1.Implements t))

/-- Every Value registered in a map is valid (no zero `reflect.Value` is stored). -/
def allValid (m : List Entry) : Bool := m.all (fun e => IsValid e.2)

/-- No registration of a map is keyed by the nil Type. -/
def noNilKey (m : List Entry) : Bool := m.all (fun e => !decide (e.1 = Ty.nil))

/-- The containers on the parent chain of `p`, `p` first, as far as `n` links reach. -/
def chain (s : Store) : Nat → Ptr → List Ptr
  | 0, _ => []
  | n + 1, p =>
    p :: (match (s p).parent with
      | some q => chain s n q
      | none => [])

/-! ## Invoke -/

/-- A statement of a handler body, as far as the injector and the pipeline can observe it:
it appends a line to a log, calls `Next()` on the request context, writes the response,
or registers a value in the request context with `Map`. -/
inductive Stmt
  | log (msg : String)
  | next
  | write
  | map (val : Option Val)
  deriving DecidableEq, Repr

/-- A Go function value: its parameter types (`t.In(i)` for `i < t.NumIn()`), for a
variadic function `func(.., ...T)` the element type `T` of its last parameter (whose type
`t.In(NumIn-1)` is the slice type), whether it is a nil function, what its body does when
`reflect` calls it with given arguments, and the values it returns. -/
structure Func where
  ins : List Ty
  variadic : Option Ty := none
  isNil : Bool := false
  body : List Val → List Stmt
  outs : List Val → List Val

/-- An `interface{}` handed to `Invoke` (a `Handler` of the pipeline): a function, or a
value of another kind. -/
inductive Callable
  | func (f : Func)
  | other (v : Val)

/-- `reflect.TypeOf(handler).Kind() == reflect.Func`. -/
def Callable.isFunc : Callable → Bool
  | .func _ => true
  | .other _ => false

/-- What `Invoke` did: the returned slice (`none` is the nil slice), the returned error, the
argument lists of the calls it made to the function, and whether it panicked. -/
structure InvokeResult where
  results : Option (List Val)
  err : Option String
  calls : List (List Val)
  panicked : Bool
  deriving DecidableEq, Repr

/-- The text of `fmt.Errorf("Value not found for type %v", t)`. -/
def notFoundError (t : Ty) : String := "Value not found for type " ++ t.String

/-- How the loop of `Invoke` ends: with the resolved arguments, with the early return for a
type without a valid value, with a panic of `Get`, or out of fuel. -/
inductive Resolved
  | args (vals : List Val)
  | missing (t : Ty)
  | panic
  | timeout
  deriving DecidableEq, Repr

/-- The loop of `Invoke`, from parameter index `i` on: resolves the parameter types in
declared order with `Get` (the `range` order of the `i`-th resolution is `ords i`) and stops
at the first one that has no valid value. -/
def resolveIn (ords : Nat → Order) (fuel : Nat) (s : Store) (inj : Ptr) :
    Nat → List Ty → Resolved
  | _, [] => .args []
  | i, argType :: rest =>
    match Get (ords i) fuel s inj argType with
    | .timeout => .timeout
    | .panic => .panic
    | .value none => .missing argType
    | .value (some val) =>
      match resolveIn ords fuel s inj (i + 1) rest with
      | .args vals => .args (val :: vals)
      | r => r

/-- The checks of `reflect.Value.Call(in)` on a function and `NumIn()` arguments: the
function is not nil; `reflect` accepts every argument for its parameter; for a variadic
function this holds for the parameters before the last, and the last argument, which
`Call` takes as the one element of the variadic slice, is accepted for the element
type. -/
def callable (accepts : Val → Ty → Bool) (fn : Func) (args : List Val) : Bool :=
  !fn.isNil &&
  match fn.variadic with
  | none => (List.zip args fn.ins).all (fun p => accepts p.1 p.2)
  | some elem =>
    (List.zip args.dropLast fn.ins.dropLast).all (fun p => accepts p.1 p.2) &&
    (match args.getLast? with
     | some x => accepts x elem
     | none => true)

/-- The slice `reflect.Value.Call` returns: the nil slice for a function without
results. -/
def results (outs : List Val) : Option (List Val) :=
  if outs.isEmpty then none else some outs

/-- The result of an `Invoke` that panicked. -/
def invokePanic : InvokeResult := { results := none, err := none, calls := [], panicked := true }

/-- `inj.Invoke(f)`.  `t.NumIn()` panics when `f` is not a function, a `Get` may panic, and
`reflect.ValueOf(f).Call(in)` panics when it does not accept the function and the
arguments.  `calls` records the slice `in` handed to `Call`.  `none` means the fuel ran
out. -/
def Invoke (accepts : Val → Ty → Bool) (ords : Nat → Order) (fuel : Nat) (s : Store)
    (inj : Ptr) (f : Callable) : Option InvokeResult :=
  match f with
  | .other _ => some invokePanic
  | .func fn =>
    match resolveIn ords fuel s inj 0 fn.ins with
    | .timeout => none
    | .panic => some invokePanic
    | .missing t =>
      some { results := none, err := some (notFoundError t), calls := [], panicked := false }
    | .args args =>
      if callable accepts fn args then
        some { results := results (fn.outs args), err := none, calls := [args],
               panicked := false }
      else some invokePanic

/-! ## Apply -/

/-- A `reflect.StructTag`: the raw tag string and the key/value pairs that
`StructTag.Get` parses out of it. -/
structure StructTag where
  raw : String
  pairs : List (String × String)
  deriving DecidableEq, Repr

/-- `tag.Get(key)`: the value under `key`, or the empty string. -/
def StructTag.Get (tag : StructTag) (key : String) : String :=
  match tag.pairs.find? (fun p => decide (p.1 = key)) with
  | some p => p.2
  | none => ""

/-- A field of a struct value: its declaration (`t.Field(i)`) and its content
(`v.Field(i)`; `none` is an empty interface or nil content). -/
structure StructField where
  name : String
  typ : Ty
  tag : StructTag
  exported : Bool
  value : RValue
  deriving DecidableEq, Repr

/-- The value handed to `Apply`: a pointer to a value, a struct, or a value of another
kind (the zero Value that `Elem()` of a nil pointer or `ValueOf` of the nil interface
gives included). -/
inductive Target
  | ptr (elem : Target)
  | struct (fields : List StructField)
  | other
  deriving DecidableEq, Repr

/-- The condition of `Apply` on the tag:
`structField.Tag == "inject" || structField.Tag.Get("inject") != ""`. -/
def tagged (f : StructField) : Bool :=
  decide (f.tag.raw = "inject") || !decide (f.tag.Get "inject" = "")

/-- `f.CanSet()`: the field is addressable (the struct was reached through a pointer) and
exported. -/
def CanSet (addressable : Bool) (f : StructField) : Bool := addressable && f.exported

/-- What `Apply` did: the fields of the struct afterwards, the returned error, and whether
it panicked. -/
structure ApplyResult where
  fields : List StructField
  err : Option String
  panicked : Bool
  deriving DecidableEq, Repr

/-- The field loop of `Apply`, from field index `i` on.  A `Get` may panic, and `f.Set(v)`
panics when `reflect` does not accept `v` for the field.  `none` means the fuel ran
out. -/
def applyFields (accepts : Val → Ty → Bool) (ords : Nat → Order) (fuel : Nat) (s : Store)
    (inj : Ptr) (addressable : Bool) : Nat → List StructField → Option ApplyResult
  | _, [] => some { fields := [], err := none, panicked := false }
  | i, f :: rest =>
    if CanSet addressable f && tagged f then
      match Get (ords i) fuel s inj f.typ with
      | .timeout => none
      | .panic => some { fields := f :: rest, err := none, panicked := true }
      | .value none =>
        some { fields := f :: rest, err := some (notFoundError f.typ), panicked := false }
      | .value (some v) =>
        if accepts v f.typ then
          match applyFields accepts ords fuel s inj addressable (i + 1) rest with
          | none => none
          | some r => some { r with fields := { f with value := some v } :: r.fields }
        else
          some { fields := f :: rest, err := none, panicked := true }
    else
      match applyFields accepts ords fuel s inj addressable (i + 1) rest with
      | none => none
      | some r => some { r with fields := f :: r.fields }

/-- `inj.Apply(val)`, on the value after `reflect.ValueOf`: follows the pointers, returns
nil for a value that is not a struct, and runs the field loop on a struct.  The result
carries the fields of the struct afterwards (none for a value that is not a struct). -/
def Apply (accepts : Val → Ty → Bool) (ords : Nat → Order) (fuel : Nat) (s : Store)
    (inj : Ptr) : Bool → Target → Option ApplyResult
  | _, .ptr e => Apply accepts ords fuel s inj true e
  | addressable, .struct fields => applyFields accepts ords fuel s inj addressable 0 fields
  | _, .other => some { fields := [], err := none, panicked := false }

/-- The fields of the struct that a value handed to `Apply` leads to (none when it does
not lead to a struct). -/
def Target.fields : Target → List StructField
  | .ptr e => e.fields
  | .struct fs => fs
  | .other => []

/-- Whether the struct that a value leads to is addressable when `Apply` reaches it: it is
when a pointer was followed on the way. -/
def Target.addressable : Bool → Target → Bool
  | _, .ptr e => Target.addressable true e
  | a, .struct _ => a
  | a, .other => a

end Inject

namespace Moon

open Inject

/-! ## The request context and the pipeline -/

/-- The largest value of a Go `int` of 64 bits. -/
def maxInt : Int := 9223372036854775807

/-- The smallest value of a Go `int` of 64 bits. -/
def minInt : Int := -9223372036854775808

/-- The struct `context` of a request, with the heap its injector lives in: the embedded
`inject.Injector` is the injector at address `inj` of `store`, `written` is what
`c.rw.Written()` reports, and `index` is the cursor, a Go `int`.  Three more fields record
what an observer sees: `log` is the lines the handler bodies have logged, `invoked` is the
values of the cursor at which a handler body has been entered, in the order of entry, and
`overflowed` says that the cursor has wrapped around. -/
structure context where
  store : Store
  inj : Ptr
  handlers : List Callable
  action : Callable
  written : Bool
  index : Int
  log : List String
  invoked : List Int
  overflowed : Bool

/-- `c.index += 1` on the `int` cursor: the largest value wraps around to the smallest. -/
def advance (c : context) : context :=
  if c.index = maxInt then { c with index := minInt, overflowed := true }
  else { c with index := c.index + 1 }

/-- How a call of `run` (or of a handler) ends: it returns, it panics, or the fuel of the
model ran out. -/
inductive Res
  | done (c : context)
  | panic (msg : String) (c : context)
  | timeout

/-- The body a `Handler` runs when `reflect` calls it. -/
def body : Callable → List Val → List Stmt
  | .func fn => fn.body
  | .other _ => fun _ => []

/-- The message of the run-time panic of an index expression out of range. -/
def outOfRange : String := "runtime error: index out of range"

/-- The message of the panic of `handler()`. -/
def invalidIndex : String := "invalid index for context handler"

/-- `c.handler()`: the middleware at the cursor, the action when the cursor is the number
of middleware handlers, and an error for a panic: the run-time panic of the index
expression `c.handlers[c.index]` at a negative cursor, or the panic "invalid index for
context handler". -/
def handler (c : context) : Except String Callable :=
  if c.index < (c.handlers.length : Int) then
    if c.index < 0 then .error outOfRange
    else
      match c.handlers[c.index.toNat]? with
      | some h => .ok h
      | none => .error outOfRange
  else if c.index = (c.handlers.length : Int) then .ok c.action
  else .error invalidIndex

/-- `c.Written()`. -/
def Written (c : context) : Bool := c.written

/-- The one message that stands for every panic inside `Invoke`: the panics of `reflect`
(`NumIn` of a handler that is not a function, `Call` of a nil function or with an argument
it does not accept) and the run-time panic of a `Get` (a method call on the nil Type).
The texts of the source vary with the types involved; none of them is the text of a
resolution error. -/
def reflectPanic : String := "reflect or run-time panic inside Invoke"

mutual

/-- `c.run()`.  The `range` order of the resolutions made for the `k`-th invoked handler is
`ords k`; `g` is the fuel of each `Get`. -/
def run (accepts : Val → Ty → Bool) (ords : Nat → Nat → Order) (g : Nat) :
    Nat → context → Res
  | 0, _ => .timeout
  | n + 1, c =>
    if c.index ≤ (c.handlers.length : Int) then
      match handler c with
      | .error msg => .panic msg c
      | .ok h =>
        match invoke accepts ords g n c h with
        | .done c1 =>
          let c2 := advance c1
          if Written c2 then .done c2 else run accepts ords g n c2
        | r => r
    else .done c

/-- The two lines `_, err := c.Invoke(h)` and `if err != nil { panic(err) }` of `run`: the
parameters are resolved by `Inject.Invoke` in the injector of the context, the body of the
handler runs for the call that `Invoke` makes, and an error is turned into a panic. -/
def invoke (accepts : Val → Ty → Bool) (ords : Nat → Nat → Order) (g : Nat) :
    Nat → context → Callable → Res
  | 0, _, _ => .timeout
  | n + 1, c, h =>
    match Inject.Invoke accepts (ords c.invoked.length) g c.store c.inj h with
    | none => .timeout
    | some r =>
      if r.panicked then .panic reflectPanic c
      else
        match r.calls with
        | [] =>
          match r.err with
          | some e => .panic e c
          | none => .done c
        | args :: _ =>
          match exec accepts ords g n (body h args)
              { c with invoked := c.invoked ++ [c.index] } with
          | .done c1 =>
            match r.err with
            | some e => .panic e c1
            | none => .done c1
          | r1 => r1

/-- The body of a handler, statement by statement.  `Stmt.next` is `c.Next()`:
`c.index += 1` and then `c.run()`. -/
def exec (accepts : Val → Ty → Bool) (ords : Nat → Nat → Order) (g : Nat) :
    Nat → List Stmt → context → Res
  | 0, _, _ => .timeout
  | _ + 1, [], c => .done c
  | n + 1, st :: rest, c =>
    match st with
    | .log msg => exec accepts ords g n rest { c with log := c.log ++ [msg] }
    | .write => exec accepts ords g n rest { c with written := true }
    | .map val => exec accepts ords g n rest { c with store := Map c.store c.inj val }
    | .next =>
      match run accepts ords g n (advance c) with
      | .done c1 => exec accepts ords g n rest c1
      | r => r

end

/-- The context a result carries: the one returned, or the one at the panic. -/
def Res.context : Res → Option context
  | .done c => some c
  | .panic _ c => some c
  | .timeout => none

/-- What every step of the pipeline keeps or only moves forward, from a context `c` to a
later context `c1`: the handlers, the action and the injector are the same, the parent
links of the store are the same, a response that was written is still written, a cursor
that has wrapped around is still marked so, the cursor has not decreased unless it has
wrapped around, and the handlers invoked before are still the first ones invoked. -/
structure Follows (c c1 : context) : Prop where
  handlers : c1.handlers = c.handlers
  action : c1.action = c.action
  inj : c1.inj = c.inj
  parents : ∀ p, (c1.store p).parent = (c.store p).parent
  written : c.written = true → c1.written = true
  overflowed : c.overflowed = true → c1.overflowed = true
  index : c1.overflowed = false → c.index ≤ c1.index
  invoked : c.invoked <+: c1.invoked

/-- A context of a pipeline with the middleware `H`, the action `A` and the injector at
`inj`, in which nothing is written, the cursor has not wrapped around, and whose store
satisfies `I`. -/
structure Steady (H : List Callable) (A : Callable) (inj : Ptr) (I : Store → Prop)
    (c : context) : Prop where
  handlers : c.handlers = H
  action : c.action = A
  inj : c.inj = inj
  store : I c.store
  written : c.written = false
  overflowed : c.overflowed = false

/-- How the traversal of a pipeline with the middleware `H` ends when no handler writes the
response, for a result `r` of `run`: `run` has returned a steady context with the cursor
above the number of middleware handlers, or the cursor has wrapped around and `run` has
ended in the run-time panic of the handler lookup; in both cases the positions of the
handlers invoked are `full`. -/
def Traversed (H : List Callable) (A : Callable) (inj : Ptr) (I : Store → Prop)
    (full : List Int) (r : Res) : Prop :=
  (∃ c1, r = .done c1 ∧ Steady H A inj I c1 ∧ (H.length : Int) < c1.index ∧
    c1.invoked = full) ∨
  (∃ c1, r = .panic outOfRange c1 ∧ c1.overflowed = true ∧ c1.handlers = H ∧
    c1.invoked = full)

/-! ## The application and its middleware stack -/

/-- The struct `Moon`, as far as the pipeline uses it: the address of the embedded
injector, the middleware stack and the terminal action. -/
structure Moon where
  inj : Ptr
  handlers : List Callable
  action : Callable

/-- How a method of `Moon` ends: the instance afterwards, and whether it panicked. -/
structure MoonResult where
  m : Moon
  panicked : Bool

/-- `validateHandler(handler)`: `true` when it returns, `false` for the panic "moon handler
must be a callable func". -/
def validateHandler (handler : Callable) : Bool := handler.isFunc

/-- `m.Use(handler)`. -/
def Use (m : Moon) (handler : Callable) : MoonResult :=
  if validateHandler handler then
    { m := { m with handlers := m.handlers ++ [handler] }, panicked := false }
  else { m := m, panicked := true }

/-- `m.Action(handler)`. -/
def Action (m : Moon) (handler : Callable) : MoonResult :=
  if validateHandler handler then { m := { m with action := handler }, panicked := false }
  else { m := m, panicked := true }

/-- The loop of `Handlers`: `for _, handler := range handlers { m.Use(handler) }`; a panic
of `Use` ends it. -/
def useAll (m : Moon) : List Callable → MoonResult
  | [] => { m := m, panicked := false }
  | handler :: rest =>
    let r := Use m handler
    if r.panicked then r else useAll r.m rest

/-- `m.Handlers(handlers...)`: `m.handlers = make([]Handler, 0)` and then the loop. -/
def Handlers (m : Moon) (handlers : List Callable) : MoonResult :=
  useAll { m with handlers := [] } handlers

/-- The interface `moon.Context`, with the methods of `inject.Injector`, `Next` and
`Written`. -/
def tContext : Ty :=
  .named "moon.Context" .Interface
    ["Apply", "Invoke", "Map", "MapTo", "Set", "Get", "SetParent", "Next", "Written"]

/-- The interface `http.ResponseWriter`. -/
def tResponseWriter : Ty :=
  .named "http.ResponseWriter" .Interface ["Header", "Write", "WriteHeader"]

/-- `m.createContext(res, req)` in the store `s`: a fresh injector at the address `fresh`
whose parent is the injector of `m`, in which the context itself (`self`) is registered
under `moon.Context`, the response writer (`rw`) under `http.ResponseWriter`, and the
request; the handlers and the action of `m`; cursor 0.  `written` is what the new
response writer reports (`NewResponseWriter` is declared in a file outside the sources at
hand).  `none` is the panic of `InterfaceOf`, which cannot occur here. -/
def createContext (m : Moon) (s : Store) (fresh : Ptr) (self rw req : Val) (written : Bool) :
    Option context :=
  let s0 := Function.update s fresh New
  let s1 := SetParent s0 fresh (some m.inj)
  match MapTo s1 fresh (some self) (.ptr tContext []) with
  | none => none
  | some s2 =>
    match MapTo s2 fresh (some rw) (.ptr tResponseWriter []) with
    | none => none
    | some s3 =>
      some { store := Map s3 fresh (some req), inj := fresh, handlers := m.handlers,
             action := m.action, written := written, index := 0, log := [], invoked := [],
             overflowed := false }

end Moon

/-! # Sample data -/

namespace Sample

open Inject

/-- The interface `io.Writer`. -/
def tWriter : Ty := .named "io.Writer" .Interface ["Write"]

/-- The interface `fmt.Stringer`. -/
def tStringer : Ty := .named "fmt.Stringer" .Interface ["String"]

/-- The struct `bytes.Buffer` and the pointer to it, which has the methods. -/
def tBuffer : Ty := .ptr (.named "bytes.Buffer" .Struct []) ["Write", "String"]

/-- The pointer type `*os.File`. -/
def tFile : Ty := .ptr (.named "os.File" .Struct []) ["Write", "Close"]

/-- The pointer type `*http.Request`. -/
def tRequest : Ty := .ptr (.named "http.Request" .Struct []) []

/-- The type `int`. -/
def tInt : Ty := .named "int" .Other []

def vBuf1 : Val := { typ := tBuffer, data := 1 }

def vBuf2 : Val := { typ := tBuffer, data := 2 }

def vFile : Val := { typ := tFile, data := 3 }

def vReq : Val := { typ := tRequest, data := 4 }

def vInt : Val := { typ := tInt, data := 42 }

/-- The iteration that visits the entries in the order of the list. -/
def inOrder : Order := fun _ m => m

/-- The iteration that visits the entries in the reverse order of the list. -/
def reversed : Order := fun _ m => m.reverse

/-- What `reflect` accepts among the sample types, which are pairwise distinct defined
types, interfaces, and pointers to defined types: a value of the identical type, and for
an interface type a value whose type implements it. -/
def accepts (v : Val) (t : Ty) : Bool :=
  decide (v.typ = t) || (t.isInterface && v.typ.Implements t)

/-- A store in which every injector is fresh. -/
def empty : Store := fun _ => New

/-- A parent at address 0 that holds a buffer under `*bytes.Buffer`, and a fresh child at
address 1 (and at every other address). -/
def family : Store := fun p =>
  if p = 0 then { values := [(tBuffer, some vBuf1)], parent := none }
  else { values := [], parent := some 0 }

/-- A parent at address 0 that holds a file under `io.Writer`, and a child at address 1
(and at every other address) that holds a buffer under `*bytes.Buffer`. -/
def nested : Store := fun p =>
  if p = 0 then { values := [(tWriter, some vFile)], parent := none }
  else { values := [(tBuffer, some vBuf1)], parent := some 0 }

/-- The store `nested` after `Set(typ, reflect.Value{})` on the child at address 1, with
`typ` the type `*bytes.Buffer`: the child now holds the zero Value under that type. -/
def zeroed : Store := Inject.Set nested 1 tBuffer none

/-- An application container at address 0 that holds a file under `io.Writer`, and a
request container at address 1 (and at every other address) that holds the request. -/
def app : Store := fun p =>
  if p = 0 then { values := [(tWriter, some vFile)], parent := none }
  else { values := [(tRequest, some vReq)], parent := some 0 }

/-- What `MapTo(42, (*io.Writer)(nil))` leaves in a fresh container at address 0: an `int`
under `io.Writer`. -/
def mistyped : Store := Inject.Set empty 0 tWriter (some vInt)

/-- A handler `func(w io.Writer, req *http.Request)` that writes the response and returns
its arguments. -/
def writes : Func :=
  { ins := [tWriter, tRequest], body := fun _ => [Stmt.write], outs := fun args => args }

/-- A handler `func(req *http.Request, s fmt.Stringer, n int)`. -/
def needy : Func :=
  { ins := [tRequest, tStringer, tInt], body := fun _ => [Stmt.write], outs := fun args => args }

/-- A handler `func(w io.Writer)`. -/
def sink : Func :=
  { ins := [tWriter], body := fun _ => [Stmt.write], outs := fun _ => [] }

/-- The tag `inject`. -/
def injectTag : StructTag := { raw := "inject", pairs := [] }

/-- The field `W io.Writer` with the tag `inject`. -/
def fW : StructField :=
  { name := "W", typ := tWriter, tag := injectTag, exported := true, value := none }

/-- The field `Req *http.Request` with the tag `inject:"true"`. -/
def fReq : StructField :=
  { name := "Req", typ := tRequest,
    tag := { raw := "inject:\"true\"", pairs := [("inject", "true")] },
    exported := true, value := none }

/-- The field `S fmt.Stringer` with the tag `inject`. -/
def fS : StructField :=
  { name := "S", typ := tStringer, tag := injectTag, exported := true, value := none }

/-- The field `N int` without a tag, holding 42. -/
def fN : StructField :=
  { name := "N", typ := tInt, tag := { raw := "", pairs := [] }, exported := true,
    value := some vInt }

/-- The field `E io.Writer` with the empty marker `inject:""`, holding a buffer. -/
def fE : StructField :=
  { name := "E", typ := tWriter, tag := { raw := "inject:\"\"", pairs := [("inject", "")] },
    exported := true, value := some vBuf2 }

/-- The unexported field `w io.Writer` with the tag `inject`. -/
def fHidden : StructField :=
  { name := "w", typ := tWriter, tag := injectTag, exported := false, value := none }

/-- A pointer to a struct with the fields `W`, `Req`, `N`, `E` and `w`. -/
def form : Target := .ptr (.struct [fW, fReq, fN, fE, fHidden])

/-- The struct of `form` after `Apply` in the request container of `app`: `W` holds the
file, `Req` holds the request, and the other fields are as before. -/
def formDone : ApplyResult :=
  { fields := [{ fW with value := some vFile }, { fReq with value := some vReq }, fN, fE,
      fHidden],
    err := none, panicked := false }

/-- A pointer to a struct with the fields `W`, `S` and `Req`. -/
def partialForm : Target := .ptr (.struct [fW, fS, fReq])

/-- A struct with the field `S`, handed to `Apply` by value. -/
def byValue : Target := .struct [fS]

/-- The interface `moon.Context`. -/
def tContext : Ty := Moon.tContext

/-- The interface `http.ResponseWriter`. -/
def tResponseWriter : Ty := Moon.tResponseWriter

/-- The request context itself, a `*moon.context`, with the methods of the embedded
`inject.Injector`, `Next` and `Written`. -/
def vCtx : Val :=
  { typ := .ptr (.named "moon.context" .Struct [])
      ["Apply", "Invoke", "Map", "MapTo", "Set", "Get", "SetParent", "Next", "Written"],
    data := 0 }

/-- The response writer of the request. -/
def vRw : Val :=
  { typ := .ptr (.named "moon.responseWriter" .Struct [])
      ["Header", "Write", "WriteHeader", "Written"],
    data := 0 }

/-- The store `createContext` leaves: an application container at address 0 and a request
container at address 1 whose parent it is, and which holds the context under
`moon.Context`, the response writer under `http.ResponseWriter`, and the request. -/
def serving : Store := fun p =>
  if p = 0 then { values := [], parent := none }
  else
    { values := [(tRequest, some vReq), (tResponseWriter, some vRw), (tContext, some vCtx)],
      parent := some 0 }

/-- The middleware `H1`: logs "before", calls `Next()`, logs "after". -/
def H1 : Func :=
  { ins := [tContext], body := fun _ => [Stmt.log "before", Stmt.next, Stmt.log "after"],
    outs := fun _ => [] }

/-- The middleware `H2`: writes the response and logs "written". -/
def H2 : Func :=
  { ins := [tResponseWriter], body := fun _ => [Stmt.write, Stmt.log "written"],
    outs := fun _ => [] }

/-- The terminal action `A`: logs "action". -/
def A : Func := { ins := [], body := fun _ => [Stmt.log "action"], outs := fun _ => [] }

/-- The context of a request with the middleware `[H1, H2]` and the action `A`, as
`createContext` makes it: cursor 0, nothing written. -/
def request : Moon.context :=
  { store := serving, inj := 1, handlers := [.func H1, .func H2], action := .func A,
    written := false, index := 0, log := [], invoked := [], overflowed := false }

/-- The context of `request` when the turn of `H1` is over. -/
def afterH1 : Moon.context :=
  { request with
    written := true, index := 2, log := ["before", "written", "after"], invoked := [0, 1] }

/-- The interface `io.WriteCloser`. -/
def tWriteCloser : Ty := .named "io.WriteCloser" .Interface ["Write", "Close"]

/-- A container at address 0 that holds a buffer under `*bytes.Buffer` and a file under
`*os.File`: two registrations whose types satisfy `io.Writer`. -/
def twoWriters : Store := fun _ =>
  { values := [(tBuffer, some vBuf1), (tFile, some vFile)], parent := none }

/-- What `MapTo(file, (*io.WriteCloser)(nil))` leaves in a fresh container at address 0:
the file, registered under the interface `io.WriteCloser` only. -/
def closer : Store := Inject.Set empty 0 tWriteCloser (some vFile)

/-- An application with the middleware `[H1]` and the action `A`. -/
def site : Moon.Moon := { inj := 0, handlers := [.func H1], action := .func A }

/-- The context of a request whose first middleware is `needy`, which asks for a
`fmt.Stringer` that nobody registered. -/
def blocked : Moon.context :=
  { request with handlers := [.func needy, .func H2] }

/-- The context of a request with the middleware `[H1, needy]`: `needy` is reached through
the `Next()` of `H1`. -/
def stuck : Moon.context :=
  { request with handlers := [.func H1, .func needy] }

/-- An error value. -/
def vErr : Val :=
  { typ := .ptr (.named "errors.errorString" .Struct []) ["Error"], data := 1 }

/-- A middleware `func() error` that logs "failed" and returns an error. -/
def failing : Func :=
  { ins := [], body := fun _ => [Stmt.log "failed"], outs := fun _ => [vErr] }

/-- The context of a request with the middleware `[failing]` and the action `A`. -/
def faulty : Moon.context :=
  { request with handlers := [.func failing] }

/-- A middleware that logs "quiet" and returns, without a call of `Next()`. -/
def quiet : Func :=
  { ins := [tRequest], body := fun _ => [Stmt.log "quiet"], outs := fun _ => [] }

/-- A middleware that logs "second" and returns. -/
def second : Func :=
  { ins := [], body := fun _ => [Stmt.log "second"], outs := fun _ => [] }

/-- The context of a request with the middleware `[quiet, second]` and the action `A`. -/
def calm : Moon.context :=
  { request with handlers := [.func quiet, .func second] }

/-- The context of a request with the middleware `[H1, quiet]` and the action `A`; no
handler writes the response. -/
def silent : Moon.context :=
  { request with handlers := [.func H1, .func quiet] }

/-- The stores in which the request container, at address 1, holds under `*http.Request` a
value of that type and under `moon.Context` a value that a parameter of that type
accepts. -/
def provided (s : Store) : Prop :=
  (∃ x, mapIndex (s 1).values tRequest = some x ∧ x.typ = tRequest) ∧
  (∃ y, mapIndex (s 1).values tContext = some y ∧ accepts y tContext = true)

/-- A middleware `func(w io.Writer)` that logs "heard". -/
def listener : Func :=
  { ins := [tWriter], body := fun _ => [Stmt.log "heard"], outs := fun _ => [] }

/-- The fresh context of a request with the middleware `[listener]` and the action `A`,
whose container, at address 0, is the one `MapTo(42, (*io.Writer)(nil))` leaves. -/
def mismatched : Moon.context :=
  { store := mistyped, inj := 0, handlers := [.func listener], action := .func A,
    written := false, index := 0, log := [], invoked := [], overflowed := false }

/-- What `Map(nil)` leaves in a fresh container at address 0: the zero Value under the nil
Type. -/
def nilMapped : Store := Map empty 0 none

/-- A container at address 0 after `Map(buf)` and then `Set(typ, reflect.ValueOf(42))` with a
nil `typ`: the map holds the `int` under the nil Type, and the buffer. -/
def nilKeyed : Store := Inject.Set (Map empty 0 (some vBuf1)) 0 Ty.nil (some vInt)

/-- A handler `func(s fmt.Stringer, n int)`. -/
def curious : Func :=
  { ins := [tStringer, tInt], body := fun _ => [Stmt.write], outs := fun _ => [] }

/-- The type `string`. -/
def tString : Ty := .named "string" .Other []

/-- The slice type `[]string`. -/
def tStrings : Ty := .named "[]string" .Other []

/-- A slice of strings. -/
def vStrings : Val := { typ := tStrings, data := 5 }

/-- A variadic handler `func(names ...string)`: its one parameter has the type `[]string`,
and `reflect` takes each argument of a call as one element of the slice. -/
def greet : Func :=
  { ins := [tStrings], variadic := some tString, body := fun _ => [Stmt.log "hello"],
    outs := fun _ => [] }

/-- What `Map(names)` with a `[]string` leaves in a fresh container at address 0. -/
def listed : Store := Map empty 0 (some vStrings)

/-- The fresh context of a request with the variadic middleware `[greet]` and the action
`A`, whose container, at address 0, holds a `[]string`. -/
def greeting : Moon.context :=
  { store := listed, inj := 0, handlers := [.func greet], action := .func A,
    written := false, index := 0, log := [], invoked := [], overflowed := false }

/-- The context of a request whose container holds, after a `Map(nil)`, the zero Value under
the nil Type, with the middleware `[curious]`. -/
def haunted : Moon.context :=
  { request with store := Map serving 1 none, handlers := [.func curious] }

/-- A terminal action `func(c moon.Context)` whose body calls `c.Next()` 2^63 times. -/
def spinner : Func :=
  { ins := [tContext],
    body := fun _ => List.replicate 9223372036854775807 Stmt.next ++ [Stmt.next],
    outs := fun _ => [] }

/-- The fresh context of a request with no middleware and the action `spinner`. -/
def dizzy : Moon.context :=
  { request with handlers := [], action := .func spinner }

end Sample

/-! # Theorems -/

namespace Inject

/-! ## The map -/

theorem mapIndex_mapAssign_self (m : List Entry) (k : Ty) (v : RValue) :
    mapIndex (mapAssign m k v) k = v := by
  simp [mapIndex, mapAssign]

theorem find_filter_ne (m : List Entry) (k k' : Ty) (h : k' ≠ k) :
    (m.filter (fun e => !decide (e.1 = k))).find? (fun e => decide (e.1 = k'))
      = m.find? (fun e => decide (e.1 = k')) := by
  induction m with
  | nil => rfl
  | cons e rest ih =>
    by_cases hk : e.1 = k
    · have hk' : ¬ e.1 = k' := fun h' => h (h'.symm.trans hk)
      rw [List.filter_cons_of_neg (by simp [hk]), List.find?_cons_of_neg _ (by simp [hk']), ih]
    · rw [List.filter_cons_of_pos (by simp [hk])]
      by_cases hk' : e.1 = k'
      · rw [List.find?_cons_of_pos _ (by simp [hk']), List.find?_cons_of_pos _ (by simp [hk'])]
      · rw [List.find?_cons_of_neg _ (by simp [hk']), List.find?_cons_of_neg _ (by simp [hk']), ih]

theorem mapIndex_mapAssign_ne (m : List Entry) (k k' : Ty) (v : RValue) (h : k' ≠ k) :
    mapIndex (mapAssign m k v) k' = mapIndex m k' := by
  have hk : ¬ k = k' := fun h' => h h'.symm
  simp only [mapIndex, mapAssign, List.find?, hk, decide_False]
  rw [find_filter_ne m k k' h]

/-- After `m[k] = v` the map has exactly one entry under `k`, the new one. -/
theorem mapAssign_filter_key (m : List Entry) (k : Ty) (v : RValue) :
    (mapAssign m k v).filter (fun e => decide (e.1 = k)) = [(k, v)] := by
  simp [mapAssign, List.filter_cons, List.filter_filter]

/-- An exact local match with a valid value is what `Get` returns. -/
theorem Get_exact (ord : Order) (fuel : Nat) (s : Store) (i : Ptr) (t : Ty) (v : Val)
    (h : mapIndex (s i).values t = some v) :
    Get ord (fuel + 1) s i t = .value (some v) := by
  simp [Get, h, IsValid]

theorem Map_eq_Set (s : Store) (i : Ptr) (val : Option Val) :
    Map s i val = Set s i (TypeOf val) (ValueOf val) := rfl

theorem Set_values_self (s : Store) (i : Ptr) (t : Ty) (v : RValue) :
    (Set s i t v i).values = mapAssign (s i).values t v := by
  simp [Set]

theorem Set_parent (s : Store) (i j : Ptr) (t : Ty) (v : RValue) :
    (Set s i t v j).parent = (s j).parent := by
  by_cases h : j = i
  · subst h; simp [Set]
  · simp [Set, Function.update_noteq h]

theorem Set_other (s : Store) (i j : Ptr) (t : Ty) (v : RValue) (h : j ≠ i) :
    Set s i t v j = s j := by
  simp [Set, Function.update_noteq h]

theorem InterfaceOf_isInterface (t T : Ty) (h : InterfaceOf t = some T) :
    T.isInterface = true := by
  induction t with
  | nil => simp [InterfaceOf] at h
  | named n k ms =>
    by_cases hk : k = Kind.Interface
    · simp [InterfaceOf, hk] at h
      subst h
      simp [Ty.isInterface]
    · simp [InterfaceOf, hk] at h
  | ptr e ms ih =>
    simp only [InterfaceOf] at h
    exact ih h

theorem isInterface_ne_nil (t : Ty) (h : t.isInterface = true) : t ≠ Ty.nil := by
  intro h'
  subst h'
  simp [Ty.isInterface] at h

/-- A registration under a key `k` changes no resolution of a type `t` other than `k` that
is not an interface: the exact lookup of `t` reads another key, and there is no scan. -/
theorem Get_Set_concrete (ord : Order) (s : Store) (i : Ptr) (k t : Ty) (x : RValue)
    (hk : t ≠ k) (ht : t.isInterface = false) (n : Nat) (p : Ptr) :
    Get ord n (Set s i k x) p t = Get ord n s p t := by
  induction n generalizing p with
  | zero => rfl
  | succ n ih =>
    have hidx : mapIndex (Set s i k x p).values t = mapIndex (s p).values t := by
      by_cases hp : p = i
      · subst hp
        rw [Set_values_self, mapIndex_mapAssign_ne _ _ _ _ hk]
      · rw [Set_other s i p k x hp]
    simp only [Get, hidx, Set_parent, ht, Bool.false_eq_true, if_false, ih]

/-- In a store whose parent links go to smaller addresses, a write to the injector at
address `i` changes no resolution that starts at an address below `i`. -/
theorem Get_update_below (ord : Order) (s : Store) (i : Ptr) (x : injector)
    (hwf : ∀ p q, (s p).parent = some q → q < p) (t : Ty) (n : Nat) (p : Ptr) (hp : p < i) :
    Get ord n (Function.update s i x) p t = Get ord n s p t := by
  induction n generalizing p with
  | zero => rfl
  | succ n ih =>
    have hne : p ≠ i := Nat.ne_of_lt hp
    have hrec : Function.update s i x p = s p := Function.update_noteq hne x s
    simp only [Get, hrec]
    cases hpar : (s p).parent with
    | none => rfl
    | some q =>
      have hq : q < i := Nat.lt_trans (hwf p q hpar) hp
      simp only [ih q hq]

/-! ## Registration and resolution -/

/-- C1. For every store, container `c` (with or without a parent, whatever it holds) and
value `v` other than the nil interface: after `c.Map(v)`, `c.Get(typeOf(v))` returns exactly
`v`, whatever the order of the map iteration and for every positive fuel; and the map of
`c` then has exactly one entry under `typeOf(v)`, the new one (the last registration
overwrites an earlier one). -/
theorem Map_then_Get (ord : Order) (fuel : Nat) (s : Store) (c : Ptr) (v : Val) :
    Get ord (fuel + 1) (Map s c (some v)) c (TypeOf (some v)) = .value (ValueOf (some v)) ∧
    ((Map s c (some v)) c).values.filter (fun e => decide (e.1 = TypeOf (some v)))
      = [(TypeOf (some v), ValueOf (some v))] := by
  constructor
  · apply Get_exact
    rw [Map_eq_Set, Set_values_self, mapIndex_mapAssign_self]
    rfl
  · rw [Map_eq_Set, Set_values_self, mapAssign_filter_key]

/-- After `c.Map(nil)` the container holds the zero Value under the nil Type, and
`c.Get(typeOf(nil))` panics, in every store and for every order and positive fuel. -/
theorem Get_nil_after_Map_nil (ord : Order) (fuel : Nat) (s : Store) (c : Ptr) :
    mapIndex ((Map s c none) c).values (TypeOf none) = ValueOf none ∧
    Get ord (fuel + 1) (Map s c none) c (TypeOf none) = .panic := by
  have h : mapIndex ((Map s c none) c).values (TypeOf none) = none := by
    rw [Map_eq_Set, Set_values_self, mapIndex_mapAssign_self]
    rfl
  refine ⟨h, ?_⟩
  have h' : mapIndex ((Map s c none) c).values Ty.nil = none := h
  simp [Get, TypeOf, h', IsValid]

/-- C1, the nil value. In a fresh container, `Map(nil)` stores the zero Value under the nil
Type, and `Get(typeOf(nil))` then panics (at `t.Kind()`, a method call on the nil Type)
instead of returning the value: the claim fails for `v = nil`. -/
theorem Map_nil_then_Get_panics :
    TypeOf none = Ty.nil ∧
    ((Map Sample.empty 0 none) 0).values = [(Ty.nil, none)] ∧
    Get Sample.inOrder 1 (Map Sample.empty 0 none) 0 (TypeOf none) = .panic := by
  decide

/-- C2. For every store, container `c`, value `v` other than the nil interface (of a
concrete dynamic type, as every Go value is) and interface type `T` named by `ifacePtr`:
`c.MapTo(v, ifacePtr)` succeeds, afterwards `c.Get(T)` returns `v`, and `Get(typeOf(v))`
returns in every container, `c` included, what it returned before. -/
theorem MapTo_then_Get (ord : Order) (fuel : Nat) (s : Store) (c : Ptr) (v : Val)
    (ifacePtr T : Ty) (hT : InterfaceOf ifacePtr = some T)
    (hv : (TypeOf (some v)).isInterface = false) :
    ∃ s1, MapTo s c (some v) ifacePtr = some s1 ∧
      Get ord (fuel + 1) s1 c T = .value (ValueOf (some v)) ∧
      ∀ n p, Get ord n s1 p (TypeOf (some v)) = Get ord n s p (TypeOf (some v)) := by
  refine ⟨Set s c T (ValueOf (some v)), ?_, ?_, ?_⟩
  · simp [MapTo, hT, Set]
  · apply Get_exact
    rw [Set_values_self, mapIndex_mapAssign_self]
    rfl
  · intro n p
    have hTi := InterfaceOf_isInterface _ _ hT
    have hne : TypeOf (some v) ≠ T := by
      intro h
      rw [h, hTi] at hv
      exact Bool.noConfusion hv
    exact Get_Set_concrete ord s c T (TypeOf (some v)) (ValueOf (some v)) hne hv n p

/-- A witness of C2: a buffer registered under `io.Writer` in a fresh container. -/
theorem MapTo_then_Get_witness :
    InterfaceOf (.ptr Sample.tWriter []) = some Sample.tWriter ∧
    (TypeOf (some Sample.vBuf1)).isInterface = false ∧
    ∃ s1, MapTo Sample.empty 0 (some Sample.vBuf1) (.ptr Sample.tWriter []) = some s1 ∧
      Get Sample.inOrder 1 s1 0 Sample.tWriter = .value (ValueOf (some Sample.vBuf1)) ∧
      ∀ n p, Get Sample.inOrder n s1 p (TypeOf (some Sample.vBuf1))
        = Get Sample.inOrder n Sample.empty p (TypeOf (some Sample.vBuf1)) :=
  ⟨by decide, by decide,
    MapTo_then_Get Sample.inOrder 0 Sample.empty 0 Sample.vBuf1 (.ptr Sample.tWriter [])
      Sample.tWriter (by decide) (by decide)⟩

/-- C2, the nil value. In the request container (address 1) of `Sample.app`, whose parent
holds a file under `io.Writer`, `MapTo(nil, (*io.Writer)(nil))` stores the zero Value
under `io.Writer`; `Get(io.Writer)` then does not return the zero Value that `ValueOf(nil)`
is, but the file of the parent. -/
theorem MapTo_nil_then_Get_parent :
    (MapTo Sample.app 1 none (.ptr Sample.tWriter [])).map
        (fun s1 => (mapIndex (s1 1).values Sample.tWriter,
          Get Sample.inOrder 2 s1 1 Sample.tWriter))
      = some (ValueOf none, .value (some Sample.vFile)) := by
  decide

/-- C3. Shadowing. For a child container whose parent is another container `P` that holds
`v1` under `T`: after the child registers a valid value `v2` under `T`, `child.Get(T)`
returns `v2` and `P.Get(T)` still returns `v1`; the record of `P` (its map and its parent
link) is untouched; and when parent links go to containers created earlier (smaller
addresses), `P` resolves every type as before. -/
theorem shadowing (ord : Order) (fuel : Nat) (s : Store) (child P : Ptr) (T : Ty)
    (v1 v2 : Val) (hparent : (s child).parent = some P) (hne : child ≠ P)
    (hP : mapIndex (s P).values T = some v1) :
    Get ord (fuel + 1) (Set s child T (some v2)) child T = .value (some v2) ∧
    Get ord (fuel + 1) (Set s child T (some v2)) P T = .value (some v1) ∧
    Get ord (fuel + 1) s P T = .value (some v1) ∧
    (Set s child T (some v2)) P = s P ∧
    (Set s child T (some v2) child).parent = some P ∧
    ((∀ p q, (s p).parent = some q → q < p) →
      ∀ U n, Get ord n (Set s child T (some v2)) P U = Get ord n s P U) := by
  have hP' : Set s child T (some v2) P = s P := Set_other s child P T (some v2) (Ne.symm hne)
  refine ⟨?_, ?_, Get_exact ord fuel s P T v1 hP, hP', ?_, ?_⟩
  · apply Get_exact
    rw [Set_values_self, mapIndex_mapAssign_self]
  · apply Get_exact
    rw [hP', hP]
  · rw [Set_parent, hparent]
  · intro hwf U n
    exact Get_update_below ord s child _ hwf U n P (hwf child P hparent)

/-- A witness of C3: the child at address 1 of `Sample.family` registers a second buffer. -/
theorem shadowing_witness :
    (Sample.family 1).parent = some 0 ∧ (1 : Ptr) ≠ 0 ∧
    mapIndex (Sample.family 0).values Sample.tBuffer = some Sample.vBuf1 ∧
    Get Sample.inOrder 1 (Set Sample.family 1 Sample.tBuffer (some Sample.vBuf2)) 1
      Sample.tBuffer = .value (some Sample.vBuf2) ∧
    Get Sample.inOrder 1 (Set Sample.family 1 Sample.tBuffer (some Sample.vBuf2)) 0
      Sample.tBuffer = .value (some Sample.vBuf1) :=
  have h := shadowing Sample.inOrder 0 Sample.family 1 0 Sample.tBuffer Sample.vBuf1
    Sample.vBuf2 (by decide) (by decide) (by decide)
  ⟨by decide, by decide, by decide, h.1, h.2.1⟩

/-- C3, the zero Value. The child at address 1 of `Sample.family`, whose parent (address 0)
holds a buffer under `*bytes.Buffer`, registers the zero Value under that type (as
`Set(T, reflect.Value{})` does); `child.Get(T)` then returns the buffer of the parent, not
what the child registered. -/
theorem zero_Value_does_not_shadow :
    (Sample.family 1).parent = some 0 ∧
    mapIndex (Sample.family 0).values Sample.tBuffer = some Sample.vBuf1 ∧
    mapIndex ((Set Sample.family 1 Sample.tBuffer none) 1).values Sample.tBuffer = none ∧
    Get Sample.inOrder 2 (Set Sample.family 1 Sample.tBuffer none) 1 Sample.tBuffer
      = .value (some Sample.vBuf1) := by
  decide

end Inject

namespace Inject

/-! ## Fall-through and resolution order -/

theorem mapIndex_eq_none_of_not_holds (m : List Entry) (t : Ty) (h : holds m t = false) :
    mapIndex m t = none := by
  have hfind : m.find? (fun e => decide (e.1 = t)) = none := by
    rw [List.find?_eq_none]
    intro e he
    simp only [holds, List.any_eq_false] at h
    have := h e he
    simp only [Bool.or_eq_true, not_or] at this
    simpa using this.1
  simp [mapIndex, hfind]

theorem noNilKey_perm (l1 l2 : List Entry) (hp : l1.Perm l2) (h : noNilKey l2 = true) :
    noNilKey l1 = true := by
  simp only [noNilKey, List.all_eq_true] at h ⊢
  intro e he
  exact h e (hp.mem_iff.mp he)

theorem noNilKey_cons (e : Entry) (l : List Entry) (h : noNilKey (e :: l) = true) :
    e.1 ≠ Ty.nil ∧ noNilKey l = true := by
  simp only [noNilKey, List.all_cons, Bool.and_eq_true, Bool.not_eq_true',
    decide_eq_false_iff_not] at h
  exact ⟨h.1, by simpa [noNilKey] using h.2⟩

theorem scan_of_none_implements (t : Ty) (l : List Entry) (val : RValue)
    (hn : noNilKey l = true) (h : ∀ e ∈ l, e.1.Implements t = false) :
    scan t l val = some val := by
  induction l with
  | nil => rfl
  | cons e rest ih =>
    obtain ⟨k, v⟩ := e
    obtain ⟨hk0, hrest⟩ := noNilKey_cons _ _ hn
    have hk0' : ¬ k = Ty.nil := hk0
    have hk : k.Implements t = false := h (k, v) (List.mem_cons_self _ _)
    simp only [scan, hk0', hk, Bool.false_eq_true, if_false]
    exact ih hrest (fun e he => h e (List.mem_cons_of_mem _ he))

/-- The scan returns the value of an entry it visits whose key implements `t`, when there
is one and no key is the nil Type. -/
theorem scan_of_some_implements (t : Ty) (l : List Entry) (val : RValue)
    (hn : noNilKey l = true) (h : ∃ e ∈ l, e.1.Implements t = true) :
    ∃ e ∈ l, e.1.Implements t = true ∧ scan t l val = some e.2 := by
  induction l with
  | nil =>
    obtain ⟨e, he, _⟩ := h
    cases he
  | cons e rest ih =>
    obtain ⟨k, v⟩ := e
    obtain ⟨hk0, hrest0⟩ := noNilKey_cons _ _ hn
    have hk0' : ¬ k = Ty.nil := hk0
    by_cases hk : k.Implements t = true
    · exact ⟨(k, v), List.mem_cons_self _ _, hk, by simp [scan, hk0', hk]⟩
    · have hrest : ∃ e ∈ rest, e.1.Implements t = true := by
        obtain ⟨e, he, hi⟩ := h
        rcases List.mem_cons.mp he with rfl | he
        · exact absurd hi hk
        · exact ⟨e, he, hi⟩
      obtain ⟨e, he, hi, hs⟩ := ih hrest0 hrest
      exact ⟨e, List.mem_cons_of_mem _ he, hi, by simp [scan, hk0', hk, hs]⟩

/-- A container without an exact or satisfying registration for a type `t` other than the
nil Type, and for an interface `t` without a key that is the nil Type, hands the
resolution to its parent, and returns the zero Value when it has none. -/
theorem Get_fall_through (ord : Order) (hord : ord.Valid) (n : Nat) (s : Store) (c : Ptr)
    (t : Ty) (ht : t ≠ Ty.nil) (hn : t.isInterface = true → noNilKey (s c).values = true)
    (h : holds (s c).values t = false) :
    Get ord (n + 1) s c t =
      match (s c).parent with
      | some p => Get ord n s p t
      | none => .value none := by
  have hidx := mapIndex_eq_none_of_not_holds _ _ h
  have hscan : (if t.isInterface then scan t (ord c (s c).values) none else some none)
      = some none := by
    by_cases hi : t.isInterface = true
    · simp only [hi, if_true]
      apply scan_of_none_implements
      · exact noNilKey_perm _ _ (hord c (s c).values) (hn hi)
      · intro e he
        have hmem : e ∈ (s c).values := (hord c (s c).values).mem_iff.mp he
        simp only [holds, List.any_eq_false] at h
        have := h e hmem
        simp only [hi, Bool.true_and, Bool.or_eq_true, not_or] at this
        simpa using this.2
    · simp [hi]
  have ht' : ¬ t = Ty.nil := ht
  simp only [Get, hidx, hscan, ht', IsValid, Option.isSome_none, Bool.false_eq_true, if_false,
    Bool.not_false, if_true]

theorem mapIndex_mem (m : List Entry) (t : Ty) (v : Val) (h : mapIndex m t = some v) :
    (t, some v) ∈ m := by
  unfold mapIndex at h
  cases hf : m.find? (fun e => decide (e.1 = t)) with
  | none => simp [hf] at h
  | some e =>
    simp only [hf] at h
    have hmem := List.mem_of_find?_eq_some hf
    have hkey := List.find?_some hf
    simp only [decide_eq_true_eq] at hkey
    obtain ⟨k, x⟩ := e
    simp only at h hkey
    subst hkey
    subst h
    exact hmem

theorem mapIndex_none_no_key (m : List Entry) (t : Ty) (hv : allValid m = true)
    (h : mapIndex m t = none) : ∀ e ∈ m, e.1 ≠ t := by
  intro e he hk
  unfold mapIndex at h
  cases hf : m.find? (fun e => decide (e.1 = t)) with
  | none =>
    rw [List.find?_eq_none] at hf
    exact hf e he (by simp [hk])
  | some e1 =>
    simp only [hf] at h
    have hmem := List.mem_of_find?_eq_some hf
    simp only [allValid, List.all_eq_true] at hv
    have := hv e1 hmem
    simp [IsValid, h] at this

/-- The local scan: with no valid exact match, an interface `t`, a map without a key that is
the nil Type, whose Values are all valid and that has an entry whose key implements `t`,
`Get` returns the value of such an entry, without asking the parent. -/
theorem Get_scan (ord : Order) (hord : ord.Valid) (n : Nat) (s : Store) (c : Ptr) (t : Ty)
    (hidx : mapIndex (s c).values t = none) (hi : t.isInterface = true)
    (hv : allValid (s c).values = true) (hn : noNilKey (s c).values = true)
    (hsat : ∃ e ∈ (s c).values, e.1.Implements t = true) :
    ∃ e ∈ (s c).values, e.1.Implements t = true ∧ IsValid e.2 = true ∧
      Get ord (n + 1) s c t = .value e.2 := by
  have hsat' : ∃ e ∈ ord c (s c).values, e.1.Implements t = true := by
    obtain ⟨e, he, himp⟩ := hsat
    exact ⟨e, (hord c (s c).values).mem_iff.mpr he, himp⟩
  obtain ⟨e, he, himp, hs⟩ := scan_of_some_implements t _ none
    (noNilKey_perm _ _ (hord c (s c).values) hn) hsat'
  have hmem : e ∈ (s c).values := (hord c (s c).values).mem_iff.mp he
  have hval : IsValid e.2 = true := by
    simp only [allValid, List.all_eq_true] at hv
    exact hv e hmem
  refine ⟨e, hmem, himp, hval, ?_⟩
  have hval' : Option.isSome e.2 = true := hval
  have ht' : ¬ t = Ty.nil := isInterface_ne_nil t hi
  simp only [Get, hidx, hi, ht', if_true, hs, IsValid, Option.isSome_none,
    Bool.false_eq_true, if_false]
  cases (s c).parent <;> simp [hval']

/-- A container whose Values are all valid, that has no key that is the nil Type when `t`
is an interface, and that holds an exact or satisfying registration for `t` resolves `t`
itself, to a valid Value. -/
theorem Get_found (ord : Order) (hord : ord.Valid) (n : Nat) (s : Store) (c : Ptr) (t : Ty)
    (hv : allValid (s c).values = true)
    (hn : t.isInterface = true → noNilKey (s c).values = true)
    (h : holds (s c).values t = true) :
    ∃ v, Get ord (n + 1) s c t = .value (some v) := by
  cases hidx : mapIndex (s c).values t with
  | some v => exact ⟨v, Get_exact ord n s c t v hidx⟩
  | none =>
    have hno := mapIndex_none_no_key _ _ hv hidx
    simp only [holds, List.any_eq_true, Bool.or_eq_true, decide_eq_true_eq,
      Bool.and_eq_true] at h
    obtain ⟨e, he, hcase⟩ := h
    rcases hcase with hk | ⟨hi, himp⟩
    · exact absurd hk (hno e he)
    · obtain ⟨e1, _, _, hval, hget⟩ :=
        Get_scan ord hord n s c t hidx hi hv (hn hi) ⟨e, he, himp⟩
      cases h2 : e1.2 with
      | none => simp [IsValid, h2] at hval
      | some v => exact ⟨v, by rw [hget, h2]⟩

/-- In a store whose parent links go to smaller addresses, `Get` ends: fuel above the
address of the container is enough. -/
theorem Get_returns (ord : Order) (s : Store)
    (hwf : ∀ p q, (s p).parent = some q → q < p) (t : Ty) (n : Nat) (c : Ptr) (hc : c < n) :
    Get ord n s c t ≠ .timeout := by
  induction n generalizing c with
  | zero => exact absurd hc (Nat.not_lt_zero c)
  | succ n ih =>
    simp only [Get]
    by_cases h1 : IsValid (mapIndex (s c).values t) = true
    · rw [if_pos h1]
      exact fun h => Got.noConfusion h
    · rw [if_neg h1]
      by_cases h0 : t = Ty.nil
      · rw [if_pos h0]
        exact fun h => Got.noConfusion h
      · rw [if_neg h0]
        generalize (if t.isInterface = true then scan t (ord c (s c).values)
          (mapIndex (s c).values t) else some (mapIndex (s c).values t)) = sc
        cases sc with
        | none => exact fun h => Got.noConfusion h
        | some val =>
          cases hpar : (s c).parent with
          | none => exact fun h => Got.noConfusion h
          | some q =>
            have hq : q < n := Nat.lt_of_lt_of_le (hwf c q hpar) (Nat.le_of_lt_succ hc)
            by_cases h2 : (!IsValid val) = true
            · simp only [h2, if_true]
              exact ih q hq
            · simp only [h2, if_false]
              exact fun h => Got.noConfusion h

/-- With valid Values only and, for an interface `t`, no key that is the nil Type on the
parent chain, the resolution of a type `t` other than the nil Type returns a Value when it
has fuel above the address of the container, and it returns the zero Value exactly when
no container on the parent chain holds an exact or satisfying registration. -/
theorem Get_none_iff (ord : Order) (hord : ord.Valid) (s : Store)
    (hwf : ∀ p q, (s p).parent = some q → q < p) (t : Ty) (ht : t ≠ Ty.nil) (n : Nat)
    (c : Ptr) (hc : c < n)
    (hv : ∀ q ∈ chain s n c, allValid (s q).values = true ∧
      (t.isInterface = true → noNilKey (s q).values = true)) :
    ∃ r, Get ord n s c t = .value r ∧
      (r = none ↔ ∀ q ∈ chain s n c, holds (s q).values t = false) := by
  induction n generalizing c with
  | zero => exact absurd hc (Nat.not_lt_zero c)
  | succ n ih =>
    have hvc := hv c (by simp [chain])
    cases hh : holds (s c).values t with
    | true =>
      obtain ⟨v, hget⟩ := Get_found ord hord n s c t hvc.1 hvc.2 hh
      refine ⟨some v, hget, ?_⟩
      constructor
      · intro h
        exact Option.noConfusion h
      · intro h
        have := h c (by simp [chain])
        rw [hh] at this
        exact Bool.noConfusion this
    | false =>
      rw [Get_fall_through ord hord n s c t ht hvc.2 hh]
      cases hpar : (s c).parent with
      | none =>
        refine ⟨none, rfl, ?_⟩
        constructor
        · intro _ q hq
          simp only [chain, hpar, List.mem_singleton] at hq
          rw [hq, hh]
        · intro _
          rfl
      | some p =>
        have hp : p < n := Nat.lt_of_lt_of_le (hwf c p hpar) (Nat.le_of_lt_succ hc)
        have hvp : ∀ q ∈ chain s n p, allValid (s q).values = true ∧
            (t.isInterface = true → noNilKey (s q).values = true) := by
          intro q hq
          exact hv q (by simp [chain, hpar, hq])
        obtain ⟨r, hr, hiff⟩ := ih p hp hvp
        refine ⟨r, hr, ?_⟩
        rw [hiff]
        constructor
        · intro h q hq
          simp only [chain, hpar, List.mem_cons] at hq
          rcases hq with rfl | hq
          · exact hh
          · exact h q hq
        · intro h q hq
          exact h q (by simp [chain, hpar, hq])

theorem mapIndex_none_of_no_key (m : List Entry) (t : Ty) (h : ∀ e ∈ m, e.1 ≠ t) :
    mapIndex m t = none := by
  have hfind : m.find? (fun e => decide (e.1 = t)) = none := by
    rw [List.find?_eq_none]
    intro e he
    simpa using h e he
  simp [mapIndex, hfind]

theorem inOrder_valid : Order.Valid Sample.inOrder := fun _ m => List.Perm.refl m

theorem family_parents_below : ∀ p q, (Sample.family p).parent = some q → q < p := by
  intro p q h
  by_cases hp : p = 0
  · simp [Sample.family, hp] at h
  · simp only [Sample.family, hp, if_false, Option.some.injEq] at h
    subst h
    exact Nat.pos_of_ne_zero hp

/-- C4, as amended.  For a type `U` other than the nil Type: a container `c` without an
exact or satisfying local registration for `U`, and without a registration under the nil
Type when `U` is an interface, returns what its parent returns when it has a parent, and
the zero Value (not found) when it has none.  Consequently, when parent links go to
containers created earlier, every Value registered on the parent chain is valid and, for
an interface `U`, no container on the chain holds a registration under the nil Type,
`Get` returns a Value, and it returns the zero Value exactly when no container on the
parent chain holds an exact or satisfying registration for `U`. -/
theorem Get_fall_through_chain (ord : Order) (hord : ord.Valid) (s : Store) (c : Ptr)
    (U : Ty) (hU : U ≠ Ty.nil) :
    (holds (s c).values U = false →
      (U.isInterface = true → noNilKey (s c).values = true) →
      (∀ P n, (s c).parent = some P → Get ord (n + 1) s c U = Get ord n s P U) ∧
      ((s c).parent = none → ∀ n, Get ord (n + 1) s c U = .value none)) ∧
    ((∀ p q, (s p).parent = some q → q < p) →
      (∀ q ∈ chain s (c + 1) c, allValid (s q).values = true ∧
        (U.isInterface = true → noNilKey (s q).values = true)) →
      ∃ r, Get ord (c + 1) s c U = .value r ∧
        (r = none ↔ ∀ q ∈ chain s (c + 1) c, holds (s q).values U = false)) := by
  refine ⟨fun hlocal hn => ⟨?_, ?_⟩, ?_⟩
  · intro P n hpar
    rw [Get_fall_through ord hord n s c U hU hn hlocal, hpar]
  · intro hpar n
    rw [Get_fall_through ord hord n s c U hU hn hlocal, hpar]
  · intro hwf hv
    exact Get_none_iff ord hord s hwf U hU (c + 1) c (Nat.lt_succ_self c) hv

/-- A witness of C4: the fresh child of `Sample.family` asks for `io.Writer`, which only
the buffer of the parent satisfies. -/
theorem Get_fall_through_chain_witness :
    Order.Valid Sample.inOrder ∧ Sample.tWriter ≠ Ty.nil ∧
    holds (Sample.family 1).values Sample.tWriter = false ∧
    noNilKey (Sample.family 1).values = true ∧
    (Sample.family 1).parent = some 0 ∧
    Get Sample.inOrder 2 Sample.family 1 Sample.tWriter
      = Get Sample.inOrder 1 Sample.family 0 Sample.tWriter ∧
    ∃ r, Get Sample.inOrder 2 Sample.family 1 Sample.tWriter = .value r ∧
      (r = none ↔ ∀ q ∈ chain Sample.family 2 1,
        holds (Sample.family q).values Sample.tWriter = false) :=
  have h := Get_fall_through_chain Sample.inOrder inOrder_valid Sample.family 1 Sample.tWriter
    (by decide)
  ⟨inOrder_valid, by decide, by decide, by decide, by decide,
    (h.1 (by decide) (fun _ => by decide)).1 0 1 (by decide),
    h.2 family_parents_below (by decide)⟩

/-- C4, the claim as stated fails: after `Set(int, reflect.Value{})` in a fresh container
without a parent, `Get(int)` returns the zero Value although the container holds an exact
registration for `int`. -/
theorem zero_Value_registration_not_found :
    ¬ (Get Sample.inOrder 1 (Set Sample.empty 0 Sample.tInt none) 0 Sample.tInt
        = .value none ↔
      ∀ q ∈ chain (Set Sample.empty 0 Sample.tInt none) 1 0,
        holds ((Set Sample.empty 0 Sample.tInt none) q).values Sample.tInt = false) := by
  decide

/-- C5, as amended.  For a container `child` (whatever its parent holds) and an interface
`T` without an exact local registration: when every Value registered locally is valid, no
local registration is keyed by the nil Type, and at least one local registration has a
type that satisfies `T`, `child.Get(T)` returns the valid value of a local registration
whose type satisfies `T`. -/
theorem local_scan_before_parent (ord : Order) (hord : ord.Valid) (n : Nat) (s : Store)
    (child : Ptr) (T : Ty) (hT : T.isInterface = true)
    (hexact : ∀ e ∈ (s child).values, e.1 ≠ T)
    (hsat : ∃ e ∈ (s child).values, e.1.Implements T = true)
    (hv : allValid (s child).values = true)
    (hnil : noNilKey (s child).values = true) :
    ∃ e ∈ (s child).values, e.1.Implements T = true ∧ IsValid e.2 = true ∧
      Get ord (n + 1) s child T = .value e.2 :=
  Get_scan ord hord n s child T (mapIndex_none_of_no_key _ _ hexact) hT hv hnil hsat

/-- A witness of C5: the child of `Sample.nested` holds a buffer, its parent holds a file
under `io.Writer` itself, and the child resolves `io.Writer` to its own buffer. -/
theorem local_scan_before_parent_witness :
    Order.Valid Sample.inOrder ∧ Sample.tWriter.isInterface = true ∧
    (∀ e ∈ (Sample.nested 1).values, e.1 ≠ Sample.tWriter) ∧
    (∃ e ∈ (Sample.nested 1).values, e.1.Implements Sample.tWriter = true) ∧
    allValid (Sample.nested 1).values = true ∧
    noNilKey (Sample.nested 1).values = true ∧
    mapIndex (Sample.nested 0).values Sample.tWriter = some Sample.vFile ∧
    ∃ e ∈ (Sample.nested 1).values, e.1.Implements Sample.tWriter = true ∧
      IsValid e.2 = true ∧
      Get Sample.inOrder 2 Sample.nested 1 Sample.tWriter = .value e.2 :=
  ⟨inOrder_valid, by decide, by decide, by decide, by decide, by decide, by decide,
    local_scan_before_parent Sample.inOrder inOrder_valid 1 Sample.nested 1 Sample.tWriter
      (by decide) (by decide) (by decide) (by decide) (by decide)⟩

/-- C5, the claim as stated fails, in two ways.  The child of `Sample.zeroed` has no exact
registration for `io.Writer` and one local registration whose type, `*bytes.Buffer`,
satisfies it, but the Value of that registration is the zero Value, so `Get(io.Writer)`
returns the file of the parent, which is the value of no local registration.  And the
container of `Sample.nilKeyed` holds valid Values only, no exact registration for
`io.Writer` and a buffer whose type satisfies it, but also a registration under the nil
Type: when the scan visits that one first, `Get(io.Writer)` panics. -/
theorem zero_Value_scan_delegates :
    (Sample.tWriter.isInterface = true ∧
     (∀ e ∈ (Sample.zeroed 1).values, e.1 ≠ Sample.tWriter) ∧
     (∃ e ∈ (Sample.zeroed 1).values, e.1.Implements Sample.tWriter = true) ∧
     Get Sample.inOrder 2 Sample.zeroed 1 Sample.tWriter = .value (some Sample.vFile) ∧
     ¬ ∃ e ∈ (Sample.zeroed 1).values, e.1.Implements Sample.tWriter = true ∧
       Get Sample.inOrder 2 Sample.zeroed 1 Sample.tWriter = .value e.2) ∧
    ((∀ e ∈ (Sample.nilKeyed 0).values, e.1 ≠ Sample.tWriter) ∧
     (∃ e ∈ (Sample.nilKeyed 0).values, e.1.Implements Sample.tWriter = true) ∧
     allValid (Sample.nilKeyed 0).values = true ∧
     Get Sample.inOrder 1 Sample.nilKeyed 0 Sample.tWriter = .panic) := by
  decide

end Inject

namespace Inject

/-! ## Invoke -/

theorem app_parents_below : ∀ p q, (Sample.app p).parent = some q → q < p := by
  intro p q h
  by_cases hp : p = 0
  · simp [Sample.app, hp] at h
  · simp only [Sample.app, hp, if_false, Option.some.injEq] at h
    subst h
    exact Nat.pos_of_ne_zero hp

/-- The loop of `Invoke` stops at the first parameter type without a valid value, when no
`Get` before it panics. -/
theorem resolveIn_first_unresolved (ords : Nat → Order) (fuel : Nat) (s : Store) (inj : Ptr)
    (l : List Ty) (i0 : Nat)
    (hret : ∀ i t, l[i]? = some t → Get (ords (i0 + i)) fuel s inj t ≠ .timeout)
    (hex : ∃ i t, l[i]? = some t ∧ Get (ords (i0 + i)) fuel s inj t = .value none ∧
      ∀ j, j < i → ∀ u, l[j]? = some u → Get (ords (i0 + j)) fuel s inj u ≠ .panic) :
    ∃ k T, l[k]? = some T ∧ Get (ords (i0 + k)) fuel s inj T = .value none ∧
      (∀ i, i < k → ∀ t, l[i]? = some t →
        ∃ v, Get (ords (i0 + i)) fuel s inj t = .value (some v)) ∧
      resolveIn ords fuel s inj i0 l = .missing T := by
  induction l generalizing i0 with
  | nil =>
    obtain ⟨i, t, hi, _⟩ := hex
    simp at hi
  | cons a rest ih =>
    have hshift : ∀ j, i0 + 1 + j = i0 + (j + 1) := fun j => by omega
    cases hr : Get (ords i0) fuel s inj a with
    | timeout =>
      exact absurd hr (by simpa using hret 0 a (by simp))
    | panic =>
      obtain ⟨i, t, hi, hg, hnp⟩ := hex
      cases i with
      | zero =>
        simp only [List.getElem?_cons_zero, Option.some.injEq] at hi
        subst hi
        rw [Nat.add_zero, hr] at hg
        exact Got.noConfusion hg
      | succ j =>
        exact absurd hr (by simpa using hnp 0 (Nat.succ_pos j) a (by simp))
    | value r =>
      cases r with
      | none =>
        refine ⟨0, a, by simp, by simpa using hr, ?_, ?_⟩
        · intro i hi
          exact absurd hi (Nat.not_lt_zero i)
        · simp [resolveIn, hr]
      | some v =>
        have hret' : ∀ i t, rest[i]? = some t →
            Get (ords (i0 + 1 + i)) fuel s inj t ≠ .timeout := by
          intro i t hi
          rw [hshift]
          exact hret (i + 1) t (by simpa using hi)
        have hex' : ∃ i t, rest[i]? = some t ∧
            Get (ords (i0 + 1 + i)) fuel s inj t = .value none ∧
            ∀ j, j < i → ∀ u, rest[j]? = some u →
              Get (ords (i0 + 1 + j)) fuel s inj u ≠ .panic := by
          obtain ⟨i, t, hi, hg, hnp⟩ := hex
          cases i with
          | zero =>
            simp only [List.getElem?_cons_zero, Option.some.injEq] at hi
            subst hi
            rw [Nat.add_zero, hr] at hg
            simp at hg
          | succ j =>
            refine ⟨j, t, by simpa using hi, ?_, ?_⟩
            · rw [hshift]
              exact hg
            · intro j' hj' u hu
              rw [hshift]
              exact hnp (j' + 1) (Nat.succ_lt_succ hj') u (by simpa using hu)
        obtain ⟨k, T, hk, hT, hbefore, hres⟩ := ih (i0 + 1) hret' hex'
        refine ⟨k + 1, T, by simpa using hk, ?_, ?_, ?_⟩
        · rw [← hshift]
          exact hT
        · intro i hi t ht
          cases i with
          | zero =>
            simp only [List.getElem?_cons_zero, Option.some.injEq] at ht
            subst ht
            exact ⟨v, by simpa using hr⟩
          | succ j =>
            rw [← hshift]
            exact hbefore j (Nat.lt_of_succ_lt_succ hi) t (by simpa using ht)
        · simp [resolveIn, hr, hres]

/-- The loop of `Invoke` collects the values that `Get` returns for the parameter types, in
declared order, when every one of them is valid. -/
theorem resolveIn_all_resolved (ords : Nat → Order) (fuel : Nat) (s : Store) (inj : Ptr)
    (l : List Ty) (i0 : Nat) (args : List Val) (hlen : args.length = l.length)
    (hres : ∀ i t, l[i]? = some t → Get (ords (i0 + i)) fuel s inj t = .value (args[i]?)) :
    resolveIn ords fuel s inj i0 l = .args args := by
  induction l generalizing i0 args with
  | nil =>
    cases args with
    | nil => rfl
    | cons x xs => simp at hlen
  | cons a rest ih =>
    cases args with
    | nil => simp at hlen
    | cons x xs =>
      have hshift : ∀ j, i0 + 1 + j = i0 + (j + 1) := fun j => by omega
      have hx : Get (ords i0) fuel s inj a = .value (some x) := by
        simpa using hres 0 a (by simp)
      have hrest : resolveIn ords fuel s inj (i0 + 1) rest = .args xs := by
        apply ih (i0 + 1) xs (by simpa using hlen)
        intro i t hi
        rw [hshift]
        simpa using hres (i + 1) t (by simpa using hi)
      simp [resolveIn, hx, hrest]

/-- C6, as amended. Invoke failure. In a store whose parent links go to containers created
earlier (so that every `Get` ends), for every container and function `fn` with a parameter
type that `Get` resolves to the zero Value while no `Get` of an earlier parameter type
panics: `Invoke(fn)` makes no call to `fn`, returns the nil slice, does not panic, and
returns the error "Value not found for type T" where `T` is the first unresolved
parameter type in declared order. -/
theorem Invoke_unresolved (accepts : Val → Ty → Bool) (ords : Nat → Order) (fuel : Nat)
    (s : Store) (inj : Ptr)
    (fn : Func) (hwf : ∀ p q, (s p).parent = some q → q < p) (hfuel : inj < fuel)
    (hex : ∃ i t, fn.ins[i]? = some t ∧ Get (ords i) fuel s inj t = .value none ∧
      ∀ j, j < i → ∀ u, fn.ins[j]? = some u → Get (ords j) fuel s inj u ≠ .panic) :
    ∃ k T, fn.ins[k]? = some T ∧ Get (ords k) fuel s inj T = .value none ∧
      (∀ i, i < k → ∀ t, fn.ins[i]? = some t →
        ∃ v, Get (ords i) fuel s inj t = .value (some v)) ∧
      Invoke accepts ords fuel s inj (.func fn) = some
        { results := none, err := some ("Value not found for type " ++ T.String),
          calls := [], panicked := false } := by
  have hret : ∀ i t, fn.ins[i]? = some t →
      Get (ords (0 + i)) fuel s inj t ≠ .timeout :=
    fun i t _ => Get_returns (ords (0 + i)) s hwf t fuel inj hfuel
  have hex' : ∃ i t, fn.ins[i]? = some t ∧ Get (ords (0 + i)) fuel s inj t = .value none ∧
      ∀ j, j < i → ∀ u, fn.ins[j]? = some u →
        Get (ords (0 + j)) fuel s inj u ≠ .panic := by
    obtain ⟨i, t, hi, hg, hnp⟩ := hex
    refine ⟨i, t, hi, by rw [Nat.zero_add]; exact hg, ?_⟩
    intro j hj u hu
    rw [Nat.zero_add]
    exact hnp j hj u hu
  obtain ⟨k, T, hk, hT, hbefore, hres⟩ :=
    resolveIn_first_unresolved ords fuel s inj fn.ins 0 hret hex'
  rw [Nat.zero_add] at hT
  refine ⟨k, T, hk, hT, ?_, ?_⟩
  · intro i hi t ht
    have := hbefore i hi t ht
    rw [Nat.zero_add] at this
    exact this
  · simp [Invoke, hres, notFoundError]

theorem needy_unresolved :
    ∃ (i : Nat) (t : Ty), Sample.needy.ins[i]? = some t ∧
      Get Sample.inOrder 2 Sample.app 1 t = .value none ∧
      ∀ j : Nat, j < i → ∀ u : Ty, Sample.needy.ins[j]? = some u →
        Get Sample.inOrder 2 Sample.app 1 u ≠ .panic := by
  refine ⟨1, Sample.tStringer, by decide, by decide, ?_⟩
  intro j hj u hu
  have hj0 : j = 0 := by omega
  subst hj0
  simp only [Sample.needy, List.getElem?_cons_zero, Option.some.injEq] at hu
  subst hu
  decide

/-- A witness of C6: in the request container of `Sample.app` the handler
`func(*http.Request, fmt.Stringer, int)` gets its request, and neither a `fmt.Stringer`
nor an `int`; the error names `fmt.Stringer`. -/
theorem Invoke_unresolved_witness :
    (∀ p q, (Sample.app p).parent = some q → q < p) ∧ (1 : Ptr) < 2 ∧
    (∃ (i : Nat) (t : Ty), Sample.needy.ins[i]? = some t ∧
      Get Sample.inOrder 2 Sample.app 1 t = .value none ∧
      ∀ j : Nat, j < i → ∀ u : Ty, Sample.needy.ins[j]? = some u →
        Get Sample.inOrder 2 Sample.app 1 u ≠ .panic) ∧
    (∃ (k : Nat) (T : Ty), Sample.needy.ins[k]? = some T ∧
      Get Sample.inOrder 2 Sample.app 1 T = .value none ∧
      (∀ i : Nat, i < k → ∀ t : Ty, Sample.needy.ins[i]? = some t →
        ∃ v, Get Sample.inOrder 2 Sample.app 1 t = .value (some v)) ∧
      Invoke Sample.accepts (fun _ => Sample.inOrder) 2 Sample.app 1 (.func Sample.needy)
        = some
        { results := none, err := some ("Value not found for type " ++ T.String),
          calls := [], panicked := false }) ∧
    Invoke Sample.accepts (fun _ => Sample.inOrder) 2 Sample.app 1 (.func Sample.needy) = some
      { results := none, err := some "Value not found for type fmt.Stringer",
        calls := [], panicked := false } :=
  ⟨app_parents_below, by decide, needy_unresolved,
    Invoke_unresolved Sample.accepts (fun _ => Sample.inOrder) 2 Sample.app 1 Sample.needy
      app_parents_below (by decide) needy_unresolved,
    by decide⟩

/-- C6, the claim as stated fails: in the container that `Map(nil)` leaves, the handler
`func(s fmt.Stringer, n int)` has a parameter type, `int`, that `Get` resolves to the zero
Value, but `Invoke` returns no error: the `Get` of `fmt.Stringer` panics when its scan
reaches the registration under the nil Type, and `Invoke` panics with it. -/
theorem Invoke_panics_at_nil_key :
    Sample.curious.ins[1]? = some Sample.tInt ∧
    Get Sample.inOrder 1 Sample.nilMapped 0 Sample.tInt = .value none ∧
    Get Sample.inOrder 1 Sample.nilMapped 0 Sample.tStringer = .panic ∧
    Invoke Sample.accepts (fun _ => Sample.inOrder) 1 Sample.nilMapped 0
        (.func Sample.curious)
      = some { results := none, err := none, calls := [], panicked := true } :=
  ⟨by decide, by decide, by decide, rfl⟩

/-- C7, as amended. Invoke success. For every container and function `fn` all of whose
parameter types resolve, to the values `args` in declared order: when `reflect` accepts the
call of `fn` with these values (`fn` is not nil and every value fits its parameter; for a
variadic `fn`, the last value fits the element type of the final parameter), `Invoke(fn)`
calls `fn` exactly once, with argument `i` equal to `Get` of the type of parameter `i` for
every `i`, and returns the results of `fn` (the nil slice when it has none) with a nil
error; when `reflect` does not accept the call, `Invoke` panics without a call. -/
theorem Invoke_calls_once (accepts : Val → Ty → Bool) (ords : Nat → Order) (fuel : Nat)
    (s : Store) (inj : Ptr) (fn : Func) (args : List Val)
    (hlen : args.length = fn.ins.length)
    (hres : ∀ i t, fn.ins[i]? = some t → Get (ords i) fuel s inj t = .value (args[i]?)) :
    (callable accepts fn args = true →
      Invoke accepts ords fuel s inj (.func fn) = some
        { results := results (fn.outs args), err := none, calls := [args],
          panicked := false }) ∧
    (callable accepts fn args = false →
      Invoke accepts ords fuel s inj (.func fn) = some
        { results := none, err := none, calls := [], panicked := true }) := by
  have hargs : resolveIn ords fuel s inj 0 fn.ins = .args args := by
    apply resolveIn_all_resolved ords fuel s inj fn.ins 0 args hlen
    intro i t hi
    rw [Nat.zero_add]
    exact hres i t hi
  constructor
  · intro hcall
    simp [Invoke, hargs, hcall]
  · intro hcall
    simp [Invoke, hargs, hcall, invokePanic]

theorem writes_resolved : ∀ (i : Nat) (t : Ty), Sample.writes.ins[i]? = some t →
    Get Sample.inOrder 2 Sample.app 1 t = .value ([Sample.vFile, Sample.vReq][i]?) := by
  intro i t hi
  match i, hi with
  | 0, hi =>
    simp only [Sample.writes, List.getElem?_cons_zero, Option.some.injEq] at hi
    subst hi
    decide
  | 1, hi =>
    simp only [Sample.writes, List.getElem?_cons_succ, List.getElem?_cons_zero,
      Option.some.injEq] at hi
    subst hi
    decide
  | j + 2, hi => simp [Sample.writes] at hi

/-- A witness of C7: in the request container of `Sample.app` the handler
`func(io.Writer, *http.Request)` is called once, with the file of the application and the
request. -/
theorem Invoke_calls_once_witness :
    [Sample.vFile, Sample.vReq].length = Sample.writes.ins.length ∧
    (∀ (i : Nat) (t : Ty), Sample.writes.ins[i]? = some t →
      Get Sample.inOrder 2 Sample.app 1 t = .value ([Sample.vFile, Sample.vReq][i]?)) ∧
    callable Sample.accepts Sample.writes [Sample.vFile, Sample.vReq] = true ∧
    Invoke Sample.accepts (fun _ => Sample.inOrder) 2 Sample.app 1 (.func Sample.writes)
      = some
      { results := some [Sample.vFile, Sample.vReq], err := none,
        calls := [[Sample.vFile, Sample.vReq]], panicked := false } :=
  ⟨by decide, writes_resolved, by decide,
    (Invoke_calls_once Sample.accepts (fun _ => Sample.inOrder) 2 Sample.app 1 Sample.writes
      [Sample.vFile, Sample.vReq] (by decide) writes_resolved).1 (by decide)⟩

/-- C7, the claim as stated fails, in two ways.  After `MapTo(42, (*io.Writer)(nil))` in a
fresh container, the only parameter type of `func(w io.Writer)` resolves (to the `int`),
and `Invoke` neither calls the function nor returns: `reflect.Value.Call` panics on the
argument that is not assignable to `io.Writer`.  And after `Map(names)` with a `[]string`,
the only parameter type of the variadic `func(names ...string)`, which is `[]string`,
resolves to a value of that very type, and `Invoke` panics again: `Call` takes the value as
one element of the variadic parameter, and a `[]string` is not a `string`. -/
theorem Invoke_panics_on_mistyped_value :
    (MapTo Sample.empty 0 (some Sample.vInt) (.ptr Sample.tWriter []) = some Sample.mistyped ∧
     (∀ (i : Nat) (t : Ty), Sample.sink.ins[i]? = some t →
       ∃ v, Get Sample.inOrder 1 Sample.mistyped 0 t = .value (some v)) ∧
     Invoke Sample.accepts (fun _ => Sample.inOrder) 1 Sample.mistyped 0 (.func Sample.sink)
       = some { results := none, err := none, calls := [], panicked := true }) ∧
    ((∀ (i : Nat) (t : Ty), Sample.greet.ins[i]? = some t →
       ∃ v, Get Sample.inOrder 1 Sample.listed 0 t = .value (some v) ∧ v.typ = t) ∧
     Invoke Sample.accepts (fun _ => Sample.inOrder) 1 Sample.listed 0 (.func Sample.greet)
       = some { results := none, err := none, calls := [], panicked := true }) := by
  refine ⟨⟨rfl, ?_, by decide⟩, ?_, by decide⟩
  · intro i t hi
    match i, hi with
    | 0, hi =>
      simp only [Sample.sink, List.getElem?_cons_zero, Option.some.injEq] at hi
      subst hi
      exact ⟨Sample.vInt, by decide⟩
    | j + 1, hi => simp [Sample.sink] at hi
  · intro i t hi
    match i, hi with
    | 0, hi =>
      simp only [Sample.greet, List.getElem?_cons_zero, Option.some.injEq] at hi
      subst hi
      exact ⟨Sample.vStrings, by decide, by decide⟩
    | j + 1, hi => simp [Sample.greet] at hi

end Inject

namespace Inject

/-! ## Apply -/

theorem Apply_eq_applyFields (accepts : Val → Ty → Bool) (ords : Nat → Order) (fuel : Nat)
    (s : Store) (inj : Ptr) (a : Bool) (target : Target) :
    Apply accepts ords fuel s inj a target
      = applyFields accepts ords fuel s inj (target.addressable a) 0 target.fields := by
  induction target generalizing a with
  | ptr e ih => simp only [Apply, Target.addressable, Target.fields, ih]
  | struct fs => rfl
  | other => rfl

/-- A field without the annotation (absent or empty marker) does not pass the tag test of
`Apply`. -/
theorem not_tagged_of_absent_or_empty (f : StructField)
    (h : f.tag.raw ≠ "inject" ∧ f.tag.Get "inject" = "") : tagged f = false := by
  simp [tagged, h.1, h.2]

/-- What a field loop that ends without error and without panic has done, field by
field. -/
theorem applyFields_success (accepts : Val → Ty → Bool) (ords : Nat → Order) (fuel : Nat)
    (s : Store) (inj : Ptr)
    (a : Bool) (l : List StructField) (i0 : Nat) (r : ApplyResult)
    (hr : applyFields accepts ords fuel s inj a i0 l = some r) (herr : r.err = none)
    (hpanic : r.panicked = false) :
    r.fields.length = l.length ∧
    ∀ i f, l[i]? = some f → ∃ f1, r.fields[i]? = some f1 ∧
      ((CanSet a f && tagged f) = true →
        ∃ v, Get (ords (i0 + i)) fuel s inj f.typ = .value (some v) ∧
          f1 = { f with value := some v }) ∧
      ((CanSet a f && tagged f) = false → f1 = f) := by
  induction l generalizing i0 r with
  | nil =>
    simp only [applyFields, Option.some.injEq] at hr
    subst hr
    exact ⟨rfl, fun i f hi => by simp at hi⟩
  | cons f rest ih =>
    have hshift : ∀ j, i0 + 1 + j = i0 + (j + 1) := fun j => by omega
    by_cases hc : (CanSet a f && tagged f) = true
    · cases hg : Get (ords i0) fuel s inj f.typ with
      | timeout => simp [applyFields, hc, hg] at hr
      | panic =>
        simp only [applyFields, hc, hg, if_true, Option.some.injEq] at hr
        subst hr
        simp at hpanic
      | value x =>
        cases x with
        | none =>
          simp only [applyFields, hc, hg, if_true, Option.some.injEq] at hr
          subst hr
          simp at herr
        | some v =>
          by_cases ha : accepts v f.typ = true
          · cases hrec : applyFields accepts ords fuel s inj a (i0 + 1) rest with
            | none => simp [applyFields, hc, hg, ha, hrec] at hr
            | some r1 =>
              simp only [applyFields, hc, hg, ha, hrec, if_true, Option.some.injEq] at hr
              subst hr
              obtain ⟨hlen, hfields⟩ := ih (i0 + 1) r1 hrec herr hpanic
              refine ⟨by simp [hlen], ?_⟩
              intro i g hi
              cases i with
              | zero =>
                simp only [List.getElem?_cons_zero, Option.some.injEq] at hi
                subst hi
                refine ⟨{ f with value := some v }, by simp, ?_, ?_⟩
                · intro _
                  exact ⟨v, by simpa using hg, rfl⟩
                · intro hn
                  rw [hc] at hn
                  exact Bool.noConfusion hn
              | succ j =>
                obtain ⟨f1, hf1, hset, hkeep⟩ := hfields j g (by simpa using hi)
                refine ⟨f1, by simpa using hf1, ?_, hkeep⟩
                intro hcg
                rw [← hshift]
                exact hset hcg
          · simp only [applyFields, hc, hg, ha, if_true, if_false, Option.some.injEq,
              Bool.false_eq_true] at hr
            subst hr
            simp at hpanic
    · have hc' : (CanSet a f && tagged f) = false := by simpa using hc
      cases hrec : applyFields accepts ords fuel s inj a (i0 + 1) rest with
      | none => simp [applyFields, hc', hrec] at hr
      | some r1 =>
        simp only [applyFields, hc', hrec, Bool.false_eq_true, if_false,
          Option.some.injEq] at hr
        subst hr
        obtain ⟨hlen, hfields⟩ := ih (i0 + 1) r1 hrec herr hpanic
        refine ⟨by simp [hlen], ?_⟩
        intro i g hi
        cases i with
        | zero =>
          simp only [List.getElem?_cons_zero, Option.some.injEq] at hi
          subst hi
          refine ⟨f, by simp, ?_, fun _ => rfl⟩
          intro hy
          rw [hc'] at hy
          exact Bool.noConfusion hy
        | succ j =>
          obtain ⟨f1, hf1, hset, hkeep⟩ := hfields j g (by simpa using hi)
          refine ⟨f1, by simpa using hf1, ?_, hkeep⟩
          intro hcg
          rw [← hshift]
          exact hset hcg

/-- C8. Apply selectivity. For every value handed to `Apply` and every container: after
an `Apply` that returns a nil error (and does not panic), the struct has the same fields
in the same order; each field that can be set and carries the `inject` annotation holds
`Get` of its type, a valid value, and is otherwise as before; and each field that cannot
be set, or whose annotation is absent or empty, is exactly as before. -/
theorem Apply_selective (accepts : Val → Ty → Bool) (ords : Nat → Order) (fuel : Nat)
    (s : Store) (inj : Ptr)
    (target : Target) (r : ApplyResult)
    (hr : Apply accepts ords fuel s inj false target = some r) (herr : r.err = none)
    (hpanic : r.panicked = false) :
    r.fields.length = target.fields.length ∧
    ∀ i f, target.fields[i]? = some f → ∃ f1, r.fields[i]? = some f1 ∧
      (CanSet (target.addressable false) f = true → tagged f = true →
        ∃ v, Get (ords i) fuel s inj f.typ = .value (some v) ∧
          f1 = { f with value := some v }) ∧
      (CanSet (target.addressable false) f = false ∨
        (f.tag.raw ≠ "inject" ∧ f.tag.Get "inject" = "") → f1 = f) := by
  rw [Apply_eq_applyFields] at hr
  obtain ⟨hlen, hfields⟩ := applyFields_success accepts ords fuel s inj _ _ 0 r hr herr hpanic
  refine ⟨hlen, ?_⟩
  intro i f hi
  obtain ⟨f1, hf1, hset, hkeep⟩ := hfields i f hi
  refine ⟨f1, hf1, ?_, ?_⟩
  · intro hcan htag
    have := hset (by simp [hcan, htag])
    rw [Nat.zero_add] at this
    exact this
  · intro h
    apply hkeep
    rcases h with hcan | htag
    · simp [hcan]
    · simp [not_tagged_of_absent_or_empty f htag]

/-- A witness of C8: `Apply` on `Sample.form` in the request container of `Sample.app`
sets `W` and `Req` and leaves the untagged `N`, the empty-marked `E` and the unexported
`w` as they were. -/
theorem Apply_selective_witness :
    Apply Sample.accepts (fun _ => Sample.inOrder) 2 Sample.app 1 false Sample.form
      = some Sample.formDone ∧
    Sample.formDone.err = none ∧ Sample.formDone.panicked = false ∧
    Sample.formDone.fields.length = Sample.form.fields.length ∧
    ∀ (i : Nat) (f : StructField), Sample.form.fields[i]? = some f →
      ∃ f1, Sample.formDone.fields[i]? = some f1 ∧
      (CanSet (Sample.form.addressable false) f = true → tagged f = true →
        ∃ v, Get Sample.inOrder 2 Sample.app 1 f.typ = .value (some v) ∧
          f1 = { f with value := some v }) ∧
      (CanSet (Sample.form.addressable false) f = false ∨
        (f.tag.raw ≠ "inject" ∧ f.tag.Get "inject" = "") → f1 = f) :=
  ⟨by decide, by decide, by decide,
    Apply_selective Sample.accepts (fun _ => Sample.inOrder) 2 Sample.app 1 Sample.form
      Sample.formDone
      (by decide) (by decide) (by decide)⟩

/-- The field loop stops with an error at the first field that can be set, carries the
annotation and has no valid value for its type; the fields before it are set or kept, and
the fields from it on are as before. -/
theorem applyFields_failure (accepts : Val → Ty → Bool) (ords : Nat → Order) (fuel : Nat)
    (s : Store) (inj : Ptr)
    (a : Bool) (l : List StructField) (i0 k : Nat) (fk : StructField)
    (hk : l[k]? = some fk) (hkc : (CanSet a fk && tagged fk) = true)
    (hkget : Get (ords (i0 + k)) fuel s inj fk.typ = .value none)
    (hbefore : ∀ i, i < k → ∀ f, l[i]? = some f → (CanSet a f && tagged f) = true →
      ∃ v, Get (ords (i0 + i)) fuel s inj f.typ = .value (some v) ∧
        accepts v f.typ = true) :
    ∃ r, applyFields accepts ords fuel s inj a i0 l = some r ∧
      r.err = some (notFoundError fk.typ) ∧ r.panicked = false ∧
      r.fields.length = l.length ∧
      (∀ i f, l[i]? = some f → i < k → ∃ f1, r.fields[i]? = some f1 ∧
        ((CanSet a f && tagged f) = true →
          ∃ v, Get (ords (i0 + i)) fuel s inj f.typ = .value (some v) ∧
            f1 = { f with value := some v }) ∧
        ((CanSet a f && tagged f) = false → f1 = f)) ∧
      (∀ i f, l[i]? = some f → k ≤ i → r.fields[i]? = some f) := by
  induction l generalizing i0 k with
  | nil => simp at hk
  | cons f rest ih =>
    have hshift : ∀ j, i0 + 1 + j = i0 + (j + 1) := fun j => by omega
    cases k with
    | zero =>
      simp only [List.getElem?_cons_zero, Option.some.injEq] at hk
      subst hk
      have hg : Get (ords i0) fuel s inj f.typ = .value none := by simpa using hkget
      refine ⟨{ fields := f :: rest, err := some (notFoundError f.typ), panicked := false },
        by simp [applyFields, hkc, hg], rfl, rfl, rfl, ?_, ?_⟩
      · intro i g _ hi
        exact absurd hi (Nat.not_lt_zero i)
      · intro i g hi _
        exact hi
    | succ j =>
      have hk' : rest[j]? = some fk := by simpa using hk
      have hkget' : Get (ords (i0 + 1 + j)) fuel s inj fk.typ = .value none := by
        rw [hshift]
        exact hkget
      have hbefore' : ∀ i, i < j → ∀ g, rest[i]? = some g →
          (CanSet a g && tagged g) = true →
          ∃ v, Get (ords (i0 + 1 + i)) fuel s inj g.typ = .value (some v) ∧
            accepts v g.typ = true := by
        intro i hi g hg hcg
        rw [hshift]
        exact hbefore (i + 1) (Nat.succ_lt_succ hi) g (by simpa using hg) hcg
      obtain ⟨r1, hrec, herr, hpanic, hlen, hset, hkeep⟩ :=
        ih (i0 + 1) j hk' hkget' hbefore'
      by_cases hc : (CanSet a f && tagged f) = true
      · obtain ⟨v, hv, hassign⟩ := hbefore 0 (Nat.succ_pos j) f (by simp) hc
        have hv' : Get (ords i0) fuel s inj f.typ = .value (some v) := by simpa using hv
        refine ⟨{ r1 with fields := { f with value := some v } :: r1.fields },
          by simp [applyFields, hc, hv', hassign, hrec], herr, hpanic, by simp [hlen], ?_, ?_⟩
        · intro i g hi hlt
          cases i with
          | zero =>
            simp only [List.getElem?_cons_zero, Option.some.injEq] at hi
            subst hi
            refine ⟨{ f with value := some v }, by simp, fun _ => ⟨v, hv, rfl⟩, ?_⟩
            intro hn
            rw [hc] at hn
            exact Bool.noConfusion hn
          | succ m =>
            obtain ⟨f1, hf1, h1, h2⟩ :=
              hset m g (by simpa using hi) (Nat.lt_of_succ_lt_succ hlt)
            refine ⟨f1, by simpa using hf1, ?_, h2⟩
            intro hcg
            rw [← hshift]
            exact h1 hcg
        · intro i g hi hle
          cases i with
          | zero => exact absurd hle (Nat.not_succ_le_zero j)
          | succ m =>
            simpa using hkeep m g (by simpa using hi) (Nat.le_of_succ_le_succ hle)
      · have hc' : (CanSet a f && tagged f) = false := by simpa using hc
        refine ⟨{ r1 with fields := f :: r1.fields },
          by simp [applyFields, hc', hrec], herr, hpanic, by simp [hlen], ?_, ?_⟩
        · intro i g hi hlt
          cases i with
          | zero =>
            simp only [List.getElem?_cons_zero, Option.some.injEq] at hi
            subst hi
            refine ⟨f, by simp, ?_, fun _ => rfl⟩
            intro hy
            rw [hc'] at hy
            exact Bool.noConfusion hy
          | succ m =>
            obtain ⟨f1, hf1, h1, h2⟩ :=
              hset m g (by simpa using hi) (Nat.lt_of_succ_lt_succ hlt)
            refine ⟨f1, by simpa using hf1, ?_, h2⟩
            intro hcg
            rw [← hshift]
            exact h1 hcg
        · intro i g hi hle
          cases i with
          | zero => exact absurd hle (Nat.not_succ_le_zero j)
          | succ m =>
            simpa using hkeep m g (by simpa using hi) (Nat.le_of_succ_le_succ hle)

/-- C9, as amended. Apply failure without rollback. For every value handed to `Apply`
whose struct has a field `fk` at position `k` that can be set, carries the annotation and
whose type `Get` resolves to the zero Value, when every field before it that can be set
and carries the annotation resolves to a value that `reflect.Value.Set` accepts for the
field (a value assignable to the type of the field): `Apply` returns
the error "Value not found for type T" with `T` the type of `fk`, and does not panic; the
fields before `k` that can be set and carry the annotation hold their resolved values,
the other fields before `k` are as before, and every field at or after `k` is as
before. -/
theorem Apply_fails_at_first_unresolved (accepts : Val → Ty → Bool) (ords : Nat → Order)
    (fuel : Nat) (s : Store) (inj : Ptr) (target : Target) (k : Nat) (fk : StructField)
    (hk : target.fields[k]? = some fk)
    (hkc : CanSet (target.addressable false) fk = true) (hkt : tagged fk = true)
    (hkget : Get (ords k) fuel s inj fk.typ = .value none)
    (hbefore : ∀ i, i < k → ∀ f, target.fields[i]? = some f →
      CanSet (target.addressable false) f = true → tagged f = true →
      ∃ v, Get (ords i) fuel s inj f.typ = .value (some v) ∧ accepts v f.typ = true) :
    ∃ r, Apply accepts ords fuel s inj false target = some r ∧
      r.err = some ("Value not found for type " ++ fk.typ.String) ∧ r.panicked = false ∧
      r.fields.length = target.fields.length ∧
      (∀ i f, target.fields[i]? = some f → i < k → ∃ f1, r.fields[i]? = some f1 ∧
        (CanSet (target.addressable false) f = true → tagged f = true →
          ∃ v, Get (ords i) fuel s inj f.typ = .value (some v) ∧
            f1 = { f with value := some v }) ∧
        (CanSet (target.addressable false) f = false ∨ tagged f = false → f1 = f)) ∧
      (∀ i f, target.fields[i]? = some f → k ≤ i → r.fields[i]? = some f) := by
  have hkget' : Get (ords (0 + k)) fuel s inj fk.typ = .value none := by
    rw [Nat.zero_add]
    exact hkget
  have hbefore' : ∀ i, i < k → ∀ f, target.fields[i]? = some f →
      (CanSet (target.addressable false) f && tagged f) = true →
      ∃ v, Get (ords (0 + i)) fuel s inj f.typ = .value (some v) ∧
        accepts v f.typ = true := by
    intro i hi f hf hc
    rw [Nat.zero_add]
    simp only [Bool.and_eq_true] at hc
    exact hbefore i hi f hf hc.1 hc.2
  obtain ⟨r, hr, herr, hpanic, hlen, hset, hkeep⟩ :=
    applyFields_failure accepts ords fuel s inj (target.addressable false) target.fields 0 k fk hk
      (by simp [hkc, hkt]) hkget' hbefore'
  refine ⟨r, by rw [Apply_eq_applyFields]; exact hr, herr, hpanic, hlen, ?_, hkeep⟩
  intro i f hf hi
  obtain ⟨f1, hf1, h1, h2⟩ := hset i f hf hi
  refine ⟨f1, hf1, ?_, ?_⟩
  · intro hcan htag
    have := h1 (by simp [hcan, htag])
    rw [Nat.zero_add] at this
    exact this
  · intro h
    apply h2
    rcases h with hcan | htag
    · simp [hcan]
    · simp [htag]

theorem partialForm_before : ∀ i : Nat, i < 1 → ∀ f : StructField,
    Sample.partialForm.fields[i]? = some f →
    CanSet (Sample.partialForm.addressable false) f = true → tagged f = true →
    ∃ v, Get Sample.inOrder 2 Sample.app 1 f.typ = .value (some v) ∧
      Sample.accepts v f.typ = true := by
  intro i hi f hf _ _
  have hi0 : i = 0 := Nat.lt_one_iff.mp hi
  subst hi0
  simp only [Sample.partialForm, Target.fields, List.getElem?_cons_zero,
    Option.some.injEq] at hf
  subst hf
  exact ⟨Sample.vFile, by decide, by decide⟩

/-- A witness of C9: `Apply` on `Sample.partialForm` in the request container of
`Sample.app` sets `W`, fails at `S`, and leaves `Req` unset although a request is
registered. -/
theorem Apply_fails_at_first_unresolved_witness :
    Sample.partialForm.fields[1]? = some Sample.fS ∧
    CanSet (Sample.partialForm.addressable false) Sample.fS = true ∧
    tagged Sample.fS = true ∧
    Get Sample.inOrder 2 Sample.app 1 Sample.fS.typ = .value none ∧
    (∃ r, Apply Sample.accepts (fun _ => Sample.inOrder) 2 Sample.app 1 false
        Sample.partialForm = some r ∧
      r.err = some ("Value not found for type " ++ Sample.fS.typ.String) ∧
      r.panicked = false ∧
      r.fields.length = Sample.partialForm.fields.length ∧
      (∀ (i : Nat) (f : StructField), Sample.partialForm.fields[i]? = some f → i < 1 →
        ∃ f1, r.fields[i]? = some f1 ∧
        (CanSet (Sample.partialForm.addressable false) f = true → tagged f = true →
          ∃ v, Get Sample.inOrder 2 Sample.app 1 f.typ = .value (some v) ∧
            f1 = { f with value := some v }) ∧
        (CanSet (Sample.partialForm.addressable false) f = false ∨ tagged f = false →
          f1 = f)) ∧
      (∀ (i : Nat) (f : StructField), Sample.partialForm.fields[i]? = some f → 1 ≤ i →
        r.fields[i]? = some f)) ∧
    Apply Sample.accepts (fun _ => Sample.inOrder) 2 Sample.app 1 false Sample.partialForm = some
      { fields := [{ Sample.fW with value := some Sample.vFile }, Sample.fS, Sample.fReq],
        err := some "Value not found for type fmt.Stringer", panicked := false } :=
  ⟨by decide, by decide, by decide, by decide,
    Apply_fails_at_first_unresolved Sample.accepts (fun _ => Sample.inOrder) 2 Sample.app 1
      Sample.partialForm 1 Sample.fS (by decide) (by decide) (by decide) (by decide)
      partialForm_before,
    by decide⟩

/-- C9, the claim as stated fails, in two ways.  A struct handed to `Apply` by value has
no field that can be set: its annotated field `S fmt.Stringer` cannot be resolved, and
`Apply` returns nil.  And in the container left by `MapTo(42, (*io.Writer)(nil))`, `Apply`
on a pointer to a struct with the annotated fields `W io.Writer` and `S fmt.Stringer`
(the latter cannot be resolved) returns no error: `reflect.Value.Set` panics at `W`. -/
theorem Apply_without_error_despite_unresolved :
    (tagged Sample.fS = true ∧
      Get Sample.inOrder 2 Sample.app 1 Sample.fS.typ = .value none ∧
      Apply Sample.accepts (fun _ => Sample.inOrder) 2 Sample.app 1 false Sample.byValue = some
        { fields := [Sample.fS], err := none, panicked := false }) ∧
    (CanSet true Sample.fS = true ∧
      Get Sample.inOrder 1 Sample.mistyped 0 Sample.fS.typ = .value none ∧
      Apply Sample.accepts (fun _ => Sample.inOrder) 1 Sample.mistyped 0 false
          (.ptr (.struct [Sample.fW, Sample.fS])) = some
        { fields := [Sample.fW, Sample.fS], err := none, panicked := true }) := by
  decide

end Inject

namespace Moon

open Inject

/-! ## The pipeline -/

/-- C10. Short-circuit on write. Whenever the turn of the current handler in a `run` loop
ends with the response sink reporting written, that loop returns at once: the result of
`run` is the context the turn left, with the cursor advanced by one, so no further handler
is invoked by this loop.  In particular, for the middleware `[H1, H2]` and the action `A`
of `Sample.request`, with any iteration orders and enough fuel, `run` returns with the log
before, written, after, and with the handlers at positions 0 and 1 invoked: `A`, at
position 2, is never invoked. -/
theorem run_short_circuits :
    (∀ (accepts : Val → Ty → Bool) (ords : Nat → Nat → Order) (g n : Nat) (c c1 : context)
        (h : Callable),
      c.index ≤ (c.handlers.length : Int) → handler c = .ok h →
      invoke accepts ords g n c h = .done c1 → Written c1 = true →
      run accepts ords g (n + 1) c = .done (advance c1)) ∧
    (∀ (ords : Nat → Nat → Order) (g fuel : Nat),
      ∃ c2, run Sample.accepts ords (g + 1) (fuel + 9) Sample.request = .done c2 ∧
        c2.log = ["before", "written", "after"] ∧ c2.invoked = [0, 1] ∧
        c2.written = true ∧ c2.index = 3 ∧ c2.overflowed = false) := by
  constructor
  · intro accepts ords g n c c1 h hidx hh hturn hw
    have hw' : Written (advance c1) = true := by
      unfold advance
      split <;> exact hw
    simp only [run, hidx, if_true, hh, hturn, hw']
  · intro ords g fuel
    exact ⟨_, rfl, rfl, rfl, rfl, rfl, rfl⟩

/-- A witness of C10: the turn of `H1` in `Sample.request` ends with the response
written (by `H2`, inside `Next()`), and the loop that invoked `H1` returns. -/
theorem run_short_circuits_witness :
    Sample.request.index ≤ (Sample.request.handlers.length : Int) ∧
    invoke Sample.accepts (fun _ _ => Sample.inOrder) 1 8 Sample.request (.func Sample.H1)
      = .done Sample.afterH1 ∧
    Written Sample.afterH1 = true ∧
    run Sample.accepts (fun _ _ => Sample.inOrder) 1 9 Sample.request
      = .done { Sample.afterH1 with index := 3 } :=
  ⟨by decide, rfl, rfl,
    run_short_circuits.1 Sample.accepts (fun _ _ => Sample.inOrder) 1 8 Sample.request
      Sample.afterH1 (.func Sample.H1) (by decide) rfl rfl rfl⟩

end Moon

namespace Inject

/-! ## Iteration order and the implementor scan -/

theorem reversed_valid : Order.Valid Sample.reversed := fun _ m => List.reverse_perm m

/-- Two scans of the same entries in different orders agree when no key is the nil Type and
all the entries whose key implements `t` carry the same value. -/
theorem scan_perm (t : Ty) (l1 l2 : List Entry) (val : RValue) (hp : l1.Perm l2)
    (hn : noNilKey l1 = true)
    (hu : ∀ e1 ∈ l1, ∀ e2 ∈ l1, e1.1.Implements t = true → e2.1.Implements t = true →
      e1.2 = e2.2) :
    scan t l1 val = scan t l2 val := by
  have hn2 : noNilKey l2 = true := noNilKey_perm _ _ hp.symm hn
  by_cases hex : ∃ e ∈ l1, e.1.Implements t = true
  · obtain ⟨a, ha, hia, hsa⟩ := scan_of_some_implements t l1 val hn hex
    have hex2 : ∃ e ∈ l2, e.1.Implements t = true := by
      obtain ⟨e, he, hi⟩ := hex
      exact ⟨e, hp.mem_iff.mp he, hi⟩
    obtain ⟨b, hb, hib, hsb⟩ := scan_of_some_implements t l2 val hn2 hex2
    rw [hsa, hsb]
    exact congrArg some (hu a ha b (hp.mem_iff.mpr hb) hia hib)
  · have h1 : ∀ e ∈ l1, e.1.Implements t = false := by
      intro e he
      cases hi : e.1.Implements t with
      | false => rfl
      | true => exact absurd ⟨e, he, hi⟩ hex
    have h2 : ∀ e ∈ l2, e.1.Implements t = false := fun e he => h1 e (hp.mem_iff.mpr he)
    rw [scan_of_none_implements t l1 val hn h1, scan_of_none_implements t l2 val hn2 h2]

/-- C16, as amended. Idempotent resolution. `Get` reads the store and writes nothing, so a
second `Get(T)` runs on the same maps and parent links as the first.  Two `Get(T)` calls
with no registration in between, whatever the orders in which their scans visit the maps,
end in the same way (they return the same value, or both panic) when, in every container
on the parent chain of the container asked, `T` has a valid exact registration, or `T` is
not an interface, or no local registration is keyed by the nil Type and all the local
registrations whose type satisfies `T` carry the same value (as when at most one
registration satisfies `T`); and when parent links go to containers created earlier, both
calls do end, with enough fuel. -/
theorem Get_order_independent (ord1 ord2 : Order) (h1 : ord1.Valid) (h2 : ord2.Valid)
    (s : Store) (T : Ty) (n : Nat) (c : Ptr)
    (hu : ∀ q ∈ chain s n c,
      IsValid (mapIndex (s q).values T) = true ∨ T.isInterface = false ∨
      (noNilKey (s q).values = true ∧
        ∀ e1 ∈ (s q).values, ∀ e2 ∈ (s q).values, e1.1.Implements T = true →
          e2.1.Implements T = true → e1.2 = e2.2)) :
    Get ord1 n s c T = Get ord2 n s c T ∧
    ((∀ p q, (s p).parent = some q → q < p) → c < n →
      Get ord1 n s c T ≠ .timeout ∧ Get ord2 n s c T ≠ .timeout) := by
  refine ⟨?_, fun hwf hc =>
    ⟨Get_returns ord1 s hwf T n c hc, Get_returns ord2 s hwf T n c hc⟩⟩
  induction n generalizing c with
  | zero => rfl
  | succ n ih =>
    have huc := hu c (by simp [chain])
    simp only [Get]
    by_cases hv : IsValid (mapIndex (s c).values T) = true
    · simp only [hv, if_true]
    · simp only [hv, if_false]
      have hval : (if T.isInterface = true then
            scan T (ord1 c (s c).values) (mapIndex (s c).values T)
          else some (mapIndex (s c).values T))
          = (if T.isInterface = true then
            scan T (ord2 c (s c).values) (mapIndex (s c).values T)
          else some (mapIndex (s c).values T)) := by
        by_cases hi : T.isInterface = true
        · simp only [hi, if_true]
          rcases huc with hx | hx | hx
          · exact absurd hx hv
          · rw [hi] at hx
            exact Bool.noConfusion hx
          · have hp : (ord1 c (s c).values).Perm (ord2 c (s c).values) :=
              (h1 c _).trans (h2 c _).symm
            apply scan_perm T _ _ _ hp (noNilKey_perm _ _ (h1 c _) hx.1)
            intro e1 he1 e2 he2
            exact hx.2 e1 ((h1 c _).mem_iff.mp he1) e2 ((h1 c _).mem_iff.mp he2)
        · simp [hi]
      rw [hval]
      cases hpar : (s c).parent with
      | none => rfl
      | some p =>
        have hup : ∀ q ∈ chain s n p,
            IsValid (mapIndex (s q).values T) = true ∨ T.isInterface = false ∨
            (noNilKey (s q).values = true ∧
              ∀ e1 ∈ (s q).values, ∀ e2 ∈ (s q).values, e1.1.Implements T = true →
                e2.1.Implements T = true → e1.2 = e2.2) := by
          intro q hq
          exact hu q (by simp [chain, hpar, hq])
        simp only [ih p hup]

theorem app_unambiguous : ∀ q ∈ chain Sample.app 2 1,
    IsValid (mapIndex (Sample.app q).values Sample.tWriter) = true ∨
    Sample.tWriter.isInterface = false ∨
    (noNilKey (Sample.app q).values = true ∧
      ∀ e1 ∈ (Sample.app q).values, ∀ e2 ∈ (Sample.app q).values,
        e1.1.Implements Sample.tWriter = true → e2.1.Implements Sample.tWriter = true →
        e1.2 = e2.2) := by
  intro q hq
  have hq' : q = 1 ∨ q = 0 := by
    have : chain Sample.app 2 1 = [1, 0] := by decide
    rw [this] at hq
    simpa using hq
  rcases hq' with rfl | rfl
  · exact Or.inr (Or.inr (by decide))
  · exact Or.inl (by decide)

/-- A witness of C16: the request container of `Sample.app` resolves `io.Writer` to the
file of the application in both orders. -/
theorem Get_order_independent_witness :
    Order.Valid Sample.inOrder ∧ Order.Valid Sample.reversed ∧
    chain Sample.app 2 1 = [1, 0] ∧
    Get Sample.inOrder 2 Sample.app 1 Sample.tWriter
      = Get Sample.reversed 2 Sample.app 1 Sample.tWriter ∧
    Get Sample.inOrder 2 Sample.app 1 Sample.tWriter = .value (some Sample.vFile) :=
  ⟨inOrder_valid, reversed_valid, by decide,
    (Get_order_independent Sample.inOrder Sample.reversed inOrder_valid reversed_valid
      Sample.app Sample.tWriter 2 1 app_unambiguous).1,
    by decide⟩

/-- C16, the claim as stated fails: in `Sample.twoWriters` two registrations satisfy
`io.Writer`; a `Get(io.Writer)` whose scan visits the buffer first returns the buffer, and
a second one whose scan visits the file first returns the file. -/
theorem Get_depends_on_order :
    Order.Valid Sample.inOrder ∧ Order.Valid Sample.reversed ∧
    Sample.tWriter.isInterface = true ∧
    Get Sample.inOrder 1 Sample.twoWriters 0 Sample.tWriter = .value (some Sample.vBuf1) ∧
    Get Sample.reversed 1 Sample.twoWriters 0 Sample.tWriter = .value (some Sample.vFile) ∧
    Get Sample.inOrder 1 Sample.twoWriters 0 Sample.tWriter
      ≠ Get Sample.reversed 1 Sample.twoWriters 0 Sample.tWriter :=
  ⟨inOrder_valid, reversed_valid, by decide, by decide, by decide, by decide⟩

/-- A valid value that the scan returns is the value of an entry it visits whose key
implements `t`; nothing else about the key is tested. -/
theorem scan_some_from_entry (t : Ty) (l : List Entry) (x : Val)
    (h : scan t l none = some (some x)) :
    ∃ e ∈ l, e.1.Implements t = true ∧ e.2 = some x := by
  induction l with
  | nil => simp [scan] at h
  | cons e rest ih =>
    obtain ⟨k, v⟩ := e
    by_cases hk0 : k = Ty.nil
    · simp [scan, hk0] at h
    · by_cases hk : k.Implements t = true
      · simp only [scan, hk0, hk, if_true, if_false, Option.some.injEq] at h
        exact ⟨(k, v), List.mem_cons_self _ _, hk, h⟩
      · simp only [scan, hk0, hk, if_false] at h
        obtain ⟨e, he, hi, hv⟩ := ih h
        exact ⟨e, List.mem_cons_of_mem _ he, hi, hv⟩

/-- C19, as amended. The implementor scan visits every local registration, whatever the
kind of its key. A valid value that the scan yields is the value of a local registration
whose key, a concrete type or an interface, satisfies `T`.  And in a container without an
exact or satisfying registration for the interface `T` and without a registration under
the nil Type, after `MapTo(v, ifacePtr)` with a value `v` other than the nil interface and
an interface `S` other than `T` whose method set includes that of `T`, `Get(T)` returns
`v`, the value registered under `S` only. -/
theorem scan_visits_every_key (ord : Order) (hord : ord.Valid) (n : Nat) (s : Store)
    (c : Ptr) (v : Val) (ifacePtr S T : Ty) (hS : InterfaceOf ifacePtr = some S)
    (hT : T.isInterface = true) (hST : S.Implements T = true) (hne : S ≠ T)
    (hnone : holds (s c).values T = false) (hnil : noNilKey (s c).values = true) :
    (∀ l x, scan T l none = some (some x) →
      ∃ e ∈ l, e.1.Implements T = true ∧ e.2 = some x) ∧
    S.isInterface = true ∧
    ∃ s1, MapTo s c (some v) ifacePtr = some s1 ∧ mapIndex (s1 c).values T = none ∧
      Get ord (n + 1) s1 c T = .value (some v) := by
  have hSi : S.isInterface = true := InterfaceOf_isInterface _ _ hS
  refine ⟨fun l x h => scan_some_from_entry T l x h, hSi,
    Set s c S (some v), by simp [MapTo, hS, Set, ValueOf], ?_, ?_⟩
  · rw [Set_values_self, mapIndex_mapAssign_ne _ _ _ _ (Ne.symm hne)]
    exact mapIndex_eq_none_of_not_holds _ _ hnone
  · have hidx : mapIndex (Set s c S (some v) c).values T = none := by
      rw [Set_values_self, mapIndex_mapAssign_ne _ _ _ _ (Ne.symm hne)]
      exact mapIndex_eq_none_of_not_holds _ _ hnone
    have hold : ∀ e ∈ (s c).values, e.1.Implements T = false := by
      intro e he
      simp only [holds, List.any_eq_false] at hnone
      have := hnone e he
      simp only [hT, Bool.true_and, Bool.or_eq_true, not_or] at this
      simpa using this.2
    have hmem : ∀ e ∈ (Set s c S (some v) c).values, e.1.Implements T = true →
        e.2 = some v := by
      intro e he hi
      rw [Set_values_self] at he
      simp only [mapAssign, List.mem_cons, List.mem_filter] at he
      rcases he with rfl | ⟨he, _⟩
      · rfl
      · rw [hold e he] at hi
        exact Bool.noConfusion hi
    have hnil1 : noNilKey (Set s c S (some v) c).values = true := by
      rw [Set_values_self]
      simp only [noNilKey, List.all_eq_true] at hnil ⊢
      intro e he
      simp only [mapAssign, List.mem_cons, List.mem_filter] at he
      rcases he with rfl | ⟨he, _⟩
      · simpa using isInterface_ne_nil S hSi
      · exact hnil e he
    have hsat : ∃ e ∈ ord c (Set s c S (some v) c).values, e.1.Implements T = true := by
      refine ⟨(S, some v), (hord c _).mem_iff.mpr ?_, hST⟩
      rw [Set_values_self]
      simp [mapAssign]
    obtain ⟨e, he, hi, hs⟩ := scan_of_some_implements T _ none
      (noNilKey_perm _ _ (hord c _) hnil1) hsat
    have hev : e.2 = some v := hmem e ((hord c _).mem_iff.mp he) hi
    have hT0 : ¬ T = Ty.nil := isInterface_ne_nil T hT
    simp only [Get, hidx, hT, hT0, if_true, hs, hev, IsValid, Option.isSome_none,
      Bool.false_eq_true, if_false]
    cases (Set s c S (some v) c).parent <;> simp

/-- A witness of C19: a file registered under `io.WriteCloser` in a fresh container is what
`Get(io.Writer)` returns. -/
theorem scan_visits_every_key_witness :
    Order.Valid Sample.inOrder ∧
    InterfaceOf (.ptr Sample.tWriteCloser []) = some Sample.tWriteCloser ∧
    Sample.tWriter.isInterface = true ∧
    Sample.tWriteCloser.Implements Sample.tWriter = true ∧
    Sample.tWriteCloser ≠ Sample.tWriter ∧
    holds (Sample.empty 0).values Sample.tWriter = false ∧
    noNilKey (Sample.empty 0).values = true ∧
    ∃ s1, MapTo Sample.empty 0 (some Sample.vFile) (.ptr Sample.tWriteCloser []) = some s1 ∧
      mapIndex (s1 0).values Sample.tWriter = none ∧
      Get Sample.inOrder 1 s1 0 Sample.tWriter = .value (some Sample.vFile) :=
  ⟨inOrder_valid, by decide, by decide, by decide, by decide, by decide, by decide,
    (scan_visits_every_key Sample.inOrder inOrder_valid 0 Sample.empty 0 Sample.vFile
      (.ptr Sample.tWriteCloser []) Sample.tWriteCloser Sample.tWriter (by decide)
      (by decide) (by decide) (by decide) (by decide) (by decide)).2.2⟩

/-- C19, the claim as stated fails: the only registration of `Sample.closer` is the file
under the interface `io.WriteCloser`, made by `MapTo`; there is no exact registration for
`io.Writer`, and `Get(io.Writer)` obtains the file from the local scan (the container has
no parent), through a key that is not a concrete type. -/
theorem scan_returns_value_under_interface_key :
    MapTo Sample.empty 0 (some Sample.vFile) (.ptr Sample.tWriteCloser [])
      = some Sample.closer ∧
    (Sample.closer 0).values = [(Sample.tWriteCloser, some Sample.vFile)] ∧
    Sample.tWriteCloser.isInterface = true ∧
    (Sample.closer 0).parent = none ∧
    mapIndex (Sample.closer 0).values Sample.tWriter = none ∧
    scan Sample.tWriter (Sample.inOrder 0 (Sample.closer 0).values) none
      = some (some Sample.vFile) ∧
    Get Sample.inOrder 1 Sample.closer 0 Sample.tWriter = .value (some Sample.vFile) :=
  ⟨rfl, by decide, by decide, by decide, by decide, by decide, by decide⟩

end Inject

namespace Moon

open Inject

/-! ## Middleware registration -/

theorem useAll_funcs (m : Moon) (hs : List Callable) (h : ∀ x ∈ hs, x.isFunc = true) :
    (useAll m hs).panicked = false ∧ (useAll m hs).m.handlers = m.handlers ++ hs ∧
    (useAll m hs).m.action = m.action ∧ (useAll m hs).m.inj = m.inj := by
  induction hs generalizing m with
  | nil => simp [useAll]
  | cons x rest ih =>
    have hx : x.isFunc = true := h x (List.mem_cons_self _ _)
    obtain ⟨h1, h2, h3, h4⟩ :=
      ih { m with handlers := m.handlers ++ [x] } (fun y hy => h y (List.mem_cons_of_mem _ hy))
    simp only [useAll, Use, validateHandler, hx, if_true, Bool.false_eq_true, if_false]
    exact ⟨h1, by rw [h2]; simp, h3, h4⟩

theorem useAll_panicked_iff (m : Moon) (hs : List Callable) :
    (useAll m hs).panicked = true ↔ ∃ x ∈ hs, x.isFunc = false := by
  induction hs generalizing m with
  | nil => simp [useAll]
  | cons x rest ih =>
    cases hx : x.isFunc with
    | true =>
      simp only [useAll, Use, validateHandler, hx, if_true, Bool.false_eq_true, if_false]
      rw [ih]
      constructor
      · rintro ⟨y, hy, hf⟩
        exact ⟨y, List.mem_cons_of_mem _ hy, hf⟩
      · rintro ⟨y, hy, hf⟩
        rcases List.mem_cons.mp hy with rfl | hy
        · rw [hx] at hf
          exact Bool.noConfusion hf
        · exact ⟨y, hy, hf⟩
    | false =>
      simp only [useAll, Use, validateHandler, hx, Bool.false_eq_true, if_false, if_true,
        true_iff]
      exact ⟨x, List.mem_cons_self _ _, hx⟩

/-- C17. Middleware registration. `Use(h)` with a function `h` appends `h` to the stack and
keeps the earlier handlers, their order and the action; `Handlers(h1..hn)` with functions
makes the stack exactly `[h1..hn]`, whatever it held, and keeps the action; `Action(h)`
with a function sets the action and keeps the stack; `Use`, `Handlers` and `Action` panic
exactly when a handler handed to them is not a function; and a `Use` or an `Action` that
panics leaves the instance as it was. -/
theorem registration (m : Moon) :
    (∀ h, h.isFunc = true →
      (Use m h).panicked = false ∧ (Use m h).m.handlers = m.handlers ++ [h] ∧
      (Use m h).m.action = m.action) ∧
    (∀ hs, (∀ h ∈ hs, h.isFunc = true) →
      (Handlers m hs).panicked = false ∧ (Handlers m hs).m.handlers = hs ∧
      (Handlers m hs).m.action = m.action) ∧
    (∀ h, h.isFunc = true →
      (Action m h).panicked = false ∧ (Action m h).m.action = h ∧
      (Action m h).m.handlers = m.handlers) ∧
    (∀ h, (Use m h).panicked = true ↔ h.isFunc = false) ∧
    (∀ hs, (Handlers m hs).panicked = true ↔ ∃ h ∈ hs, h.isFunc = false) ∧
    (∀ h, (Action m h).panicked = true ↔ h.isFunc = false) ∧
    (∀ h, h.isFunc = false → (Use m h).m = m ∧ (Action m h).m = m) := by
  refine ⟨?_, ?_, ?_, ?_, ?_, ?_, ?_⟩
  · intro h hf
    simp [Use, validateHandler, hf]
  · intro hs hf
    obtain ⟨h1, h2, h3, _⟩ := useAll_funcs { m with handlers := [] } hs hf
    exact ⟨h1, by simpa [Handlers] using h2, h3⟩
  · intro h hf
    simp [Action, validateHandler, hf]
  · intro h
    cases hf : h.isFunc <;> simp [Use, validateHandler, hf]
  · intro hs
    exact useAll_panicked_iff _ hs
  · intro h
    cases hf : h.isFunc <;> simp [Action, validateHandler, hf]
  · intro h hf
    simp [Use, Action, validateHandler, hf]

/-- A witness of C17: on `Sample.site`, `Use(H2)` gives the stack `[H1, H2]`,
`Handlers(H2, H1)` gives the stack `[H2, H1]`, and `Use` of the number 42 panics and
leaves the stack `[H1]`. -/
theorem registration_witness :
    (Callable.func Sample.H2).isFunc = true ∧
    (Callable.other Sample.vInt).isFunc = false ∧
    (Use Sample.site (.func Sample.H2)).panicked = false ∧
    (Use Sample.site (.func Sample.H2)).m.handlers = [.func Sample.H1, .func Sample.H2] ∧
    (Handlers Sample.site [.func Sample.H2, .func Sample.H1]).m.handlers
      = [.func Sample.H2, .func Sample.H1] ∧
    (Use Sample.site (.other Sample.vInt)).panicked = true ∧
    (Use Sample.site (.other Sample.vInt)).m = Sample.site :=
  have h := registration Sample.site
  ⟨rfl, rfl, (h.1 (.func Sample.H2) rfl).1, (h.1 (.func Sample.H2) rfl).2.1,
    (h.2.1 [.func Sample.H2, .func Sample.H1] (by
      intro x hx
      simp only [List.mem_cons, List.mem_singleton, List.not_mem_nil, or_false] at hx
      rcases hx with rfl | rfl <;> rfl)).2.1,
    (h.2.2.2.1 (.other Sample.vInt)).mpr rfl,
    (h.2.2.2.2.2.2 (.other Sample.vInt) rfl).1⟩

end Moon

namespace Moon

open Inject

/-! ## Fuel -/

/-- More fuel does not change a result that is not the timeout. -/
theorem fuel_succ (accepts : Val → Ty → Bool) (ords : Nat → Nat → Order) (g : Nat) : ∀ n,
    (∀ c, run accepts ords g n c ≠ .timeout →
      run accepts ords g (n + 1) c = run accepts ords g n c) ∧
    (∀ c h, invoke accepts ords g n c h ≠ .timeout →
      invoke accepts ords g (n + 1) c h = invoke accepts ords g n c h) ∧
    (∀ l c, exec accepts ords g n l c ≠ .timeout →
      exec accepts ords g (n + 1) l c = exec accepts ords g n l c) := by
  intro n
  induction n with
  | zero =>
    refine ⟨?_, ?_, ?_⟩
    · intro c h
      exact absurd (by simp [run]) h
    · intro c h hne
      exact absurd (by simp [invoke]) hne
    · intro l c hne
      exact absurd (by simp [exec]) hne
  | succ n ih =>
    obtain ⟨ihr, ihi, ihe⟩ := ih
    refine ⟨?_, ?_, ?_⟩
    · intro c hne
      rw [run] at hne
      rw [run, run]
      by_cases hidx : c.index ≤ (c.handlers.length : Int)
      · simp only [hidx, if_true] at hne ⊢
        cases hh : handler c with
        | error msg => rfl
        | ok h =>
          simp only [hh] at hne ⊢
          cases hinv : invoke accepts ords g n c h with
          | timeout => simp [hinv] at hne
          | panic msg c1 =>
            rw [ihi c h (by simp [hinv]), hinv]
          | done c1 =>
            rw [ihi c h (by simp [hinv]), hinv]
            simp only [hinv] at hne
            simp only
            by_cases hw : Written (advance c1) = true
            · simp only [hw, if_true]
            · simp only [hw, if_false] at hne ⊢
              exact ihr _ hne
      · simp only [hidx, if_false]
    · intro c h hne
      rw [invoke] at hne
      rw [invoke, invoke]
      cases hinv : Inject.Invoke accepts (ords c.invoked.length) g c.store c.inj h with
      | none => rfl
      | some r =>
        simp only [hinv] at hne ⊢
        by_cases hp : r.panicked = true
        · simp only [hp, if_true]
        · simp only [hp, if_false] at hne ⊢
          cases hcalls : r.calls with
          | nil => rfl
          | cons args rest =>
            simp only [hcalls] at hne ⊢
            cases hex : exec accepts ords g n (body h args)
                { c with invoked := c.invoked ++ [c.index] } with
            | timeout => simp [hex] at hne
            | panic msg c1 => rw [ihe _ _ (by simp [hex]), hex]
            | done c1 => rw [ihe _ _ (by simp [hex]), hex]
    · intro l c hne
      cases l with
      | nil => simp [exec]
      | cons st rest =>
        cases st with
        | log msg =>
          rw [exec] at hne
          rw [exec, exec]
          exact ihe _ _ hne
        | write =>
          rw [exec] at hne
          rw [exec, exec]
          exact ihe _ _ hne
        | map val =>
          rw [exec] at hne
          rw [exec, exec]
          exact ihe _ _ hne
        | next =>
          rw [exec] at hne
          rw [exec, exec]
          cases hrun : run accepts ords g n (advance c) with
          | timeout => simp [hrun] at hne
          | panic msg c1 => rw [ihr _ (by simp [hrun]), hrun]
          | done c1 =>
            rw [ihr _ (by simp [hrun]), hrun]
            simp only [hrun] at hne
            exact ihe _ _ hne

end Moon

namespace Moon

open Inject

/-! ## What the pipeline keeps -/

theorem fuel_le (accepts : Val → Ty → Bool) (ords : Nat → Nat → Order) (g : Nat) (n m : Nat)
    (h : n ≤ m) :
    (∀ c, run accepts ords g n c ≠ .timeout →
      run accepts ords g m c = run accepts ords g n c) ∧
    (∀ c h, invoke accepts ords g n c h ≠ .timeout →
      invoke accepts ords g m c h = invoke accepts ords g n c h) ∧
    (∀ l c, exec accepts ords g n l c ≠ .timeout →
      exec accepts ords g m l c = exec accepts ords g n l c) := by
  induction m with
  | zero =>
    have : n = 0 := Nat.le_zero.mp h
    subst this
    exact ⟨fun _ _ => rfl, fun _ _ _ => rfl, fun _ _ _ => rfl⟩
  | succ m ih =>
    rcases Nat.lt_or_ge m n with hlt | hge
    · have : n = m + 1 := Nat.le_antisymm h hlt
      subst this
      exact ⟨fun _ _ => rfl, fun _ _ _ => rfl, fun _ _ _ => rfl⟩
    · obtain ⟨ihr, ihi, ihe⟩ := ih hge
      obtain ⟨sr, si, se⟩ := fuel_succ accepts ords g m
      refine ⟨?_, ?_, ?_⟩
      · intro c hne
        rw [sr c (by rw [ihr c hne]; exact hne), ihr c hne]
      · intro c x hne
        rw [si c x (by rw [ihi c x hne]; exact hne), ihi c x hne]
      · intro l c hne
        rw [se l c (by rw [ihe l c hne]; exact hne), ihe l c hne]

theorem advance_handlers (c : context) : (advance c).handlers = c.handlers := by
  unfold advance
  split <;> rfl

theorem advance_action (c : context) : (advance c).action = c.action := by
  unfold advance
  split <;> rfl

theorem advance_inj (c : context) : (advance c).inj = c.inj := by
  unfold advance
  split <;> rfl

theorem advance_store (c : context) : (advance c).store = c.store := by
  unfold advance
  split <;> rfl

theorem advance_written (c : context) : (advance c).written = c.written := by
  unfold advance
  split <;> rfl

theorem advance_log (c : context) : (advance c).log = c.log := by
  unfold advance
  split <;> rfl

theorem advance_invoked (c : context) : (advance c).invoked = c.invoked := by
  unfold advance
  split <;> rfl

/-- Below the largest `int`, `c.index += 1` adds one and nothing wraps around. -/
theorem advance_of_lt (c : context) (h : c.index < maxInt) :
    advance c = { c with index := c.index + 1 } := by
  unfold advance
  rw [if_neg (by omega)]

/-- A cursor that has not wrapped around after `c.index += 1` has grown by one. -/
theorem advance_index (c : context) (h : (advance c).overflowed = false) :
    (advance c).index = c.index + 1 ∧ c.overflowed = false := by
  unfold advance at h ⊢
  by_cases hm : c.index = maxInt
  · rw [if_pos hm] at h
    simp at h
  · rw [if_neg hm] at h ⊢
    exact ⟨rfl, h⟩

theorem Follows.refl (c : context) : Follows c c :=
  ⟨rfl, rfl, rfl, fun _ => rfl, fun h => h, fun h => h, fun _ => Int.le_refl _,
    List.prefix_refl _⟩

theorem Follows.trans {a b c : context} (h1 : Follows a b) (h2 : Follows b c) :
    Follows a c :=
  ⟨h2.handlers.trans h1.handlers, h2.action.trans h1.action, h2.inj.trans h1.inj,
    fun p => (h2.parents p).trans (h1.parents p),
    fun h => h2.written (h1.written h), fun h => h2.overflowed (h1.overflowed h),
    fun h => by
      have hb : b.overflowed = false := by
        cases hbo : b.overflowed with
        | false => rfl
        | true =>
          rw [h2.overflowed hbo] at h
          exact Bool.noConfusion h
      exact Int.le_trans (h1.index hb) (h2.index h),
    h1.invoked.trans h2.invoked⟩

theorem Map_parent (s : Store) (i : Ptr) (v : Option Val) (p : Ptr) :
    (Map s i v p).parent = (s p).parent := by
  rw [Map_eq_Set, Set_parent]

theorem Follows.log (c : context) (msg : String) :
    Follows c { c with log := c.log ++ [msg] } :=
  ⟨rfl, rfl, rfl, fun _ => rfl, fun h => h, fun h => h, fun _ => Int.le_refl _,
    List.prefix_refl _⟩

theorem Follows.write (c : context) : Follows c { c with written := true } :=
  ⟨rfl, rfl, rfl, fun _ => rfl, fun _ => rfl, fun h => h, fun _ => Int.le_refl _,
    List.prefix_refl _⟩

theorem Follows.map (c : context) (v : Option Val) :
    Follows c { c with store := Map c.store c.inj v } :=
  ⟨rfl, rfl, rfl, fun p => Map_parent _ _ _ p, fun h => h, fun h => h,
    fun _ => Int.le_refl _, List.prefix_refl _⟩

theorem Follows.advance (c : context) : Follows c (advance c) := by
  refine ⟨advance_handlers c, advance_action c, advance_inj c, ?_, ?_, ?_, ?_, ?_⟩
  · intro p
    rw [advance_store]
  · intro h
    rw [advance_written]
    exact h
  · intro h
    unfold Moon.advance
    split
    · rfl
    · exact h
  · intro h
    rw [(advance_index c h).1]
    omega
  · rw [advance_invoked]

theorem Follows.enter (c : context) :
    Follows c { c with invoked := c.invoked ++ [c.index] } :=
  ⟨rfl, rfl, rfl, fun _ => rfl, fun h => h, fun h => h, fun _ => Int.le_refl _,
    List.prefix_append _ _⟩

/-- Every result of `run`, of the invocation of a handler and of a handler body carries a
context that follows the one it started from. -/
theorem follows (accepts : Val → Ty → Bool) (ords : Nat → Nat → Order) (g : Nat) : ∀ n,
    (∀ c c1, (run accepts ords g n c).context = some c1 → Follows c c1) ∧
    (∀ c h c1, (invoke accepts ords g n c h).context = some c1 → Follows c c1) ∧
    (∀ l c c1, (exec accepts ords g n l c).context = some c1 → Follows c c1) := by
  intro n
  induction n with
  | zero =>
    refine ⟨?_, ?_, ?_⟩
    · intro c c1 h
      simp [run, Res.context] at h
    · intro c x c1 h
      simp [invoke, Res.context] at h
    · intro l c c1 h
      simp [exec, Res.context] at h
  | succ n ih =>
    obtain ⟨ihr, ihi, ihe⟩ := ih
    refine ⟨?_, ?_, ?_⟩
    · intro c c1 h
      rw [run] at h
      by_cases hidx : c.index ≤ (c.handlers.length : Int)
      · simp only [hidx, if_true] at h
        cases hh : handler c with
        | error msg =>
          simp only [hh, Res.context, Option.some.injEq] at h
          subst h
          exact Follows.refl c
        | ok x =>
          simp only [hh] at h
          cases hinv : invoke accepts ords g n c x with
          | timeout => simp [hinv, Res.context] at h
          | panic msg c2 =>
            simp only [hinv, Res.context, Option.some.injEq] at h
            subst h
            exact ihi c x c2 (by simp [hinv, Res.context])
          | done c2 =>
            have h2 : Follows c c2 := ihi c x c2 (by simp [hinv, Res.context])
            simp only [hinv] at h
            by_cases hw : Written (advance c2) = true
            · simp only [hw, if_true, Res.context, Option.some.injEq] at h
              subst h
              exact h2.trans (Follows.advance c2)
            · simp only [hw, if_false] at h
              exact (h2.trans (Follows.advance c2)).trans (ihr _ c1 h)
      · simp only [hidx, if_false, Res.context, Option.some.injEq] at h
        subst h
        exact Follows.refl c
    · intro c x c1 h
      rw [invoke] at h
      cases hinv : Inject.Invoke accepts (ords c.invoked.length) g c.store c.inj x with
      | none => simp [hinv, Res.context] at h
      | some r =>
        simp only [hinv] at h
        by_cases hp : r.panicked = true
        · simp only [hp, if_true, Res.context, Option.some.injEq] at h
          subst h
          exact Follows.refl c
        · have hp' : r.panicked = false := by simpa using hp
          simp only [hp', Bool.false_eq_true, if_false] at h
          cases hcalls : r.calls with
          | nil =>
            simp only [hcalls] at h
            cases herr : r.err with
            | none =>
              simp only [herr, Res.context, Option.some.injEq] at h
              subst h
              exact Follows.refl c
            | some e =>
              simp only [herr, Res.context, Option.some.injEq] at h
              subst h
              exact Follows.refl c
          | cons args rest =>
            simp only [hcalls] at h
            cases hex : exec accepts ords g n (body x args)
                { c with invoked := c.invoked ++ [c.index] } with
            | timeout => simp [hex, Res.context] at h
            | panic msg c2 =>
              simp only [hex, Res.context, Option.some.injEq] at h
              subst h
              exact (Follows.enter c).trans (ihe (body x args) _ c2 (by rw [hex]; rfl))
            | done c2 =>
              have h2 := (Follows.enter c).trans (ihe (body x args) _ c2 (by rw [hex]; rfl))
              simp only [hex] at h
              cases herr : r.err with
              | none =>
                simp only [herr, Res.context, Option.some.injEq] at h
                subst h
                exact h2
              | some e =>
                simp only [herr, Res.context, Option.some.injEq] at h
                subst h
                exact h2
    · intro l c c1 h
      cases l with
      | nil =>
        simp only [exec, Res.context, Option.some.injEq] at h
        subst h
        exact Follows.refl c
      | cons st rest =>
        cases st with
        | log msg =>
          rw [exec] at h
          exact (Follows.log c msg).trans (ihe _ _ c1 h)
        | write =>
          rw [exec] at h
          exact (Follows.write c).trans (ihe _ _ c1 h)
        | map val =>
          rw [exec] at h
          exact (Follows.map c val).trans (ihe _ _ c1 h)
        | next =>
          rw [exec] at h
          cases hrun : run accepts ords g n (advance c) with
          | timeout => simp [hrun, Res.context] at h
          | panic msg c2 =>
            simp only [hrun, Res.context, Option.some.injEq] at h
            subst h
            exact (Follows.advance c).trans (ihr _ c2 (by simp [hrun, Res.context]))
          | done c2 =>
            simp only [hrun] at h
            exact ((Follows.advance c).trans (ihr _ c2 (by simp [hrun, Res.context]))).trans
              (ihe _ _ c1 h)


end Moon

namespace Moon

open Inject

/-! ## Resolution failures and return values -/

theorem serving_parents_below : ∀ p q, (Sample.serving p).parent = some q → q < p := by
  intro p q h
  by_cases hp : p = 0
  · simp [Sample.serving, hp] at h
  · simp only [Sample.serving, hp, if_false, Option.some.injEq] at h
    subst h
    exact Nat.pos_of_ne_zero hp

/-- C14, as amended. Resolution failure is fatal in the pipeline. For every context whose
current handler is a function with a parameter type that `Get` resolves to the zero Value
in the request container and its ancestors, while no `Get` of an earlier parameter type
panics (parent links go to containers created earlier, so every `Get` ends): `run` panics
with the error "Value not found for type T", `T` the first unresolved parameter type, and
the context at the panic is the one `run` started from, so the body of the handler was not
entered and no later handler was invoked; and the panic passes unchanged through the body
of a handler that reached this `run` by `Next()`. -/
theorem unresolved_handler_panics (accepts : Val → Ty → Bool) (ords : Nat → Nat → Order)
    (g n : Nat) (c : context) (fn : Func)
    (hidx : c.index ≤ (c.handlers.length : Int)) (hh : handler c = .ok (.func fn))
    (hwf : ∀ p q, (c.store p).parent = some q → q < p) (hg : c.inj < g)
    (hex : ∃ i t, fn.ins[i]? = some t ∧
      Get (ords c.invoked.length i) g c.store c.inj t = .value none ∧
      ∀ j, j < i → ∀ u, fn.ins[j]? = some u →
        Get (ords c.invoked.length j) g c.store c.inj u ≠ .panic) :
    ∃ k T, fn.ins[k]? = some T ∧
      Get (ords c.invoked.length k) g c.store c.inj T = .value none ∧
      (∀ i, i < k → ∀ t, fn.ins[i]? = some t →
        ∃ v, Get (ords c.invoked.length i) g c.store c.inj t = .value (some v)) ∧
      run accepts ords g (n + 2) c = .panic ("Value not found for type " ++ T.String) c ∧
      ∀ c0 rest, advance c0 = c →
        exec accepts ords g (n + 3) (Stmt.next :: rest) c0
          = .panic ("Value not found for type " ++ T.String) c := by
  have hret : ∀ i t, fn.ins[i]? = some t →
      Get (ords c.invoked.length (0 + i)) g c.store c.inj t ≠ .timeout :=
    fun i t _ => Get_returns _ c.store hwf t g c.inj hg
  have hex' : ∃ i t, fn.ins[i]? = some t ∧
      Get (ords c.invoked.length (0 + i)) g c.store c.inj t = .value none ∧
      ∀ j, j < i → ∀ u, fn.ins[j]? = some u →
        Get (ords c.invoked.length (0 + j)) g c.store c.inj u ≠ .panic := by
    obtain ⟨i, t, hi, hget, hnp⟩ := hex
    refine ⟨i, t, hi, by rw [Nat.zero_add]; exact hget, ?_⟩
    intro j hj u hu
    rw [Nat.zero_add]
    exact hnp j hj u hu
  obtain ⟨k, T, hk, hT, hbefore, hres⟩ :=
    resolveIn_first_unresolved (ords c.invoked.length) g c.store c.inj fn.ins 0 hret hex'
  rw [Nat.zero_add] at hT
  have hinv : invoke accepts ords g (n + 1) c (.func fn)
      = .panic ("Value not found for type " ++ T.String) c := by
    simp [invoke, Inject.Invoke, hres, notFoundError]
  have hrun : run accepts ords g (n + 2) c
      = .panic ("Value not found for type " ++ T.String) c := by
    rw [run]
    simp only [hidx, if_true, hh, hinv]
  refine ⟨k, T, hk, hT, ?_, hrun, ?_⟩
  · intro i hi t ht
    have := hbefore i hi t ht
    rw [Nat.zero_add] at this
    exact this
  · intro c0 rest hc0
    rw [exec]
    simp only [hc0, hrun]

theorem blocked_unresolved :
    ∃ (i : Nat) (t : Ty), Sample.needy.ins[i]? = some t ∧
      Get Sample.inOrder 2 Sample.blocked.store Sample.blocked.inj t = .value none ∧
      ∀ j : Nat, j < i → ∀ u : Ty, Sample.needy.ins[j]? = some u →
        Get Sample.inOrder 2 Sample.blocked.store Sample.blocked.inj u ≠ .panic := by
  refine ⟨1, Sample.tStringer, by decide, by decide, ?_⟩
  intro j hj u hu
  have hj0 : j = 0 := by omega
  subst hj0
  simp only [Sample.needy, List.getElem?_cons_zero, Option.some.injEq] at hu
  subst hu
  decide

/-- A witness of C14: the first middleware of `Sample.blocked` asks for a `fmt.Stringer`;
`run` panics with the error for that type, in the context it started from. -/
theorem unresolved_handler_panics_witness :
    Sample.blocked.index ≤ (Sample.blocked.handlers.length : Int) ∧
    (∀ p q, (Sample.blocked.store p).parent = some q → q < p) ∧
    Sample.blocked.inj < 2 ∧
    (∃ (i : Nat) (t : Ty), Sample.needy.ins[i]? = some t ∧
      Get Sample.inOrder 2 Sample.blocked.store Sample.blocked.inj t = .value none ∧
      ∀ j : Nat, j < i → ∀ u : Ty, Sample.needy.ins[j]? = some u →
        Get Sample.inOrder 2 Sample.blocked.store Sample.blocked.inj u ≠ .panic) ∧
    (∃ (k : Nat) (T : Ty), Sample.needy.ins[k]? = some T ∧
      Get Sample.inOrder 2 Sample.blocked.store Sample.blocked.inj T = .value none ∧
      run Sample.accepts (fun _ _ => Sample.inOrder) 2 2 Sample.blocked
        = .panic ("Value not found for type " ++ T.String) Sample.blocked) ∧
    run Sample.accepts (fun _ _ => Sample.inOrder) 2 2 Sample.blocked
      = .panic "Value not found for type fmt.Stringer" Sample.blocked ∧
    run Sample.accepts (fun _ _ => Sample.inOrder) 2 6 Sample.stuck
      = .panic "Value not found for type fmt.Stringer"
          { Sample.stuck with index := 1, log := ["before"], invoked := [0] } :=
  have h := unresolved_handler_panics Sample.accepts (fun _ _ => Sample.inOrder) 2 0
    Sample.blocked Sample.needy (by decide) rfl serving_parents_below (by decide)
    blocked_unresolved
  ⟨by decide, serving_parents_below, by decide, blocked_unresolved,
    (let ⟨k, T, hk, hT, _, hrun, _⟩ := h; ⟨k, T, hk, hT, hrun⟩), rfl, rfl⟩

/-- C14, the claim as stated fails: the request container of `Sample.haunted` holds, after
a `Map(nil)`, a registration under the nil Type; the current handler
`func(s fmt.Stringer, n int)` has a parameter type, `int`, that `Get` resolves to the zero
Value, but `run` does not panic with a resolution error: the `Get` of `fmt.Stringer`
panics when its scan reaches the nil Type, and that panic is what comes out of `run`. -/
theorem nil_key_panic_is_no_resolution_error :
    handler Sample.haunted = .ok (.func Sample.curious) ∧
    Sample.curious.ins[1]? = some Sample.tInt ∧
    Get Sample.inOrder 2 Sample.haunted.store Sample.haunted.inj Sample.tInt
      = .value none ∧
    Get Sample.inOrder 2 Sample.haunted.store Sample.haunted.inj Sample.tStringer
      = .panic ∧
    run Sample.accepts (fun _ _ => Sample.inOrder) 2 2 Sample.haunted
      = .panic reflectPanic Sample.haunted ∧
    ∀ t : Ty, reflectPanic ≠ "Value not found for type " ++ t.String := by
  refine ⟨rfl, by decide, by decide, by decide, rfl, ?_⟩
  intro t h
  have h1 := congrArg (fun x : String => x.data.head?) h
  simp [reflectPanic, String.data_append] at h1

/-- C15, as amended. `run` does not interpret what a handler returns: the turn of a
handler, and with it everything `run` does afterwards, is the same whatever values the
handler returns, an error value included; on a handler whose parameters resolve, the turn
is the execution of its body, and when the body returns, `run` advances the cursor and
goes on as after any other turn. -/
theorem results_are_discarded (accepts : Val → Ty → Bool) (ords : Nat → Nat → Order)
    (g n : Nat) (c : context) (fn : Func) :
    (∀ outs, invoke accepts ords g n c (.func { fn with outs := outs })
      = invoke accepts ords g n c (.func fn)) ∧
    (∀ args c1,
      Inject.Invoke accepts (ords c.invoked.length) g c.store c.inj (.func fn) = some
        { results := results (fn.outs args), err := none, calls := [args],
          panicked := false } →
      c.index ≤ (c.handlers.length : Int) → handler c = .ok (.func fn) →
      exec accepts ords g n (fn.body args) { c with invoked := c.invoked ++ [c.index] }
        = .done c1 →
      run accepts ords g (n + 2) c =
        if Written (advance c1) then .done (advance c1)
        else run accepts ords g (n + 1) (advance c1)) := by
  constructor
  · intro outs
    cases n with
    | zero => rfl
    | succ n =>
      rw [invoke, invoke]
      simp only [Inject.Invoke]
      cases hres : resolveIn (ords c.invoked.length) g c.store c.inj 0 fn.ins with
      | timeout => rfl
      | panic => rfl
      | missing t => rfl
      | args args =>
        by_cases hc : callable accepts fn args = true
        · have hc' : callable accepts { fn with outs := outs } args = true := hc
          simp [hc, hc', body]
        · have hc' : ¬ callable accepts { fn with outs := outs } args = true := hc
          simp [hc, hc', invokePanic]
  · intro args c1 hinv hidx hh hex
    have hinv1 : invoke accepts ords g (n + 1) c (.func fn) = .done c1 := by
      rw [invoke]
      simp [hinv, body, hex]
    rw [run]
    simp only [hidx, if_true, hh, hinv1]

/-- A witness of C15: the middleware of `Sample.faulty` returns an error; `run` goes on to
the action. -/
theorem results_are_discarded_witness :
    Inject.Invoke Sample.accepts (fun _ => Sample.inOrder) 1 Sample.faulty.store
        Sample.faulty.inj (.func Sample.failing) = some
      { results := results (Sample.failing.outs []), err := none, calls := [[]],
        panicked := false } ∧
    Sample.faulty.index ≤ (Sample.faulty.handlers.length : Int) ∧
    exec Sample.accepts (fun _ _ => Sample.inOrder) 1 2 (Sample.failing.body [])
        { Sample.faulty with invoked := [0] }
      = .done { Sample.faulty with invoked := [0], log := ["failed"] } ∧
    run Sample.accepts (fun _ _ => Sample.inOrder) 1 4 Sample.faulty
      = run Sample.accepts (fun _ _ => Sample.inOrder) 1 3
          { Sample.faulty with invoked := [0], log := ["failed"], index := 1 } :=
  ⟨by decide, by decide, rfl,
    (results_are_discarded Sample.accepts (fun _ _ => Sample.inOrder) 1 2 Sample.faulty
      Sample.failing).2
      [] { Sample.faulty with invoked := [0], log := ["failed"] } (by decide) (by decide)
      rfl rfl⟩

/-- C15, the claim as stated fails: the middleware of `Sample.faulty` resolves (it has no
parameters), is invoked and returns an error value; `run` does not panic: it goes on to
the action and returns. -/
theorem error_return_is_not_fatal :
    Inject.Invoke Sample.accepts (fun _ => Sample.inOrder) 1 Sample.faulty.store
        Sample.faulty.inj (.func Sample.failing) = some
      { results := some [Sample.vErr], err := none, calls := [[]], panicked := false } ∧
    ∃ c2, run Sample.accepts (fun _ _ => Sample.inOrder) 1 6 Sample.faulty = .done c2 ∧
      c2.invoked = [0, 1] ∧ c2.log = ["failed", "action"] ∧ c2.index = 2 :=
  ⟨by decide, _, rfl, rfl, rfl, rfl⟩

end Moon

namespace Moon

open Inject

/-! ## Handlers that do not call Next -/

/-- A body without `Next()` and without a write runs to its end and leaves the cursor, the
written flag and the list of invoked handlers as they were. -/
theorem exec_quiet (accepts : Val → Ty → Bool) (ords : Nat → Nat → Order) (g : Nat)
    (l : List Stmt) (hn : Stmt.next ∉ l) (hw : Stmt.write ∉ l) :
    ∀ n c, l.length < n → ∃ c1, exec accepts ords g n l c = .done c1 ∧
      c1.index = c.index ∧
      c1.written = c.written ∧ c1.invoked = c.invoked ∧ c1.handlers = c.handlers ∧
      c1.action = c.action ∧ c1.overflowed = c.overflowed := by
  induction l with
  | nil =>
    intro n c hlen
    cases n with
    | zero => exact absurd hlen (Nat.not_lt_zero _)
    | succ m => exact ⟨c, by simp [exec], rfl, rfl, rfl, rfl, rfl, rfl⟩
  | cons st rest ih =>
    intro n c hlen
    have hn' : Stmt.next ∉ rest := fun h => hn (List.mem_cons_of_mem _ h)
    have hw' : Stmt.write ∉ rest := fun h => hw (List.mem_cons_of_mem _ h)
    cases n with
    | zero => exact absurd hlen (Nat.not_lt_zero _)
    | succ m =>
      have hm : rest.length < m := by
        simp only [List.length_cons] at hlen
        omega
      cases st with
      | log msg =>
        obtain ⟨c1, h1, h2, h3, h4, h5, h6, h7⟩ :=
          ih hn' hw' m { c with log := c.log ++ [msg] } hm
        exact ⟨c1, by rw [exec]; exact h1, h2, h3, h4, h5, h6, h7⟩
      | map val =>
        obtain ⟨c1, h1, h2, h3, h4, h5, h6, h7⟩ :=
          ih hn' hw' m { c with store := Map c.store c.inj val } hm
        exact ⟨c1, by rw [exec]; exact h1, h2, h3, h4, h5, h6, h7⟩
      | next => exact absurd (List.mem_cons_self _ _) hn
      | write => exact absurd (List.mem_cons_self _ _) hw

/-! ## The handler lookup -/

/-- At a cursor from 0 to the number of middleware handlers, `handler()` finds a handler:
the middleware at the cursor, or the action. -/
theorem handler_some (c : context) (h0 : 0 ≤ c.index)
    (h : c.index ≤ (c.handlers.length : Int)) :
    ∃ x, handler c = .ok x ∧
      (c.index < (c.handlers.length : Int) → c.handlers[c.index.toNat]? = some x) ∧
      (c.index = (c.handlers.length : Int) → x = c.action) := by
  by_cases hlt : c.index < (c.handlers.length : Int)
  · have hlt' : c.index.toNat < c.handlers.length := by omega
    refine ⟨c.handlers[c.index.toNat], ?_, ?_, ?_⟩
    · have hneg : ¬ c.index < 0 := by omega
      simp [handler, hlt, hneg, List.getElem?_eq_getElem hlt']
    · intro _
      exact List.getElem?_eq_getElem hlt'
    · intro heq
      omega
  · have heq : c.index = (c.handlers.length : Int) := by omega
    refine ⟨c.action, ?_, ?_, ?_⟩
    · simp [handler, heq]
    · intro h1
      exact absurd h1 hlt
    · intro _
      rfl

/-- Under the loop guard of `run`, a lookup that panics does so at a negative cursor, with
the run-time panic of the index expression. -/
theorem handler_error (c : context) (h : c.index ≤ (c.handlers.length : Int)) (msg : String)
    (he : handler c = .error msg) : msg = outOfRange ∧ c.index < 0 := by
  by_cases h0 : 0 ≤ c.index
  · obtain ⟨x, hx, _, _⟩ := handler_some c h0 h
    rw [hx] at he
    exact Except.noConfusion he
  · have hneg : c.index < 0 := by omega
    have hlt : c.index < (c.handlers.length : Int) := by omega
    simp only [handler, hlt, hneg, if_true, Except.error.injEq] at he
    exact ⟨he.symm, hneg⟩

/-- A lookup that finds a handler was made at a cursor from 0 to the number of
middleware handlers. -/
theorem handler_ok (c : context) (x : Callable) (h : handler c = .ok x) :
    0 ≤ c.index ∧ c.index ≤ (c.handlers.length : Int) := by
  unfold handler at h
  by_cases hlt : c.index < (c.handlers.length : Int)
  · rw [if_pos hlt] at h
    by_cases hneg : c.index < 0
    · rw [if_pos hneg] at h
      exact Except.noConfusion h
    · exact ⟨by omega, by omega⟩
  · rw [if_neg hlt] at h
    by_cases heq : c.index = (c.handlers.length : Int)
    · exact ⟨by omega, by omega⟩
    · rw [if_neg heq] at h
      exact Except.noConfusion h

/-- C13, as amended. A middleware handler that never calls `Next()` does not terminate the
chain. For every context whose current handler is a middleware at position `k` (so
`k < N`, with `N` at most the largest `int`, as the length of every slice is) whose
parameters resolve and whose body neither calls `Next()` nor writes the response,
with nothing written before: the turn of the handler ends with the cursor still at `k`,
and `run` advances the cursor to `k + 1` and goes on with the handler at position `k + 1`,
the terminal action when `k + 1 = N`. -/
theorem quiet_handler_continues (accepts : Val → Ty → Bool) (ords : Nat → Nat → Order)
    (g n : Nat) (c : context) (fn : Func) (args : List Val)
    (hk : c.index < (c.handlers.length : Int))
    (hlen : (c.handlers.length : Int) ≤ maxInt)
    (hh : handler c = .ok (.func fn))
    (hinv : Inject.Invoke accepts (ords c.invoked.length) g c.store c.inj (.func fn) = some
      { results := results (fn.outs args), err := none, calls := [args], panicked := false })
    (hnext : Stmt.next ∉ fn.body args) (hwrite : Stmt.write ∉ fn.body args)
    (hw : c.written = false) (hfuel : (fn.body args).length < n) :
    ∃ c1, invoke accepts ords g (n + 1) c (.func fn) = .done c1 ∧ c1.index = c.index ∧
      c1.written = false ∧ c1.invoked = c.invoked ++ [c.index] ∧
      run accepts ords g (n + 2) c
        = run accepts ords g (n + 1) { c1 with index := c.index + 1 } ∧
      ∃ x, handler { c1 with index := c.index + 1 } = .ok x ∧
        (c.index + 1 < (c.handlers.length : Int) →
          c.handlers[(c.index + 1).toNat]? = some x) ∧
        (c.index + 1 = (c.handlers.length : Int) → x = c.action) := by
  obtain ⟨c1, h1, h2, h3, h4, h5, h6, _⟩ :=
    exec_quiet accepts ords g (fn.body args) hnext hwrite n
      { c with invoked := c.invoked ++ [c.index] } hfuel
  have hinv1 : invoke accepts ords g (n + 1) c (.func fn) = .done c1 := by
    rw [invoke]
    simp [hinv, body, h1]
  have hw1 : c1.written = false := by rw [h3]; exact hw
  have h21 : c1.index = c.index := h2
  have hadv : advance c1 = { c1 with index := c.index + 1 } := by
    rw [advance_of_lt c1 (by omega), h21]
  have h0 : 0 ≤ c.index := (handler_ok c _ hh).1
  refine ⟨c1, hinv1, h2, hw1, h4, ?_, ?_⟩
  · rw [run]
    have hnw : Written (advance c1) = false := by
      rw [hadv]
      exact hw1
    simp only [Int.le_of_lt hk, if_true, hh, hinv1, hnw, Bool.false_eq_true, if_false]
    rw [hadv]
  · have h5' : c1.handlers = c.handlers := h5
    have h6' : c1.action = c.action := h6
    obtain ⟨x, hx, hx1, hx2⟩ := handler_some { c1 with index := c.index + 1 }
      (by show 0 ≤ c.index + 1; omega)
      (by show c.index + 1 ≤ (c1.handlers.length : Int); rw [h5']; omega)
    refine ⟨x, hx, ?_, ?_⟩
    · intro hlt
      have := hx1 (by show c.index + 1 < (c1.handlers.length : Int); rw [h5']; exact hlt)
      simpa [h5'] using this
    · intro heq
      have := hx2 (by show c.index + 1 = (c1.handlers.length : Int); rw [h5']; exact heq)
      rw [this]
      exact h6'

/-- A witness of C13: the first middleware of `Sample.calm` logs and returns; `run` goes on
with the middleware at position 1. -/
theorem quiet_handler_continues_witness :
    Sample.calm.index < (Sample.calm.handlers.length : Int) ∧
    (Sample.calm.handlers.length : Int) ≤ maxInt ∧
    Stmt.next ∉ Sample.quiet.body [Sample.vReq] ∧
    Stmt.write ∉ Sample.quiet.body [Sample.vReq] ∧
    (∃ c1, invoke Sample.accepts (fun _ _ => Sample.inOrder) 1 3 Sample.calm
          (.func Sample.quiet) = .done c1 ∧
      c1.index = Sample.calm.index ∧ c1.written = false ∧
      c1.invoked = Sample.calm.invoked ++ [Sample.calm.index] ∧
      run Sample.accepts (fun _ _ => Sample.inOrder) 1 4 Sample.calm
        = run Sample.accepts (fun _ _ => Sample.inOrder) 1 3
            { c1 with index := Sample.calm.index + 1 } ∧
      ∃ x, handler { c1 with index := Sample.calm.index + 1 } = .ok x ∧
        (Sample.calm.index + 1 < (Sample.calm.handlers.length : Int) →
          Sample.calm.handlers[(Sample.calm.index + 1).toNat]? = some x) ∧
        (Sample.calm.index + 1 = (Sample.calm.handlers.length : Int) →
          x = Sample.calm.action)) :=
  ⟨by decide, by decide, by decide, by decide,
    quiet_handler_continues Sample.accepts (fun _ _ => Sample.inOrder) 1 2 Sample.calm
      Sample.quiet [Sample.vReq] (by decide) (by decide) rfl (by decide) (by decide)
      (by decide) rfl (by decide)⟩

/-- C13, the claim as stated fails: the middleware at position 0 of `Sample.calm` (with
`N = 2`, so `0 < N - 1`) returns without a call of `Next()`, and `run` invokes the
middleware at position 1 and the terminal action, at position 2, all the same. -/
theorem chain_goes_on_without_Next :
    Sample.calm.handlers.length = 2 ∧
    (∀ args, Stmt.next ∉ Sample.quiet.body args) ∧
    ∃ c2, run Sample.accepts (fun _ _ => Sample.inOrder) 1 6 Sample.calm = .done c2 ∧
      c2.invoked = [0, 1, 2] ∧ c2.log = ["quiet", "second", "action"] :=
  ⟨rfl, fun _ => by simp [Sample.quiet], _, rfl, rfl, rfl⟩

theorem notFoundError_ne_invalid (t : Ty) : notFoundError t ≠ invalidIndex := by
  intro h
  have h2 := congrArg String.data h
  rw [notFoundError, String.data_append] at h2
  have h3 := congrArg List.head? h2
  simp [invalidIndex] at h3

theorem notFoundError_ne_outOfRange (t : Ty) : notFoundError t ≠ outOfRange := by
  intro h
  have h2 := congrArg String.data h
  rw [notFoundError, String.data_append] at h2
  have h3 := congrArg List.head? h2
  simp [outOfRange] at h3

theorem Invoke_err (accepts : Val → Ty → Bool) (ords : Nat → Order) (g : Nat) (s : Store)
    (inj : Ptr) (h : Callable)
    (r : InvokeResult) (e : String) (hr : Inject.Invoke accepts ords g s inj h = some r)
    (he : r.err = some e) : ∃ t, e = notFoundError t := by
  cases h with
  | other v =>
    simp only [Inject.Invoke, Option.some.injEq] at hr
    subst hr
    simp [invokePanic] at he
  | func fn =>
    simp only [Inject.Invoke] at hr
    cases hres : resolveIn ords g s inj 0 fn.ins with
    | timeout => simp [hres] at hr
    | panic =>
      simp only [hres, Option.some.injEq] at hr
      subst hr
      simp [invokePanic] at he
    | missing t =>
      simp only [hres, Option.some.injEq] at hr
      subst hr
      simp only [Option.some.injEq] at he
      exact ⟨t, he.symm⟩
    | args args =>
      simp only [hres] at hr
      by_cases hc : callable accepts fn args = true
      · simp only [hc, if_true, Option.some.injEq] at hr
        subst hr
        simp at he
      · simp only [hc, Bool.false_eq_true, if_false, Option.some.injEq] at hr
        subst hr
        simp [invokePanic] at he

end Moon

namespace Moon

open Inject

/-- No result of the pipeline is the panic of `handler()`. -/
theorem no_invalid_index (accepts : Val → Ty → Bool) (ords : Nat → Nat → Order) (g : Nat) :
    ∀ n,
    (∀ c msg c1, run accepts ords g n c = .panic msg c1 →
      msg ≠ invalidIndex) ∧
    (∀ c h msg c1, invoke accepts ords g n c h = .panic msg c1 →
      msg ≠ invalidIndex) ∧
    (∀ l c msg c1, exec accepts ords g n l c = .panic msg c1 →
      msg ≠ invalidIndex) := by
  intro n
  induction n with
  | zero =>
    refine ⟨?_, ?_, ?_⟩
    · intro c msg c1 h
      simp [run] at h
    · intro c x msg c1 h
      simp [invoke] at h
    · intro l c msg c1 h
      simp [exec] at h
  | succ n ih =>
    obtain ⟨ihr, ihi, ihe⟩ := ih
    refine ⟨?_, ?_, ?_⟩
    · intro c msg c1 h
      rw [run] at h
      by_cases hidx : c.index ≤ (c.handlers.length : Int)
      · simp only [hidx, if_true] at h
        cases hx : handler c with
        | error m =>
          simp only [hx, Res.panic.injEq] at h
          rw [← h.1, (handler_error c hidx m hx).1]
          decide
        | ok x =>
          simp only [hx] at h
          cases hinv : invoke accepts ords g n c x with
          | timeout => simp [hinv] at h
          | panic m c2 =>
            simp only [hinv, Res.panic.injEq] at h
            rw [← h.1]
            exact ihi c x m c2 hinv
          | done c2 =>
            simp only [hinv] at h
            by_cases hw : Written (advance c2) = true
            · simp [hw] at h
            · simp only [hw, if_false] at h
              exact ihr _ msg c1 h
      · simp [hidx] at h
    · intro c x msg c1 h
      rw [invoke] at h
      cases hinv : Inject.Invoke accepts (ords c.invoked.length) g c.store c.inj x with
      | none => simp [hinv] at h
      | some r =>
        simp only [hinv] at h
        by_cases hp : r.panicked = true
        · simp only [hp, if_true, Res.panic.injEq] at h
          rw [← h.1]
          decide
        · have hp' : r.panicked = false := by simpa using hp
          simp only [hp', Bool.false_eq_true, if_false] at h
          cases hcalls : r.calls with
          | nil =>
            simp only [hcalls] at h
            cases herr : r.err with
            | none => simp [herr] at h
            | some e =>
              simp only [herr, Res.panic.injEq] at h
              obtain ⟨t, ht⟩ := Invoke_err accepts _ g c.store c.inj x r e hinv herr
              rw [← h.1, ht]
              exact notFoundError_ne_invalid t
          | cons args rest =>
            simp only [hcalls] at h
            cases hex : exec accepts ords g n (body x args)
                { c with invoked := c.invoked ++ [c.index] } with
            | timeout => simp [hex] at h
            | panic m c2 =>
              simp only [hex, Res.panic.injEq] at h
              rw [← h.1]
              exact ihe _ _ m c2 hex
            | done c2 =>
              simp only [hex] at h
              cases herr : r.err with
              | none => simp [herr] at h
              | some e =>
                simp only [herr, Res.panic.injEq] at h
                obtain ⟨t, ht⟩ := Invoke_err accepts _ g c.store c.inj x r e hinv herr
                rw [← h.1, ht]
                exact notFoundError_ne_invalid t
    · intro l c msg c1 h
      cases l with
      | nil => simp [exec] at h
      | cons st rest =>
        cases st with
        | log m =>
          rw [exec] at h
          exact ihe _ _ msg c1 h
        | write =>
          rw [exec] at h
          exact ihe _ _ msg c1 h
        | map val =>
          rw [exec] at h
          exact ihe _ _ msg c1 h
        | next =>
          rw [exec] at h
          cases hrun : run accepts ords g n (advance c) with
          | timeout => simp [hrun] at h
          | panic m c2 =>
            simp only [hrun, Res.panic.injEq] at h
            rw [← h.1]
            exact ihr _ m c2 hrun
          | done c2 =>
            simp only [hrun] at h
            exact ihe _ _ msg c1 h

end Moon

namespace Moon

open Inject

/-! ## The cursor as a Go `int` -/

theorem advance_sound (c : context) (h : c.overflowed = false → 0 ≤ c.index) :
    (advance c).overflowed = false → 0 ≤ (advance c).index := by
  intro ho
  obtain ⟨h1, h2⟩ := advance_index c ho
  rw [h1]
  have := h h2
  omega

/-- The cursor is negative only after it has wrapped around, and only then does a lookup
index the list of middleware handlers out of range. -/
theorem lookup_sound (accepts : Val → Ty → Bool) (ords : Nat → Nat → Order) (g : Nat) :
    ∀ n,
    (∀ c, (c.overflowed = false → 0 ≤ c.index) →
      (∀ c1, (run accepts ords g n c).context = some c1 →
        (c1.overflowed = false → 0 ≤ c1.index)) ∧
      (∀ c1, run accepts ords g n c = .panic outOfRange c1 → c1.overflowed = true)) ∧
    (∀ c h, (c.overflowed = false → 0 ≤ c.index) →
      (∀ c1, (invoke accepts ords g n c h).context = some c1 →
        (c1.overflowed = false → 0 ≤ c1.index)) ∧
      (∀ c1, invoke accepts ords g n c h = .panic outOfRange c1 → c1.overflowed = true)) ∧
    (∀ l c, (c.overflowed = false → 0 ≤ c.index) →
      (∀ c1, (exec accepts ords g n l c).context = some c1 →
        (c1.overflowed = false → 0 ≤ c1.index)) ∧
      (∀ c1, exec accepts ords g n l c = .panic outOfRange c1 → c1.overflowed = true)) := by
  intro n
  induction n with
  | zero =>
    refine ⟨?_, ?_, ?_⟩
    · intro c _
      exact ⟨fun c1 h => by simp [run, Res.context] at h, fun c1 h => by simp [run] at h⟩
    · intro c x _
      exact ⟨fun c1 h => by simp [invoke, Res.context] at h,
        fun c1 h => by simp [invoke] at h⟩
    · intro l c _
      exact ⟨fun c1 h => by simp [exec, Res.context] at h, fun c1 h => by simp [exec] at h⟩
  | succ n ih =>
    obtain ⟨ihr, ihi, ihe⟩ := ih
    refine ⟨?_, ?_, ?_⟩
    · intro c hc
      rw [run]
      by_cases hidx : c.index ≤ (c.handlers.length : Int)
      · simp only [hidx, if_true]
        cases hx : handler c with
        | error m =>
          obtain ⟨hm, hneg⟩ := handler_error c hidx m hx
          refine ⟨?_, ?_⟩
          · intro c1 h
            simp only [Res.context, Option.some.injEq] at h
            subst h
            exact hc
          · intro c1 h
            simp only [Res.panic.injEq] at h
            rw [← h.2]
            cases ho : c.overflowed with
            | true => rfl
            | false =>
              have := hc ho
              omega
        | ok x =>
          simp only
          obtain ⟨hi1, hi2⟩ := ihi c x hc
          cases hinv : invoke accepts ords g n c x with
          | timeout =>
            exact ⟨fun c1 h => by simp [Res.context] at h, fun c1 h => by simp at h⟩
          | panic m c2 =>
            refine ⟨?_, ?_⟩
            · intro c1 h
              exact hi1 c1 (by rw [hinv]; exact h)
            · intro c1 h
              exact hi2 c1 (by rw [hinv]; exact h)
          | done c2 =>
            have hc2 : c2.overflowed = false → 0 ≤ c2.index :=
              hi1 c2 (by rw [hinv]; rfl)
            have hadv := advance_sound c2 hc2
            simp only
            by_cases hw : Written (advance c2) = true
            · simp only [hw, if_true]
              refine ⟨?_, ?_⟩
              · intro c1 h
                simp only [Res.context, Option.some.injEq] at h
                subst h
                exact hadv
              · intro c1 h
                exact Res.noConfusion h
            · simp only [hw, if_false]
              exact ihr _ hadv
      · simp only [hidx, if_false]
        refine ⟨?_, ?_⟩
        · intro c1 h
          simp only [Res.context, Option.some.injEq] at h
          subst h
          exact hc
        · intro c1 h
          exact Res.noConfusion h
    · intro c x hc
      rw [invoke]
      cases hinv : Inject.Invoke accepts (ords c.invoked.length) g c.store c.inj x with
      | none =>
        exact ⟨fun c1 h => by simp [Res.context] at h, fun c1 h => by simp at h⟩
      | some r =>
        simp only
        have herr : ∀ e, r.err = some e → e ≠ outOfRange := by
          intro e he
          obtain ⟨t, ht⟩ := Invoke_err accepts _ g c.store c.inj x r e hinv he
          rw [ht]
          exact notFoundError_ne_outOfRange t
        by_cases hp : r.panicked = true
        · simp only [hp, if_true]
          refine ⟨?_, ?_⟩
          · intro c1 h
            simp only [Res.context, Option.some.injEq] at h
            subst h
            exact hc
          · intro c1 h
            simp only [Res.panic.injEq] at h
            exact absurd h.1 (by decide)
        · have hp' : r.panicked = false := by simpa using hp
          simp only [hp', Bool.false_eq_true, if_false]
          cases hcalls : r.calls with
          | nil =>
            simp only
            cases he : r.err with
            | none =>
              refine ⟨?_, ?_⟩
              · intro c1 h
                simp only [Res.context, Option.some.injEq] at h
                subst h
                exact hc
              · intro c1 h
                exact Res.noConfusion h
            | some e =>
              refine ⟨?_, ?_⟩
              · intro c1 h
                simp only [Res.context, Option.some.injEq] at h
                subst h
                exact hc
              · intro c1 h
                simp only [Res.panic.injEq] at h
                exact absurd h.1 (herr e he)
          | cons args rest =>
            simp only
            obtain ⟨he1, he2⟩ := ihe (body x args)
              { c with invoked := c.invoked ++ [c.index] } hc
            cases hex : exec accepts ords g n (body x args)
                { c with invoked := c.invoked ++ [c.index] } with
            | timeout =>
              exact ⟨fun c1 h => by simp [Res.context] at h, fun c1 h => by simp at h⟩
            | panic m c2 =>
              refine ⟨?_, ?_⟩
              · intro c1 h
                exact he1 c1 (by rw [hex]; exact h)
              · intro c1 h
                exact he2 c1 (by rw [hex]; exact h)
            | done c2 =>
              have hc2 : c2.overflowed = false → 0 ≤ c2.index :=
                he1 c2 (by rw [hex]; rfl)
              simp only
              cases he : r.err with
              | none =>
                refine ⟨?_, ?_⟩
                · intro c1 h
                  simp only [Res.context, Option.some.injEq] at h
                  subst h
                  exact hc2
                · intro c1 h
                  exact Res.noConfusion h
              | some e =>
                refine ⟨?_, ?_⟩
                · intro c1 h
                  simp only [Res.context, Option.some.injEq] at h
                  subst h
                  exact hc2
                · intro c1 h
                  simp only [Res.panic.injEq] at h
                  exact absurd h.1 (herr e he)
    · intro l c hc
      cases l with
      | nil =>
        simp only [exec]
        refine ⟨?_, ?_⟩
        · intro c1 h
          simp only [Res.context, Option.some.injEq] at h
          subst h
          exact hc
        · intro c1 h
          exact Res.noConfusion h
      | cons st rest =>
        cases st with
        | log msg =>
          rw [exec]
          exact ihe rest { c with log := c.log ++ [msg] } hc
        | write =>
          rw [exec]
          exact ihe rest { c with written := true } hc
        | map val =>
          rw [exec]
          exact ihe rest { c with store := Map c.store c.inj val } hc
        | next =>
          rw [exec]
          obtain ⟨hr1, hr2⟩ := ihr (advance c) (advance_sound c hc)
          cases hrun : run accepts ords g n (advance c) with
          | timeout =>
            exact ⟨fun c1 h => by simp [Res.context] at h, fun c1 h => by simp at h⟩
          | panic m c2 =>
            refine ⟨?_, ?_⟩
            · intro c1 h
              exact hr1 c1 (by rw [hrun]; exact h)
            · intro c1 h
              exact hr2 c1 (by rw [hrun]; exact h)
          | done c2 =>
            simp only
            exact ihe rest c2 (hr1 c2 (by rw [hrun]; rfl))

end Moon

namespace Moon

open Inject

/-- Past the last handler, each `Next()` only moves the cursor: `run` finds the cursor above
the number of middleware handlers and returns at once. -/
theorem exec_spin (accepts : Val → Ty → Bool) (ords : Nat → Nat → Order) (g : Nat)
    (k : Nat) : ∀ (m : Nat) (rest : List Stmt) (c : context),
    1 ≤ m → (c.handlers.length : Int) ≤ c.index → c.index + (k : Int) ≤ maxInt →
    exec accepts ords g (m + k) (List.replicate k Stmt.next ++ rest) c
      = exec accepts ords g m rest { c with index := c.index + (k : Int) } := by
  induction k with
  | zero =>
    intro m rest c _ _ _
    simp
  | succ j ih =>
    intro m rest c hm hlen hmax
    have hlt : c.index < maxInt := by
      push_cast at hmax
      omega
    have hfuel : m + (j + 1) = (m + j) + 1 := by omega
    rw [hfuel, List.replicate_succ, List.cons_append, exec, advance_of_lt c hlt]
    obtain ⟨m1, hm1⟩ : ∃ m1, m + j = m1 + 1 := ⟨m + j - 1, by omega⟩
    have hrun : run accepts ords g (m + j) { c with index := c.index + 1 }
        = .done { c with index := c.index + 1 } := by
      rw [hm1, run]
      have hgt : ¬ (c.index + 1 ≤ (c.handlers.length : Int)) := by omega
      simp only [hgt, if_false]
    rw [hrun]
    simp only
    rw [ih m rest { c with index := c.index + 1 } hm
      (by show (c.handlers.length : Int) ≤ c.index + 1; omega)
      (by show c.index + 1 + (j : Int) ≤ maxInt; push_cast at hmax; omega)]
    have hidx : c.index + 1 + (j : Int) = c.index + ((j + 1 : Nat) : Int) := by
      push_cast
      omega
    simp only [hidx]

/-- At the largest `int`, one more `Next()` wraps the cursor around to the smallest `int`,
and the lookup of `run` panics: the index expression is out of range. -/
theorem exec_wrap (accepts : Val → Ty → Bool) (ords : Nat → Nat → Order) (g : Nat)
    (c : context) (rest : List Stmt) (h : c.index = maxInt) :
    exec accepts ords g 2 (Stmt.next :: rest) c
      = .panic outOfRange { c with index := minInt, overflowed := true } := by
  have hadv : advance c = { c with index := minInt, overflowed := true } := by
    unfold advance
    rw [if_pos h]
  have hmin : minInt = -9223372036854775808 := rfl
  have hneg : ({ c with index := minInt, overflowed := true } : context).index < 0 := by
    show minInt < 0
    omega
  have hlt : ({ c with index := minInt, overflowed := true } : context).index
      < (({ c with index := minInt, overflowed := true } : context).handlers.length : Int) := by
    show minInt < (c.handlers.length : Int)
    omega
  have hh : handler { c with index := minInt, overflowed := true } = .error outOfRange := by
    unfold handler
    rw [if_pos hlt, if_pos hneg]
  rw [exec, hadv, run, if_pos (Int.le_of_lt hlt), hh]

/-- A body of `k + 1` calls of `Next()` that starts with the cursor at the number of
middleware handlers and `k` below the largest `int` ends in the panic of the lookup at
the smallest `int`. -/
theorem exec_spin_wrap (accepts : Val → Ty → Bool) (ords : Nat → Nat → Order) (g : Nat)
    (k : Nat) (c : context) (hlen : (c.handlers.length : Int) ≤ c.index)
    (hk : c.index + (k : Int) = maxInt) :
    exec accepts ords g (k + 2) (List.replicate k Stmt.next ++ [Stmt.next]) c
      = .panic outOfRange { c with index := minInt, overflowed := true } := by
  rw [Nat.add_comm k 2, exec_spin accepts ords g k 2 [Stmt.next] c (by decide) hlen (by omega),
    exec_wrap accepts ords g _ [] hk]

/-- The turn of the action of `Sample.dizzy`, whose parameter resolves to the request
context: a panic of its body is the panic of `run`. -/
theorem dizzy_turn (ords : Nat → Nat → Order) (g m : Nat)
    (msg : String) (c1 : context)
    (h : exec Sample.accepts ords (g + 1) m
        (List.replicate 9223372036854775807 Stmt.next ++ [Stmt.next])
        { Sample.dizzy with invoked := [0] } = .panic msg c1) :
    run Sample.accepts ords (g + 1) (m + 2) Sample.dizzy = .panic msg c1 := by
  have h1 : ∀ n, run Sample.accepts ords (g + 1) (n + 1) Sample.dizzy
      = match invoke Sample.accepts ords (g + 1) n Sample.dizzy (.func Sample.spinner) with
        | .done c1 =>
          if Written (advance c1) then .done (advance c1)
          else run Sample.accepts ords (g + 1) n (advance c1)
        | r => r := fun _ => rfl
  have h2 : ∀ n, invoke Sample.accepts ords (g + 1) (n + 1) Sample.dizzy
        (.func Sample.spinner)
      = match exec Sample.accepts ords (g + 1) n
            (List.replicate 9223372036854775807 Stmt.next ++ [Stmt.next])
            { Sample.dizzy with invoked := [0] } with
        | .done c1 => .done c1
        | r1 => r1 := fun _ => rfl
  rw [show m + 2 = (m + 1) + 1 from rfl, h1, h2, h]

/-- The pipeline of `Sample.dizzy`: the action calls `Next()` 2^63 times; the last call
wraps the cursor around to the smallest `int`, and the lookup of `run` then indexes the
(empty) list of middleware handlers at a negative cursor. -/
theorem dizzy_run (ords : Nat → Nat → Order) (g : Nat) :
    run Sample.accepts ords (g + 1) 9223372036854775811 Sample.dizzy
      = .panic outOfRange
          { Sample.dizzy with index := minInt, overflowed := true, invoked := [0] } :=
  dizzy_turn ords g (9223372036854775807 + 2) outOfRange _
    (exec_spin_wrap Sample.accepts ords (g + 1) 9223372036854775807
      { Sample.dizzy with invoked := [0] } (by decide) (by decide))

end Moon

namespace Moon

open Inject

/-! ## Order of the invocations -/

theorem pairwise_enter (l : List Int) (i : Int) (hs : l.Pairwise (· < ·))
    (hb : ∀ x ∈ l, x < i) : (l ++ [i]).Pairwise (· < ·) := by
  rw [List.pairwise_append]
  refine ⟨hs, List.pairwise_singleton _ _, ?_⟩
  intro a ha b hb'
  rw [List.mem_singleton] at hb'
  rw [hb']
  exact hb a ha

theorem le_after_enter (l : List Int) (i : Int) (hb : ∀ x ∈ l, x < i) :
    ∀ x ∈ l ++ [i], x ≤ i := by
  intro x hx
  rcases List.mem_append.mp hx with h | h
  · exact Int.le_of_lt (hb x h)
  · rw [List.mem_singleton] at h
    exact Int.le_of_eq h

/-- After `c.index += 1` without a wrap-around, the positions that were at most the cursor
are below it. -/
theorem below_after_advance (c : context)
    (h : c.overflowed = false →
      c.invoked.Pairwise (· < ·) ∧ ∀ x ∈ c.invoked, x ≤ c.index) :
    (advance c).overflowed = false →
      (advance c).invoked.Pairwise (· < ·) ∧
      ∀ x ∈ (advance c).invoked, x < (advance c).index := by
  intro ho
  obtain ⟨h1, h2⟩ := advance_index c ho
  obtain ⟨hs, hb⟩ := h h2
  rw [advance_invoked, h1]
  exact ⟨hs, fun x hx => by have := hb x hx; omega⟩

/-- While the cursor has not wrapped around, the positions of the invoked handlers stay
strictly increasing: between two turns they are all below the cursor, and inside a handler
body they are at most the cursor. -/
theorem increasing (accepts : Val → Ty → Bool) (ords : Nat → Nat → Order) (g : Nat) : ∀ n,
    (∀ c c1,
      (c.overflowed = false →
        c.invoked.Pairwise (· < ·) ∧ ∀ x ∈ c.invoked, x < c.index) →
      run accepts ords g n c = .done c1 →
      (c1.overflowed = false →
        c1.invoked.Pairwise (· < ·) ∧ ∀ x ∈ c1.invoked, x < c1.index)) ∧
    (∀ c msg c1,
      (c.overflowed = false →
        c.invoked.Pairwise (· < ·) ∧ ∀ x ∈ c.invoked, x < c.index) →
      run accepts ords g n c = .panic msg c1 →
      (c1.overflowed = false →
        c1.invoked.Pairwise (· < ·) ∧ ∀ x ∈ c1.invoked, x ≤ c1.index)) ∧
    (∀ c h c1,
      (c.overflowed = false →
        c.invoked.Pairwise (· < ·) ∧ ∀ x ∈ c.invoked, x < c.index) →
      (invoke accepts ords g n c h).context = some c1 →
      (c1.overflowed = false →
        c1.invoked.Pairwise (· < ·) ∧ ∀ x ∈ c1.invoked, x ≤ c1.index)) ∧
    (∀ l c c1,
      (c.overflowed = false →
        c.invoked.Pairwise (· < ·) ∧ ∀ x ∈ c.invoked, x ≤ c.index) →
      (exec accepts ords g n l c).context = some c1 →
      (c1.overflowed = false →
        c1.invoked.Pairwise (· < ·) ∧ ∀ x ∈ c1.invoked, x ≤ c1.index)) := by
  intro n
  induction n with
  | zero =>
    refine ⟨?_, ?_, ?_, ?_⟩
    · intro c c1 _ h
      simp [run] at h
    · intro c msg c1 _ h
      simp [run] at h
    · intro c x c1 _ h
      simp [invoke, Res.context] at h
    · intro l c c1 _ h
      simp [exec, Res.context] at h
  | succ n ih =>
    obtain ⟨ihd, ihp, ihi, ihe⟩ := ih
    have weaken : ∀ c : context,
        (c.overflowed = false →
          c.invoked.Pairwise (· < ·) ∧ ∀ x ∈ c.invoked, x < c.index) →
        (c.overflowed = false →
          c.invoked.Pairwise (· < ·) ∧ ∀ x ∈ c.invoked, x ≤ c.index) :=
      fun c h ho => ⟨(h ho).1, fun x hx => Int.le_of_lt ((h ho).2 x hx)⟩
    have enter : ∀ c : context,
        (c.overflowed = false →
          c.invoked.Pairwise (· < ·) ∧ ∀ x ∈ c.invoked, x < c.index) →
        (({ c with invoked := c.invoked ++ [c.index] } : context).overflowed = false →
          ({ c with invoked := c.invoked ++ [c.index] } : context).invoked.Pairwise (· < ·) ∧
          ∀ x ∈ ({ c with invoked := c.invoked ++ [c.index] } : context).invoked,
            x ≤ ({ c with invoked := c.invoked ++ [c.index] } : context).index) :=
      fun c h ho =>
        ⟨pairwise_enter _ _ (h ho).1 (h ho).2, le_after_enter _ _ (h ho).2⟩
    refine ⟨?_, ?_, ?_, ?_⟩
    · intro c c1 hc h
      rw [run] at h
      by_cases hidx : c.index ≤ (c.handlers.length : Int)
      · simp only [hidx, if_true] at h
        cases hh : handler c with
        | error m => simp [hh] at h
        | ok x =>
          simp only [hh] at h
          cases hinv : invoke accepts ords g n c x with
          | timeout => simp [hinv] at h
          | panic m c2 => simp [hinv] at h
          | done c2 =>
            have h2 := ihi c x c2 hc (by rw [hinv]; rfl)
            have h3 := below_after_advance c2 h2
            simp only [hinv] at h
            by_cases hw : Written (advance c2) = true
            · simp only [hw, if_true, Res.done.injEq] at h
              subst h
              exact h3
            · simp only [hw, if_false] at h
              exact ihd (advance c2) c1 h3 h
      · simp only [hidx, if_false, Res.done.injEq] at h
        subst h
        exact hc
    · intro c msg c1 hc h
      rw [run] at h
      by_cases hidx : c.index ≤ (c.handlers.length : Int)
      · simp only [hidx, if_true] at h
        cases hh : handler c with
        | error m =>
          simp only [hh, Res.panic.injEq] at h
          rw [← h.2]
          exact weaken c hc
        | ok x =>
          simp only [hh] at h
          cases hinv : invoke accepts ords g n c x with
          | timeout => simp [hinv] at h
          | panic m c2 =>
            simp only [hinv, Res.panic.injEq] at h
            rw [← h.2]
            exact ihi c x c2 hc (by rw [hinv]; rfl)
          | done c2 =>
            have h2 := ihi c x c2 hc (by rw [hinv]; rfl)
            have h3 := below_after_advance c2 h2
            simp only [hinv] at h
            by_cases hw : Written (advance c2) = true
            · simp [hw] at h
            · simp only [hw, if_false] at h
              exact ihp (advance c2) msg c1 h3 h
      · simp [hidx] at h
    · intro c x c1 hc h
      rw [invoke] at h
      cases hinv : Inject.Invoke accepts (ords c.invoked.length) g c.store c.inj x with
      | none => simp [hinv, Res.context] at h
      | some r =>
        simp only [hinv] at h
        by_cases hp : r.panicked = true
        · simp only [hp, if_true, Res.context, Option.some.injEq] at h
          subst h
          exact weaken c hc
        · have hp' : r.panicked = false := by simpa using hp
          simp only [hp', Bool.false_eq_true, if_false] at h
          cases hcalls : r.calls with
          | nil =>
            simp only [hcalls] at h
            cases herr : r.err with
            | none =>
              simp only [herr, Res.context, Option.some.injEq] at h
              subst h
              exact weaken c hc
            | some e =>
              simp only [herr, Res.context, Option.some.injEq] at h
              subst h
              exact weaken c hc
          | cons args rest =>
            simp only [hcalls] at h
            have hpre := ihe (body x args) { c with invoked := c.invoked ++ [c.index] }
            cases hex : exec accepts ords g n (body x args)
                { c with invoked := c.invoked ++ [c.index] } with
            | timeout => simp [hex, Res.context] at h
            | panic m c2 =>
              simp only [hex, Res.context, Option.some.injEq] at h
              subst h
              exact hpre c2 (enter c hc) (by rw [hex]; rfl)
            | done c2 =>
              have h2 := hpre c2 (enter c hc) (by rw [hex]; rfl)
              simp only [hex] at h
              cases herr : r.err with
              | none =>
                simp only [herr, Res.context, Option.some.injEq] at h
                subst h
                exact h2
              | some e =>
                simp only [herr, Res.context, Option.some.injEq] at h
                subst h
                exact h2
    · intro l c c1 hc h
      cases l with
      | nil =>
        simp only [exec, Res.context, Option.some.injEq] at h
        subst h
        exact hc
      | cons st rest =>
        cases st with
        | log m =>
          rw [exec] at h
          exact ihe rest { c with log := c.log ++ [m] } c1 hc h
        | write =>
          rw [exec] at h
          exact ihe rest { c with written := true } c1 hc h
        | map val =>
          rw [exec] at h
          exact ihe rest { c with store := Map c.store c.inj val } c1 hc h
        | next =>
          rw [exec] at h
          have hb1 := below_after_advance c hc
          cases hrun : run accepts ords g n (advance c) with
          | timeout => simp [hrun, Res.context] at h
          | panic m c2 =>
            simp only [hrun, Res.context, Option.some.injEq] at h
            subst h
            exact ihp (advance c) m c2 hb1 hrun
          | done c2 =>
            have h2 := ihd (advance c) c2 hb1 hrun
            simp only [hrun] at h
            exact ihe rest c2 c1 (weaken c2 h2) h

/-- C20, as amended. At-most-once, in-order invocation. For every pipeline, every behaviour
of its handlers and every fuel, as long as the `int` cursor has not wrapped around: the
cursor never decreases across a call of `run`, across the turn of a handler, or across a
handler body; and for a context whose invoked positions are strictly increasing and below
the cursor (such as a fresh context, where none is invoked), the context that `run`
returns, or the one at a panic, has the earlier invocations first, its invoked positions
strictly increasing and at most the cursor, and so no position is invoked twice. -/
theorem at_most_once (accepts : Val → Ty → Bool) (ords : Nat → Nat → Order) (g n : Nat) :
    (∀ c c1, (run accepts ords g n c).context = some c1 → c1.overflowed = false →
      c.index ≤ c1.index) ∧
    (∀ c h c1, (invoke accepts ords g n c h).context = some c1 → c1.overflowed = false →
      c.index ≤ c1.index) ∧
    (∀ l c c1, (exec accepts ords g n l c).context = some c1 → c1.overflowed = false →
      c.index ≤ c1.index) ∧
    (∀ c c1, c.invoked.Pairwise (· < ·) → (∀ x ∈ c.invoked, x < c.index) →
      (run accepts ords g n c).context = some c1 →
      c.invoked <+: c1.invoked ∧
      (c1.overflowed = false →
        c1.invoked.Pairwise (· < ·) ∧ (∀ x ∈ c1.invoked, x ≤ c1.index) ∧
        c1.invoked.Nodup)) := by
  obtain ⟨fr, fi, fe⟩ := follows accepts ords g n
  refine ⟨fun c c1 h => (fr c c1 h).index, fun c x c1 h => (fi c x c1 h).index,
    fun l c c1 h => (fe l c c1 h).index, ?_⟩
  intro c c1 hs hb h
  obtain ⟨ihd, ihp, _, _⟩ := increasing accepts ords g n
  refine ⟨(fr c c1 h).invoked, ?_⟩
  intro ho
  have hmain : c1.invoked.Pairwise (· < ·) ∧ ∀ x ∈ c1.invoked, x ≤ c1.index := by
    cases hrun : run accepts ords g n c with
    | timeout => simp [hrun, Res.context] at h
    | panic m c2 =>
      simp only [hrun, Res.context, Option.some.injEq] at h
      subst h
      exact ihp c m c2 (fun _ => ⟨hs, hb⟩) hrun ho
    | done c2 =>
      simp only [hrun, Res.context, Option.some.injEq] at h
      subst h
      obtain ⟨h1, h2⟩ := ihd c c2 (fun _ => ⟨hs, hb⟩) hrun ho
      exact ⟨h1, fun x hx => Int.le_of_lt (h2 x hx)⟩
  exact ⟨hmain.1, hmain.2, hmain.1.imp (fun hlt => Int.ne_of_lt hlt)⟩

/-- A witness of C20: on the fresh context `Sample.request`, `run` returns with the
positions 0 and 1 invoked, in this order, and the cursor at 3. -/
theorem at_most_once_witness :
    Sample.request.invoked.Pairwise (· < ·) ∧
    (∀ x ∈ Sample.request.invoked, x < Sample.request.index) ∧
    (run Sample.accepts (fun _ _ => Sample.inOrder) 1 9 Sample.request).context
      = some { Sample.afterH1 with index := 3 } ∧
    Sample.request.invoked <+: [0, 1] ∧
    ([0, 1] : List Int).Pairwise (· < ·) ∧
    (∀ x ∈ ([0, 1] : List Int), x ≤ 3) ∧ ([0, 1] : List Int).Nodup :=
  have h := (at_most_once Sample.accepts (fun _ _ => Sample.inOrder) 1 9).2.2.2
    Sample.request { Sample.afterH1 with index := 3 } (by decide) (by decide) rfl
  ⟨by decide, by decide, rfl, h.1, h.2 rfl⟩

/-- C20, the claim as stated fails: the cursor is a Go `int`, and the action of
`Sample.dizzy`, a fresh context, calls `Next()` 2^63 times; the last call wraps the cursor
around, and `run` ends (with the panic of the lookup) at a cursor below the one it started
from. -/
theorem cursor_wraps_around :
    Sample.dizzy.index = 0 ∧ Sample.dizzy.invoked = [] ∧
    ∃ c1, (run Sample.accepts (fun _ _ => Sample.inOrder) 1 9223372036854775811
        Sample.dizzy).context = some c1 ∧
      c1.overflowed = true ∧ c1.index = minInt ∧ c1.index < Sample.dizzy.index := by
  refine ⟨rfl, rfl, _, by rw [dizzy_run (fun _ _ => Sample.inOrder) 0]; rfl, rfl, rfl,
    by decide⟩

end Moon

namespace Moon

open Inject

/-! ## The range of the cursor -/

/-- Every handler body is entered at a cursor from 0 to `N`. -/
theorem entered_within (accepts : Val → Ty → Bool) (ords : Nat → Nat → Order) (g : Nat) :
    ∀ n,
    (∀ c c1, (∀ x ∈ c.invoked, 0 ≤ x ∧ x ≤ (c.handlers.length : Int)) →
      (run accepts ords g n c).context = some c1 →
      ∀ x ∈ c1.invoked, 0 ≤ x ∧ x ≤ (c1.handlers.length : Int)) ∧
    (∀ c h c1, (∀ x ∈ c.invoked, 0 ≤ x ∧ x ≤ (c.handlers.length : Int)) →
      0 ≤ c.index ∧ c.index ≤ (c.handlers.length : Int) →
      (invoke accepts ords g n c h).context = some c1 →
      ∀ x ∈ c1.invoked, 0 ≤ x ∧ x ≤ (c1.handlers.length : Int)) ∧
    (∀ l c c1, (∀ x ∈ c.invoked, 0 ≤ x ∧ x ≤ (c.handlers.length : Int)) →
      (exec accepts ords g n l c).context = some c1 →
      ∀ x ∈ c1.invoked, 0 ≤ x ∧ x ≤ (c1.handlers.length : Int)) := by
  intro n
  induction n with
  | zero =>
    refine ⟨?_, ?_, ?_⟩
    · intro c c1 _ h
      simp [run, Res.context] at h
    · intro c x c1 _ _ h
      simp [invoke, Res.context] at h
    · intro l c c1 _ h
      simp [exec, Res.context] at h
  | succ n ih =>
    obtain ⟨ihr, ihi, ihe⟩ := ih
    refine ⟨?_, ?_, ?_⟩
    · intro c c1 hpre h
      rw [run] at h
      by_cases hidx : c.index ≤ (c.handlers.length : Int)
      · simp only [hidx, if_true] at h
        cases hh : handler c with
        | error m =>
          simp only [hh, Res.context, Option.some.injEq] at h
          subst h
          exact hpre
        | ok x =>
          have hidx2 := handler_ok c x hh
          simp only [hh] at h
          cases hinv : invoke accepts ords g n c x with
          | timeout => simp [hinv, Res.context] at h
          | panic m c2 =>
            simp only [hinv, Res.context, Option.some.injEq] at h
            subst h
            exact ihi c x c2 hpre hidx2 (by rw [hinv]; rfl)
          | done c2 =>
            have h2 := ihi c x c2 hpre hidx2 (by rw [hinv]; rfl)
            simp only [hinv] at h
            by_cases hw : Written (advance c2) = true
            · simp only [hw, if_true, Res.context, Option.some.injEq] at h
              subst h
              rw [advance_invoked, advance_handlers]
              exact h2
            · simp only [hw, if_false] at h
              exact ihr (advance c2) c1 (by rw [advance_invoked, advance_handlers]; exact h2) h
      · simp only [hidx, if_false, Res.context, Option.some.injEq] at h
        subst h
        exact hpre
    · intro c x c1 hpre hidx h
      rw [invoke] at h
      cases hinv : Inject.Invoke accepts (ords c.invoked.length) g c.store c.inj x with
      | none => simp [hinv, Res.context] at h
      | some r =>
        simp only [hinv] at h
        by_cases hp : r.panicked = true
        · simp only [hp, if_true, Res.context, Option.some.injEq] at h
          subst h
          exact hpre
        · have hp' : r.panicked = false := by simpa using hp
          simp only [hp', Bool.false_eq_true, if_false] at h
          cases hcalls : r.calls with
          | nil =>
            simp only [hcalls] at h
            cases herr : r.err with
            | none =>
              simp only [herr, Res.context, Option.some.injEq] at h
              subst h
              exact hpre
            | some e =>
              simp only [herr, Res.context, Option.some.injEq] at h
              subst h
              exact hpre
          | cons args rest =>
            simp only [hcalls] at h
            have hpre1 : ∀ y ∈ c.invoked ++ [c.index],
                0 ≤ y ∧ y ≤ (c.handlers.length : Int) := by
              intro y hy
              rcases List.mem_append.mp hy with hy | hy
              · exact hpre y hy
              · rw [List.mem_singleton] at hy
                rw [hy]
                exact hidx
            have hstep := ihe (body x args) { c with invoked := c.invoked ++ [c.index] }
            cases hex : exec accepts ords g n (body x args)
                { c with invoked := c.invoked ++ [c.index] } with
            | timeout => simp [hex, Res.context] at h
            | panic m c2 =>
              simp only [hex, Res.context, Option.some.injEq] at h
              subst h
              exact hstep c2 hpre1 (by rw [hex]; rfl)
            | done c2 =>
              have h2 := hstep c2 hpre1 (by rw [hex]; rfl)
              simp only [hex] at h
              cases herr : r.err with
              | none =>
                simp only [herr, Res.context, Option.some.injEq] at h
                subst h
                exact h2
              | some e =>
                simp only [herr, Res.context, Option.some.injEq] at h
                subst h
                exact h2
    · intro l c c1 hpre h
      cases l with
      | nil =>
        simp only [exec, Res.context, Option.some.injEq] at h
        subst h
        exact hpre
      | cons st rest =>
        cases st with
        | log m =>
          rw [exec] at h
          exact ihe rest { c with log := c.log ++ [m] } c1 hpre h
        | write =>
          rw [exec] at h
          exact ihe rest { c with written := true } c1 hpre h
        | map val =>
          rw [exec] at h
          exact ihe rest { c with store := Map c.store c.inj val } c1 hpre h
        | next =>
          rw [exec] at h
          cases hrun : run accepts ords g n (advance c) with
          | timeout => simp [hrun, Res.context] at h
          | panic m c2 =>
            simp only [hrun, Res.context, Option.some.injEq] at h
            subst h
            exact ihr (advance c) c2 (by rw [advance_invoked, advance_handlers]; exact hpre)
              (by rw [hrun]; rfl)
          | done c2 =>
            have h2 := ihr (advance c) c2 (by rw [advance_invoked, advance_handlers]; exact hpre)
              (by rw [hrun]; rfl)
            simp only [hrun] at h
            exact ihe rest c2 c1 h2 h

/-- When `run` returns, the response is written or the cursor is above `N`. -/
theorem run_done_exit (accepts : Val → Ty → Bool) (ords : Nat → Nat → Order) (g : Nat) :
    ∀ n c c1,
    run accepts ords g n c = .done c1 →
    c1.written = true ∨ (c1.handlers.length : Int) < c1.index := by
  intro n
  induction n with
  | zero =>
    intro c c1 h
    simp [run] at h
  | succ n ih =>
    intro c c1 h
    rw [run] at h
    by_cases hidx : c.index ≤ (c.handlers.length : Int)
    · simp only [hidx, if_true] at h
      cases hh : handler c with
      | error m => simp [hh] at h
      | ok x =>
        simp only [hh] at h
        cases hinv : invoke accepts ords g n c x with
        | timeout => simp [hinv] at h
        | panic m c2 => simp [hinv] at h
        | done c2 =>
          simp only [hinv] at h
          by_cases hw : Written (advance c2) = true
          · simp only [hw, if_true, Res.done.injEq] at h
            subst h
            exact Or.inl hw
          · simp only [hw, if_false] at h
            exact ih _ c1 h
    · simp only [hidx, if_false, Res.done.injEq] at h
      subst h
      exact Or.inr (by omega)

/-- C12, as amended. The range of the cursor. For every context in which the positions
invoked so far lie between 0 and `N` (such as a fresh context, cursor 0 and nothing
invoked), every behaviour of the handlers and every fuel: the context that `run` returns,
or the one at a panic, has the same handlers and only positions from 0 to `N` invoked, so
every handler body is entered at a cursor in `[0, N]`; unless the `int` cursor has wrapped
around, the cursor is not smaller than before; but the cursor itself leaves the range:
when `run` returns and the response is not written, the cursor is above `N`. -/
theorem cursor_range (accepts : Val → Ty → Bool) (ords : Nat → Nat → Order) (g n : Nat)
    (c c1 : context)
    (hpre : ∀ x ∈ c.invoked, 0 ≤ x ∧ x ≤ (c.handlers.length : Int))
    (h : (run accepts ords g n c).context = some c1) :
    c1.handlers = c.handlers ∧
    (c1.overflowed = false → c.index ≤ c1.index) ∧
    (∀ x ∈ c1.invoked, 0 ≤ x ∧ x ≤ (c1.handlers.length : Int)) ∧
    (run accepts ords g n c = .done c1 →
      c1.written = true ∨ (c1.handlers.length : Int) < c1.index) :=
  ⟨((follows accepts ords g n).1 c c1 h).handlers,
    ((follows accepts ords g n).1 c c1 h).index,
    (entered_within accepts ords g n).1 c c1 hpre h, run_done_exit accepts ords g n c c1⟩

/-- A witness of C12: `run` on the fresh context `Sample.request` returns with the
positions 0 and 1 invoked and the response written. -/
theorem cursor_range_witness :
    (∀ x ∈ Sample.request.invoked, 0 ≤ x ∧ x ≤ (Sample.request.handlers.length : Int)) ∧
    (run Sample.accepts (fun _ _ => Sample.inOrder) 1 9 Sample.request).context
      = some { Sample.afterH1 with index := 3 } ∧
    (∀ x ∈ ([0, 1] : List Int), 0 ≤ x ∧ x ≤ 2) ∧
    Sample.request.index ≤ 3 :=
  have h := cursor_range Sample.accepts (fun _ _ => Sample.inOrder) 1 9 Sample.request
    { Sample.afterH1 with index := 3 } (by decide) rfl
  ⟨by decide, rfl, h.2.2.1, h.2.1 rfl⟩

/-- C12, the claim as stated fails: `Sample.request` is a fresh context (cursor 0) with
`N = 2` middleware handlers, and `run` returns it with the cursor at 3; and with no
middleware at all (`N = 0`) and nothing written, `run` invokes the action and returns
with the cursor at 1. -/
theorem cursor_exceeds_N :
    (Sample.request.index = 0 ∧ Sample.request.handlers.length = 2 ∧
      ∃ c2, run Sample.accepts (fun _ _ => Sample.inOrder) 1 9 Sample.request = .done c2 ∧
        c2.handlers.length = 2 ∧ c2.index = 3 ∧
        ¬ c2.index ≤ (c2.handlers.length : Int)) ∧
    (∃ c2, run Sample.accepts (fun _ _ => Sample.inOrder) 1 4
          { Sample.request with handlers := [] } = .done c2 ∧
      c2.handlers.length = 0 ∧ c2.written = false ∧ c2.invoked = [0] ∧ c2.index = 1 ∧
      ¬ c2.index ≤ (c2.handlers.length : Int)) :=
  ⟨⟨rfl, rfl, _, rfl, rfl, rfl, by decide⟩, ⟨_, rfl, rfl, rfl, rfl, rfl, by decide⟩⟩

/-- C18, as amended. The panic "invalid index for context handler" is unreachable: `run`
looks a handler up only under its loop guard, so for every context, every fuel and every
behaviour of the handlers, a panic that comes out of `run`, or out of a handler body that
calls `Next()`, is never that one.  At a cursor from 0 to `N` the lookup finds a handler:
the middleware at the cursor, at an index within the list, below `N`, and the action at
`N`; a lookup under the guard that panics does so at a negative cursor, with the run-time
panic of the index expression.  From a context whose cursor is not negative, that panic
comes out of `run` only after the `int` cursor has wrapped around; and every handler body
is entered at a cursor from 0 to `N`. -/
theorem handler_lookup_in_range (accepts : Val → Ty → Bool) (ords : Nat → Nat → Order)
    (g : Nat) :
    (∀ c, 0 ≤ c.index → c.index ≤ (c.handlers.length : Int) →
      ∃ x, handler c = .ok x ∧
        (c.index < (c.handlers.length : Int) → c.handlers[c.index.toNat]? = some x) ∧
        (c.index = (c.handlers.length : Int) → x = c.action)) ∧
    (∀ c msg, c.index ≤ (c.handlers.length : Int) → handler c = .error msg →
      msg = outOfRange ∧ c.index < 0) ∧
    (∀ n c msg c1, run accepts ords g n c = .panic msg c1 → msg ≠ invalidIndex) ∧
    (∀ n l c msg c1, exec accepts ords g n l c = .panic msg c1 → msg ≠ invalidIndex) ∧
    (∀ n c c1, 0 ≤ c.index → run accepts ords g n c = .panic outOfRange c1 →
      c1.overflowed = true) ∧
    (∀ n c c1, (∀ x ∈ c.invoked, 0 ≤ x ∧ x ≤ (c.handlers.length : Int)) →
      (run accepts ords g n c).context = some c1 →
      ∀ x ∈ c1.invoked, 0 ≤ x ∧ x ≤ (c1.handlers.length : Int)) :=
  ⟨handler_some, fun c msg h he => handler_error c h msg he,
    fun n => (no_invalid_index accepts ords g n).1,
    fun n => (no_invalid_index accepts ords g n).2.2,
    fun n c c1 h0 h => ((lookup_sound accepts ords g n).1 c (fun _ => h0)).2 c1 h,
    fun n => (entered_within accepts ords g n).1⟩

/-- A witness of C18: the panic of `run` on `Sample.blocked` is a resolution error, and the
lookups of `Sample.request` at the cursors 0 and 2 find `H1` and the action. -/
theorem handler_lookup_in_range_witness :
    run Sample.accepts (fun _ _ => Sample.inOrder) 2 2 Sample.blocked
      = .panic "Value not found for type fmt.Stringer" Sample.blocked ∧
    "Value not found for type fmt.Stringer" ≠ invalidIndex ∧
    0 ≤ Sample.request.index ∧
    Sample.request.index ≤ (Sample.request.handlers.length : Int) ∧
    (∃ x, handler Sample.request = .ok x ∧
      (Sample.request.index < (Sample.request.handlers.length : Int) →
        Sample.request.handlers[Sample.request.index.toNat]? = some x) ∧
      (Sample.request.index = (Sample.request.handlers.length : Int) →
        x = Sample.request.action)) :=
  have h := handler_lookup_in_range Sample.accepts (fun _ _ => Sample.inOrder) 2
  ⟨rfl, h.2.2.1 2 Sample.blocked _ Sample.blocked rfl, by decide, by decide,
    h.1 Sample.request (by decide) (by decide)⟩

/-- C18, the claim as stated fails: `Sample.dizzy` is a context created with cursor 0,
without middleware, whose action calls `Next()` 2^63 times; the last call wraps the `int`
cursor around to the smallest `int`, and the lookup that `run` then performs happens at a
negative cursor and indexes the list of middleware handlers out of range. -/
theorem lookup_after_wraparound :
    Sample.dizzy.index = 0 ∧ Sample.dizzy.overflowed = false ∧
    run Sample.accepts (fun _ _ => Sample.inOrder) 1 9223372036854775811 Sample.dizzy
      = .panic outOfRange
          { Sample.dizzy with index := minInt, overflowed := true, invoked := [0] } ∧
    handler { Sample.dizzy with index := minInt, overflowed := true, invoked := [0] }
      = .error outOfRange ∧
    minInt < 0 :=
  ⟨rfl, rfl, dizzy_run (fun _ _ => Sample.inOrder) 0, rfl, by decide⟩

end Moon

namespace Moon

open Inject

/-! ## Full traversal -/

theorem run_past (accepts : Val → Ty → Bool) (ords : Nat → Nat → Order) (g n : Nat)
    (c : context) (h : (c.handlers.length : Int) < c.index) :
    run accepts ords g (n + 1) c = .done c := by
  rw [run]
  have hn : ¬ c.index ≤ (c.handlers.length : Int) := by omega
  simp [hn]

/-- At a negative cursor the lookup of `run` panics. -/
theorem run_negative (accepts : Val → Ty → Bool) (ords : Nat → Nat → Order) (g n : Nat)
    (c : context) (h : c.index < 0) :
    run accepts ords g (n + 1) c = .panic outOfRange c := by
  have hlt : c.index < (c.handlers.length : Int) := by omega
  have hh : handler c = .error outOfRange := by
    unfold handler
    rw [if_pos hlt, if_pos h]
  rw [run, if_pos (Int.le_of_lt hlt), hh]

/-- At the largest `int`, `c.index += 1` wraps around. -/
theorem advance_of_max (c : context) (h : c.index = maxInt) :
    advance c = { c with index := minInt, overflowed := true } := by
  unfold advance
  rw [if_pos h]

/-- Away from the largest `int`, `c.index += 1` adds one. -/
theorem advance_of_ne (c : context) (h : c.index ≠ maxInt) :
    advance c = { c with index := c.index + 1 } := by
  unfold advance
  rw [if_neg h]

theorem handler_mem (c : context) (x : Callable) (h : handler c = .ok x) :
    x ∈ c.handlers ∨ x = c.action := by
  unfold handler at h
  by_cases hlt : c.index < (c.handlers.length : Int)
  · rw [if_pos hlt] at h
    by_cases hneg : c.index < 0
    · rw [if_pos hneg] at h
      exact Except.noConfusion h
    · rw [if_neg hneg] at h
      cases hget : c.handlers[c.index.toNat]? with
      | none => simp [hget] at h
      | some y =>
        simp only [hget, Except.ok.injEq] at h
        subst h
        exact Or.inl (List.getElem?_mem hget)
  · rw [if_neg hlt] at h
    by_cases heq : c.index = (c.handlers.length : Int)
    · simp only [heq, if_true, Except.ok.injEq] at h
      exact Or.inr h.symm
    · rw [if_neg heq] at h
      exact Except.noConfusion h

/-- The loop of `run` after a turn that left the response unwritten. -/
theorem run_of_turn (accepts : Val → Ty → Bool) (ords : Nat → Nat → Order) (g n1 n2 : Nat)
    (c c1 : context) (x : Callable) (r : Res) (hidx : c.index ≤ (c.handlers.length : Int))
    (hh : handler c = .ok x) (hinv : invoke accepts ords g n1 c x = .done c1)
    (hw : c1.written = false)
    (hrun : run accepts ords g n2 (advance c1) = r) (hr : r ≠ .timeout) :
    ∃ n, run accepts ords g n c = r := by
  refine ⟨max n1 n2 + 1, ?_⟩
  have h1 : invoke accepts ords g (max n1 n2) c x = .done c1 := by
    rw [(fuel_le accepts ords g n1 (max n1 n2) (Nat.le_max_left _ _)).2.1 c x (by simp [hinv]),
      hinv]
  have h2 : run accepts ords g (max n1 n2) (advance c1) = r := by
    rw [(fuel_le accepts ords g n2 (max n1 n2) (Nat.le_max_right _ _)).1 _
      (by rw [hrun]; exact hr), hrun]
  have hnw : Written (advance c1) = false := by
    show (advance c1).written = false
    rw [advance_written]
    exact hw
  rw [run]
  simp only [hidx, if_true, hh, h1, hnw, Bool.false_eq_true, if_false, h2]

/-- A panic in the turn of a handler is the panic of `run`. -/
theorem run_of_panic (accepts : Val → Ty → Bool) (ords : Nat → Nat → Order) (g n : Nat)
    (c c1 : context) (x : Callable) (msg : String)
    (hidx : c.index ≤ (c.handlers.length : Int)) (hh : handler c = .ok x)
    (hinv : invoke accepts ords g n c x = .panic msg c1) :
    run accepts ords g (n + 1) c = .panic msg c1 := by
  rw [run]
  simp only [hidx, if_true, hh, hinv]

/-- The turn of a handler whose parameters resolve is the execution of its body. -/
theorem invoke_of_exec (accepts : Val → Ty → Bool) (ords : Nat → Nat → Order) (g n : Nat)
    (c c1 : context) (fn : Func) (args : List Val)
    (hinv : Inject.Invoke accepts (ords c.invoked.length) g c.store c.inj (.func fn) = some
      { results := results (fn.outs args), err := none, calls := [args], panicked := false })
    (hex : exec accepts ords g n (fn.body args) { c with invoked := c.invoked ++ [c.index] }
      = .done c1) :
    invoke accepts ords g (n + 1) c (.func fn) = .done c1 := by
  rw [invoke]
  simp [hinv, body, hex]

/-- A panic in the body of a handler is the panic of its turn. -/
theorem invoke_of_panic (accepts : Val → Ty → Bool) (ords : Nat → Nat → Order) (g n : Nat)
    (c c1 : context) (fn : Func) (args : List Val) (msg : String)
    (hinv : Inject.Invoke accepts (ords c.invoked.length) g c.store c.inj (.func fn) = some
      { results := results (fn.outs args), err := none, calls := [args], panicked := false })
    (hex : exec accepts ords g n (fn.body args) { c with invoked := c.invoked ++ [c.index] }
      = .panic msg c1) :
    invoke accepts ords g (n + 1) c (.func fn) = .panic msg c1 := by
  rw [invoke]
  simp [hinv, body, hex]

/-- A `Next()` in a body: the nested `run` and then the rest of the body. -/
theorem exec_next_of (accepts : Val → Ty → Bool) (ords : Nat → Nat → Order) (g n1 n2 : Nat)
    (c c2 : context) (rest : List Stmt) (r : Res)
    (hrun : run accepts ords g n1 (advance c) = .done c2)
    (hex : exec accepts ords g n2 rest c2 = r) (hr : r ≠ .timeout) :
    ∃ n, exec accepts ords g n (Stmt.next :: rest) c = r := by
  refine ⟨max n1 n2 + 1, ?_⟩
  have h1 : run accepts ords g (max n1 n2) (advance c) = .done c2 := by
    rw [(fuel_le accepts ords g n1 (max n1 n2) (Nat.le_max_left _ _)).1 _ (by simp [hrun]),
      hrun]
  have h2 : exec accepts ords g (max n1 n2) rest c2 = r := by
    rw [(fuel_le accepts ords g n2 (max n1 n2) (Nat.le_max_right _ _)).2.2 _ _
      (by rw [hex]; exact hr), hex]
  rw [exec]
  simp only [h1, h2]

/-- A panic of the `run` nested in a `Next()` is the panic of the body. -/
theorem exec_next_panic (accepts : Val → Ty → Bool) (ords : Nat → Nat → Order) (g n : Nat)
    (c c2 : context) (rest : List Stmt) (msg : String)
    (hrun : run accepts ords g n (advance c) = .panic msg c2) :
    exec accepts ords g (n + 1) (Stmt.next :: rest) c = .panic msg c2 := by
  rw [exec]
  simp only [hrun]

theorem Traversed.ne_timeout {H : List Callable} {A : Callable} {inj : Ptr}
    {I : Store → Prop} {full : List Int} {r : Res} (h : Traversed H A inj I full r) :
    r ≠ .timeout := by
  rcases h with ⟨c1, h1, _⟩ | ⟨c1, h1, _⟩ <;> rw [h1] <;> exact fun h => Res.noConfusion h

theorem range_from (pre : List Int) (i N : Nat) (h : i ≤ N) :
    pre ++ [(i : Int)] ++ (List.range' (i + 1) (N + 1 - (i + 1))).map (fun j : Nat => (j : Int))
      = pre ++ (List.range' i (N + 1 - i)).map (fun j : Nat => (j : Int)) := by
  have e1 : N + 1 - i = (N - i) + 1 := by omega
  have e2 : N + 1 - (i + 1) = N - i := by omega
  rw [e1, e2, List.range'_succ]
  simp

end Moon

namespace Moon

open Inject

/-- A pipeline in which every handler resolves and none writes is traversed to its end: from
a cursor `k`, `run` ends with the positions `k..N` invoked after those invoked before, in
this order; it returns with the cursor above `N`, unless the cursor has wrapped around. -/
theorem traverse (accepts : Val → Ty → Bool) (ords : Nat → Nat → Order) (g : Nat)
    (H : List Callable) (A : Callable)
    (inj : Ptr) (I : Store → Prop) (hmap : ∀ s v, I s → I (Map s inj v))
    (hres : ∀ s k h, I s → (h ∈ H ∨ h = A) → ∃ fn args, h = .func fn ∧
      Inject.Invoke accepts (ords k) g s inj h = some
        { results := results (fn.outs args), err := none, calls := [args],
          panicked := false })
    (hquiet : ∀ h args, (h ∈ H ∨ h = A) → Stmt.write ∉ body h args)
    (hfit : (H.length : Int) < maxInt) :
    ∀ (d : Nat) (c : context) (k : Nat), Steady H A inj I c → c.index = (k : Int) →
      H.length + 1 - k ≤ d →
      ∃ n r, run accepts ords g n c = r ∧
        Traversed H A inj I
          (c.invoked ++ (List.range' k (H.length + 1 - k)).map (fun j : Nat => (j : Int)))
          r := by
  have past : ∀ (c : context) (k : Nat), Steady H A inj I c → c.index = (k : Int) →
      H.length < k →
      ∃ n r, run accepts ords g n c = r ∧
        Traversed H A inj I
          (c.invoked ++ (List.range' k (H.length + 1 - k)).map (fun j : Nat => (j : Int)))
          r := by
    intro c k hc hk hlt
    have h0 : H.length + 1 - k = 0 := by omega
    have hlt' : (c.handlers.length : Int) < c.index := by
      rw [hc.handlers, hk]
      omega
    refine ⟨1, .done c, run_past accepts ords g 0 c hlt', Or.inl ⟨c, rfl, hc, ?_, ?_⟩⟩
    · rw [hk]
      omega
    · rw [h0]
      simp
  intro d
  induction d with
  | zero =>
    intro c k hc hk hd
    exact past c k hc hk (by omega)
  | succ d ih =>
    intro c k hc hk hd
    by_cases hidx : k ≤ H.length
    · have hidx' : c.index ≤ (c.handlers.length : Int) := by
        rw [hc.handlers, hk]
        omega
      have h0 : 0 ≤ c.index := by
        rw [hk]
        omega
      obtain ⟨x, hx, _, _⟩ := handler_some c h0 hidx'
      have hmem : x ∈ H ∨ x = A := by
        have := handler_mem c x hx
        rw [hc.handlers, hc.action] at this
        exact this
      obtain ⟨fn, args, hfn, hinvk⟩ := hres c.store c.invoked.length x hc.store hmem
      subst hfn
      rw [← hc.inj] at hinvk
      have hfull : ∀ pre : List Int,
          pre ++ [(k : Int)] ++
              (List.range' (k + 1) (H.length + 1 - (k + 1))).map (fun j : Nat => (j : Int))
            = pre ++ (List.range' k (H.length + 1 - k)).map (fun j : Nat => (j : Int)) :=
        fun pre => range_from pre k H.length hidx
      have hbody : ∀ l : List Stmt, Stmt.write ∉ l → ∀ c0, Steady H A inj I c0 →
          ((c0.index = (k : Int) ∧ c0.invoked = c.invoked ++ [(k : Int)]) ∨
            ((H.length : Int) < c0.index ∧
              c0.invoked = c.invoked ++
                (List.range' k (H.length + 1 - k)).map (fun j : Nat => (j : Int)))) →
          ∃ n r, exec accepts ords g n l c0 = r ∧
            ((∃ c1, r = .done c1 ∧ Steady H A inj I c1 ∧
              ((c1.index = (k : Int) ∧ c1.invoked = c.invoked ++ [(k : Int)]) ∨
                ((H.length : Int) < c1.index ∧
                  c1.invoked = c.invoked ++
                    (List.range' k (H.length + 1 - k)).map (fun j : Nat => (j : Int))))) ∨
             (∃ c1, r = .panic outOfRange c1 ∧ c1.overflowed = true ∧ c1.handlers = H ∧
                c1.invoked = c.invoked ++
                  (List.range' k (H.length + 1 - k)).map (fun j : Nat => (j : Int)))) := by
        intro l
        induction l with
        | nil =>
          intro _ c0 hc0 hst
          exact ⟨1, .done c0, by simp [exec], Or.inl ⟨c0, rfl, hc0, hst⟩⟩
        | cons st rest ihl =>
          intro hnw c0 hc0 hst
          have hnw' : Stmt.write ∉ rest := fun h => hnw (List.mem_cons_of_mem _ h)
          cases st with
          | log m =>
            obtain ⟨n, r, h1, h2⟩ := ihl hnw' { c0 with log := c0.log ++ [m] }
              ⟨hc0.handlers, hc0.action, hc0.inj, hc0.store, hc0.written, hc0.overflowed⟩ hst
            exact ⟨n + 1, r, by rw [exec]; exact h1, h2⟩
          | write => exact absurd (List.mem_cons_self _ _) hnw
          | map v =>
            obtain ⟨n, r, h1, h2⟩ := ihl hnw' { c0 with store := Map c0.store c0.inj v }
              ⟨hc0.handlers, hc0.action, hc0.inj, by
                show I (Map c0.store c0.inj v)
                rw [hc0.inj]
                exact hmap _ v hc0.store, hc0.written, hc0.overflowed⟩ hst
            exact ⟨n + 1, r, by rw [exec]; exact h1, h2⟩
          | next =>
            rcases hst with ⟨hi, hinvd⟩ | ⟨hi, hinvd⟩
            · have hadv : advance c0 = { c0 with index := c0.index + 1 } :=
                advance_of_lt c0 (by rw [hi]; omega)
              have hc2 : Steady H A inj I { c0 with index := c0.index + 1 } :=
                ⟨hc0.handlers, hc0.action, hc0.inj, hc0.store, hc0.written, hc0.overflowed⟩
              obtain ⟨n1, r1, hr1, ht1⟩ :=
                ih { c0 with index := c0.index + 1 } (k + 1) hc2 (by
                  show c0.index + 1 = ((k + 1 : Nat) : Int)
                  rw [hi]
                  push_cast
                  rfl) (by omega)
              have hinv2 : ({ c0 with index := c0.index + 1 } : context).invoked ++
                    (List.range' (k + 1) (H.length + 1 - (k + 1))).map
                      (fun j : Nat => (j : Int))
                  = c.invoked ++
                    (List.range' k (H.length + 1 - k)).map (fun j : Nat => (j : Int)) := by
                show c0.invoked ++ _ = _
                rw [hinvd]
                exact hfull c.invoked
              rw [hinv2] at ht1
              rcases ht1 with ⟨c2, hd2, hs2, hlt2, hi2⟩ | ⟨c2, hp2, ho2, hh2, hi2⟩
              · obtain ⟨n2, r2, h1, h2⟩ := ihl hnw' c2 hs2 (Or.inr ⟨hlt2, hi2⟩)
                have hr2 : r2 ≠ .timeout := by
                  rcases h2 with ⟨c3, h3, _⟩ | ⟨c3, h3, _⟩ <;> rw [h3] <;>
                    exact fun h => Res.noConfusion h
                obtain ⟨n, hn⟩ := exec_next_of accepts ords g n1 n2 c0 c2 rest r2
                  (by rw [hadv, hr1, hd2]) h1 hr2
                exact ⟨n, r2, hn, h2⟩
              · refine ⟨n1 + 1, .panic outOfRange c2, ?_, Or.inr ⟨c2, rfl, ho2, hh2, hi2⟩⟩
                exact exec_next_panic accepts ords g n1 c0 c2 rest outOfRange
                  (by rw [hadv, hr1, hp2])
            · by_cases hmax : c0.index = maxInt
              · refine ⟨2, .panic outOfRange { c0 with index := minInt, overflowed := true },
                  exec_wrap accepts ords g c0 rest hmax,
                  Or.inr ⟨_, rfl, rfl, hc0.handlers, hinvd⟩⟩
              · have hadv : advance c0 = { c0 with index := c0.index + 1 } :=
                  advance_of_ne c0 hmax
                have hc2 : Steady H A inj I { c0 with index := c0.index + 1 } :=
                  ⟨hc0.handlers, hc0.action, hc0.inj, hc0.store, hc0.written, hc0.overflowed⟩
                have hr1 : run accepts ords g 1 (advance c0)
                    = .done { c0 with index := c0.index + 1 } := by
                  rw [hadv]
                  exact run_past accepts ords g 0 _ (by
                    show (c0.handlers.length : Int) < c0.index + 1
                    rw [hc0.handlers]
                    omega)
                obtain ⟨n2, r2, h1, h2⟩ := ihl hnw' { c0 with index := c0.index + 1 } hc2
                  (Or.inr ⟨by show (H.length : Int) < c0.index + 1; omega, hinvd⟩)
                have hr2 : r2 ≠ .timeout := by
                  rcases h2 with ⟨c3, h3, _⟩ | ⟨c3, h3, _⟩ <;> rw [h3] <;>
                    exact fun h => Res.noConfusion h
                obtain ⟨n, hn⟩ := exec_next_of accepts ords g 1 n2 c0 _ rest r2 hr1 h1 hr2
                exact ⟨n, r2, hn, h2⟩
      obtain ⟨n1, r1, he1, hout⟩ :=
        hbody (fn.body args) (hquiet (.func fn) args hmem)
          { c with invoked := c.invoked ++ [c.index] }
          ⟨hc.handlers, hc.action, hc.inj, hc.store, hc.written, hc.overflowed⟩
          (Or.inl ⟨hk, by show c.invoked ++ [c.index] = _; rw [hk]⟩)
      rcases hout with ⟨c1, hd1, hs1, hst1⟩ | ⟨c1, hp1, ho1, hh1, hi1⟩
      · rw [hd1] at he1
        have hinv1 := invoke_of_exec accepts ords g n1 c c1 fn args hinvk he1
        rcases hst1 with ⟨hi, hinvd⟩ | ⟨hi, hinvd⟩
        · have hadv : advance c1 = { c1 with index := c1.index + 1 } :=
            advance_of_lt c1 (by rw [hi]; omega)
          have hs2 : Steady H A inj I { c1 with index := c1.index + 1 } :=
            ⟨hs1.handlers, hs1.action, hs1.inj, hs1.store, hs1.written, hs1.overflowed⟩
          obtain ⟨n2, r2, hr2, ht2⟩ :=
            ih { c1 with index := c1.index + 1 } (k + 1) hs2 (by
              show c1.index + 1 = ((k + 1 : Nat) : Int)
              rw [hi]
              push_cast
              rfl) (by omega)
          have hinv2 : ({ c1 with index := c1.index + 1 } : context).invoked ++
                (List.range' (k + 1) (H.length + 1 - (k + 1))).map
                  (fun j : Nat => (j : Int))
              = c.invoked ++
                (List.range' k (H.length + 1 - k)).map (fun j : Nat => (j : Int)) := by
            show c1.invoked ++ _ = _
            rw [hinvd]
            exact hfull c.invoked
          rw [hinv2] at ht2
          obtain ⟨n, hn⟩ := run_of_turn accepts ords g (n1 + 1) n2 c c1 (.func fn) r2 hidx' hx
            hinv1 hs1.written (by rw [hadv]; exact hr2) ht2.ne_timeout
          exact ⟨n, r2, hn, ht2⟩
        · by_cases hmax : c1.index = maxInt
          · have hadv : advance c1 = { c1 with index := minInt, overflowed := true } :=
              advance_of_max c1 hmax
            have hr1 : run accepts ords g 1 (advance c1)
                = .panic outOfRange { c1 with index := minInt, overflowed := true } := by
              rw [hadv]
              exact run_negative accepts ords g 0 _ (by show minInt < 0; decide)
            obtain ⟨n, hn⟩ := run_of_turn accepts ords g (n1 + 1) 1 c c1 (.func fn) _ hidx' hx
              hinv1 hs1.written hr1 (fun h => Res.noConfusion h)
            exact ⟨n, _, hn, Or.inr ⟨_, rfl, rfl, hs1.handlers, hinvd⟩⟩
          · have hadv : advance c1 = { c1 with index := c1.index + 1 } :=
              advance_of_ne c1 hmax
            have hs2 : Steady H A inj I { c1 with index := c1.index + 1 } :=
              ⟨hs1.handlers, hs1.action, hs1.inj, hs1.store, hs1.written, hs1.overflowed⟩
            have hr1 : run accepts ords g 1 (advance c1)
                = .done { c1 with index := c1.index + 1 } := by
              rw [hadv]
              exact run_past accepts ords g 0 _ (by
                show (c1.handlers.length : Int) < c1.index + 1
                rw [hs1.handlers]
                omega)
            obtain ⟨n, hn⟩ := run_of_turn accepts ords g (n1 + 1) 1 c c1 (.func fn) _ hidx' hx
              hinv1 hs1.written hr1 (fun h => Res.noConfusion h)
            exact ⟨n, _, hn, Or.inl ⟨_, rfl, hs2,
              by show (H.length : Int) < c1.index + 1; omega, hinvd⟩⟩
      · rw [hp1] at he1
        have hinv1 := invoke_of_panic accepts ords g n1 c c1 fn args outOfRange hinvk he1
        exact ⟨n1 + 1 + 1, _,
          run_of_panic accepts ords g (n1 + 1) c c1 (.func fn) outOfRange hidx' hx hinv1,
          Or.inr ⟨c1, rfl, ho1, hh1, hi1⟩⟩
    · exact past c k hc hk (by omega)

end Moon

namespace Moon

open Inject

/-- C11, as amended. Full traversal. For every pipeline of `N >= 0` middleware handlers
(`N` below the largest `int`) and a terminal action, started on a fresh context (cursor 0,
nothing invoked, nothing written), in which no handler body writes the response and every
handler resolves, to arguments with which `reflect` accepts the call, in every store the
handlers can leave (the stores that satisfy `I`, which holds at the start and is kept by
every `Map` in the request container): with enough fuel `run` ends with the positions
`0, 1, .., N` invoked, each exactly once and in this order, whatever calls of `Next()` the
bodies make; it returns, with nothing written and the cursor above `N`, unless the calls
of `Next()` have wrapped the `int` cursor around, and then it ends in the run-time panic
of the handler lookup; the position `i < N` is the middleware `i` and the position `N` is
the action; with no middleware the only invocation is the action. -/
theorem full_traversal (accepts : Val → Ty → Bool) (ords : Nat → Nat → Order) (g : Nat)
    (c : context)
    (I : Store → Prop) (hI : I c.store) (hmap : ∀ s v, I s → I (Map s c.inj v))
    (hres : ∀ s k h, I s → (h ∈ c.handlers ∨ h = c.action) → ∃ fn args, h = .func fn ∧
      Inject.Invoke accepts (ords k) g s c.inj h = some
        { results := results (fn.outs args), err := none, calls := [args],
          panicked := false })
    (hquiet : ∀ h args, (h ∈ c.handlers ∨ h = c.action) → Stmt.write ∉ body h args)
    (hfit : (c.handlers.length : Int) < maxInt)
    (hw : c.written = false) (hidx : c.index = 0) (hinv : c.invoked = [])
    (ho : c.overflowed = false) :
    ∃ n0 r, (∀ n, n0 ≤ n → run accepts ords g n c = r) ∧
      ((∃ c1, r = .done c1 ∧ c1.written = false ∧ c1.overflowed = false ∧
          (c.handlers.length : Int) < c1.index ∧
          c1.handlers = c.handlers ∧ c1.action = c.action ∧
          c1.invoked = (List.range (c.handlers.length + 1)).map (fun j : Nat => (j : Int))) ∨
       (∃ c1, r = .panic outOfRange c1 ∧ c1.overflowed = true ∧
          c1.invoked = (List.range (c.handlers.length + 1)).map (fun j : Nat => (j : Int)))) ∧
      (c.handlers = [] → ∀ c1, r.context = some c1 → c1.invoked = [0]) ∧
      (∀ i : Nat, i < c.handlers.length →
        ∃ x, handler { c with index := (i : Int) } = .ok x ∧ c.handlers[i]? = some x) ∧
      handler { c with index := (c.handlers.length : Int) } = .ok c.action := by
  obtain ⟨n0, r, hrun, ht⟩ :=
    traverse accepts ords g c.handlers c.action c.inj I hmap hres hquiet hfit
      (c.handlers.length + 1) c 0 ⟨rfl, rfl, rfl, hI, hw, ho⟩ (by rw [hidx]; rfl)
      (Nat.sub_le _ _)
  have hrange : c.invoked ++
        (List.range' 0 (c.handlers.length + 1 - 0)).map (fun j : Nat => (j : Int))
      = (List.range (c.handlers.length + 1)).map (fun j : Nat => (j : Int)) := by
    rw [hinv, List.range_eq_range']
    simp
  rw [hrange] at ht
  have hout : (∃ c1, r = .done c1 ∧ c1.written = false ∧ c1.overflowed = false ∧
        (c.handlers.length : Int) < c1.index ∧
        c1.handlers = c.handlers ∧ c1.action = c.action ∧
        c1.invoked = (List.range (c.handlers.length + 1)).map (fun j : Nat => (j : Int))) ∨
      (∃ c1, r = .panic outOfRange c1 ∧ c1.overflowed = true ∧
        c1.invoked = (List.range (c.handlers.length + 1)).map (fun j : Nat => (j : Int))) := by
    rcases ht with ⟨c1, h1, hs, hlt, hi⟩ | ⟨c1, h1, ho1, _, hi⟩
    · exact Or.inl ⟨c1, h1, hs.written, hs.overflowed, hlt, hs.handlers, hs.action, hi⟩
    · exact Or.inr ⟨c1, h1, ho1, hi⟩
  refine ⟨n0, r, ?_, hout, ?_, ?_, ?_⟩
  · intro n hn
    rw [(fuel_le accepts ords g n0 n hn).1 c (by rw [hrun]; exact ht.ne_timeout), hrun]
  · intro hnil c1 hc1
    have hi : c1.invoked = (List.range (c.handlers.length + 1)).map
        (fun j : Nat => (j : Int)) := by
      rcases hout with ⟨c2, h2, _, _, _, _, _, hi⟩ | ⟨c2, h2, _, hi⟩
      · rw [h2] at hc1
        simp only [Res.context, Option.some.injEq] at hc1
        rw [← hc1]
        exact hi
      · rw [h2] at hc1
        simp only [Res.context, Option.some.injEq] at hc1
        rw [← hc1]
        exact hi
    rw [hi, hnil]
    rfl
  · intro i hi
    obtain ⟨x, hx, hx1, _⟩ := handler_some { c with index := (i : Int) }
      (by show (0 : Int) ≤ (i : Int); omega)
      (by show (i : Int) ≤ (c.handlers.length : Int); omega)
    refine ⟨x, hx, ?_⟩
    have := hx1 (by show (i : Int) < (c.handlers.length : Int); omega)
    simpa using this
  · simp [handler]

theorem silent_store_kept (s : Store) (v : Option Val) (h : Sample.provided s) :
    Sample.provided (Map s 1 v) := by
  unfold Sample.provided
  rw [Map_eq_Set, Set_values_self]
  constructor
  · by_cases hv : TypeOf v = Sample.tRequest
    · cases v with
      | none => exact absurd hv (by decide)
      | some w =>
        refine ⟨w, ?_, hv⟩
        rw [hv, mapIndex_mapAssign_self]
        rfl
    · obtain ⟨x, hx, ht⟩ := h.1
      refine ⟨x, ?_, ht⟩
      rw [mapIndex_mapAssign_ne _ (TypeOf v) _ _ (fun e => hv e.symm)]
      exact hx
  · by_cases hv : TypeOf v = Sample.tContext
    · cases v with
      | none => exact absurd hv (by decide)
      | some w =>
        have hw : w.typ = Sample.tContext := hv
        refine ⟨w, ?_, by simp [Sample.accepts, hw]⟩
        rw [hv, mapIndex_mapAssign_self]
        rfl
    · obtain ⟨y, hy, ht⟩ := h.2
      refine ⟨y, ?_, ht⟩
      rw [mapIndex_mapAssign_ne _ (TypeOf v) _ _ (fun e => hv e.symm)]
      exact hy

theorem silent_resolves (s : Store) (h : Callable) (hs : Sample.provided s)
    (hh : h ∈ Sample.silent.handlers ∨ h = Sample.silent.action) :
    ∃ fn args, h = .func fn ∧
      Inject.Invoke Sample.accepts (fun _ => Sample.inOrder) 1 s Sample.silent.inj h = some
        { results := results (fn.outs args), err := none, calls := [args],
          panicked := false } := by
  have hcases : h = .func Sample.H1 ∨ h = .func Sample.quiet ∨ h = .func Sample.A := by
    rcases hh with hh | hh
    · simp only [Sample.silent, List.mem_cons, List.mem_singleton, List.not_mem_nil,
        or_false] at hh
      rcases hh with hh | hh
      · exact Or.inl hh
      · exact Or.inr (Or.inl hh)
    · exact Or.inr (Or.inr hh)
  have hinj : Sample.silent.inj = 1 := rfl
  rcases hcases with rfl | rfl | rfl
  · obtain ⟨y, hy, ht⟩ := hs.2
    refine ⟨Sample.H1, [y], rfl, ?_⟩
    have hget : Get Sample.inOrder 1 s 1 Sample.tContext = .value (some y) :=
      Get_exact Sample.inOrder 0 s 1 Sample.tContext y hy
    simp [Inject.Invoke, Sample.H1, resolveIn, hinj, hget, callable, ht, results]
  · obtain ⟨x, hx, ht⟩ := hs.1
    refine ⟨Sample.quiet, [x], rfl, ?_⟩
    have hget : Get Sample.inOrder 1 s 1 Sample.tRequest = .value (some x) :=
      Get_exact Sample.inOrder 0 s 1 Sample.tRequest x hx
    simp [Inject.Invoke, Sample.quiet, resolveIn, hinj, hget, callable, Sample.accepts, ht,
      results]
  · exact ⟨Sample.A, [], rfl, rfl⟩

theorem silent_quiet (h : Callable) (args : List Val)
    (hh : h ∈ Sample.silent.handlers ∨ h = Sample.silent.action) :
    Stmt.write ∉ body h args := by
  have hcases : h = .func Sample.H1 ∨ h = .func Sample.quiet ∨ h = .func Sample.A := by
    rcases hh with hh | hh
    · simp only [Sample.silent, List.mem_cons, List.mem_singleton, List.not_mem_nil,
        or_false] at hh
      rcases hh with hh | hh
      · exact Or.inl hh
      · exact Or.inr (Or.inl hh)
    · exact Or.inr (Or.inr hh)
  rcases hcases with rfl | rfl | rfl
  · simp [body, Sample.H1]
  · simp [body, Sample.quiet]
  · simp [body, Sample.A]

/-- A witness of C11: the pipeline `[H1, quiet]` with the action `A` of `Sample.silent`;
`H1` calls `Next()`, `quiet` does not; the three handlers are invoked in the order of
their positions, and `run` returns. -/
theorem full_traversal_witness :
    (Sample.silent.handlers.length : Int) < maxInt ∧
    Sample.silent.written = false ∧ Sample.silent.index = 0 ∧ Sample.silent.invoked = [] ∧
    Sample.silent.overflowed = false ∧
    (∃ n0 r, (∀ n, n0 ≤ n →
        run Sample.accepts (fun _ _ => Sample.inOrder) 1 n Sample.silent = r) ∧
      ((∃ c1, r = .done c1 ∧ c1.written = false ∧ c1.overflowed = false ∧
          (Sample.silent.handlers.length : Int) < c1.index ∧
          c1.handlers = Sample.silent.handlers ∧ c1.action = Sample.silent.action ∧
          c1.invoked = (List.range (Sample.silent.handlers.length + 1)).map
            (fun j : Nat => (j : Int))) ∨
       (∃ c1, r = .panic outOfRange c1 ∧ c1.overflowed = true ∧
          c1.invoked = (List.range (Sample.silent.handlers.length + 1)).map
            (fun j : Nat => (j : Int))))) ∧
    ∃ c2, run Sample.accepts (fun _ _ => Sample.inOrder) 1 12 Sample.silent = .done c2 ∧
      c2.invoked = [0, 1, 2] ∧ c2.log = ["before", "quiet", "action", "after"] ∧
      c2.index = 4 :=
  ⟨by decide, rfl, rfl, rfl, rfl,
    (let ⟨n0, r, h1, h2, _⟩ :=
      full_traversal Sample.accepts (fun _ _ => Sample.inOrder) 1 Sample.silent
        Sample.provided
        ⟨⟨Sample.vReq, by decide, rfl⟩, ⟨Sample.vCtx, by decide, by decide⟩⟩
        (fun s v h => silent_store_kept s v h)
        (fun s _ h hs hh => silent_resolves s h hs hh) silent_quiet (by decide) rfl rfl rfl
        rfl
     ⟨n0, r, h1, h2⟩),
    ⟨_, rfl, rfl, rfl, rfl⟩⟩

/-- C11, the claim as stated fails, in two ways.  In `Sample.mismatched` the parameters of
every handler resolve (the `io.Writer` of `listener` to the `int` registered under that
type, and the action has none), no handler writes the response and the context is fresh;
`run` invokes no handler at all: `reflect.Value.Call` panics on the argument that is not
assignable to `io.Writer`.  And in `Sample.greeting` the one parameter of the variadic
middleware `func(names ...string)`, of type `[]string`, resolves to a value of that very
type; `run` again invokes no handler: `Call` takes the value as one element of the variadic
parameter, and a `[]string` is not a `string`. -/
theorem traversal_stops_on_mistyped_value :
    (Sample.mismatched.index = 0 ∧ Sample.mismatched.written = false ∧
     Sample.mismatched.invoked = [] ∧
     (∀ t ∈ Sample.listener.ins, ∃ v,
       Get Sample.inOrder 1 Sample.mismatched.store Sample.mismatched.inj t
         = .value (some v)) ∧
     Sample.A.ins = [] ∧
     (∀ args, Stmt.write ∉ Sample.listener.body args) ∧
     (∀ args, Stmt.write ∉ Sample.A.body args) ∧
     run Sample.accepts (fun _ _ => Sample.inOrder) 1 5 Sample.mismatched
       = .panic reflectPanic Sample.mismatched) ∧
    (Sample.greeting.index = 0 ∧ Sample.greeting.written = false ∧
     Sample.greeting.invoked = [] ∧
     (∀ t ∈ Sample.greet.ins, ∃ v,
       Get Sample.inOrder 1 Sample.greeting.store Sample.greeting.inj t
         = .value (some v) ∧ v.typ = t) ∧
     (∀ args, Stmt.write ∉ Sample.greet.body args) ∧
     run Sample.accepts (fun _ _ => Sample.inOrder) 1 5 Sample.greeting
       = .panic reflectPanic Sample.greeting) := by
  refine ⟨⟨rfl, rfl, rfl, ?_, rfl, ?_, ?_, rfl⟩, rfl, rfl, rfl, ?_, ?_, rfl⟩
  · intro t ht
    simp only [Sample.listener, List.mem_singleton] at ht
    subst ht
    exact ⟨Sample.vInt, by decide⟩
  · intro args
    simp [Sample.listener]
  · intro args
    simp [Sample.A]
  · intro t ht
    simp only [Sample.greet, List.mem_singleton] at ht
    subst ht
    exact ⟨Sample.vStrings, by decide, rfl⟩
  · intro args
    simp [Sample.greet]

/-! ## The context of a request -/

/-- The context `createContext` makes is fresh: cursor 0, nothing invoked, the handlers and
the action of the application, and a new container whose parent is the container of the
application. -/
theorem createContext_fresh (m : Moon) (s : Store) (fresh : Ptr) (self rw req : Val)
    (w : Bool) :
    ∃ c, createContext m s fresh self rw req w = some c ∧ c.index = 0 ∧ c.invoked = [] ∧
      c.overflowed = false ∧
      c.written = w ∧ c.handlers = m.handlers ∧ c.action = m.action ∧ c.inj = fresh ∧
      (c.store fresh).parent = some m.inj := by
  have hc : createContext m s fresh self rw req w = some
      (context.mk
        (Map (Inject.Set (Inject.Set (SetParent (Function.update s fresh New) fresh
          (some m.inj)) fresh tContext (some self)) fresh tResponseWriter (some rw)) fresh
          (some req))
        fresh m.handlers m.action w 0 [] [] false) := rfl
  refine ⟨_, hc, rfl, rfl, rfl, rfl, rfl, rfl, rfl, ?_⟩
  show (Map _ fresh (some req) fresh).parent = some m.inj
  rw [Map_parent, Set_parent, Set_parent]
  simp [SetParent]

end Moon
